import Mathlib

/-!
# Verification of the ClaudeMD document-structure core

Shallow embedding of the ClaudeMD VS Code extension's document parsing,
Markdown conversion, folding and beautify routines, together with proofs
about them.  The repository carries three near-duplicate evolutions of the
core; we embed each one that the properties under study touch:

* `ClaudeMd` (top level): the first variant of `part_000`
  (`maskCodeContent`, `parseDocumentText`, `convertToMarkdown`,
  `beautifyDocument`, the folding provider's tag walk);
* `ClaudeMd.V2`: the second variant of `part_000`
  (`convertClaudeMdToMarkdown`, `processLine`, `processContentLine`);
* `ClaudeMd.V3`: `src/extension.ts` (`parseDocument`, `convertToMarkdown`).

Strings are modelled as `List Char`; a document is split into lines the way
the source does (`text.split(/\r?\n/)`).  Every JavaScript regular
expression used by the source is small and, on inspection, deterministic
(each quantifier's backtracking is forced); each is translated into an
explicit scanner, with a comment recording the regex and the determinization
argument.  Scanners that consume a variable number of characters take a fuel
argument (always instantiated with the input length by their wrappers) so
that all definitions compute by kernel reduction.

JavaScript whitespace (`\s`, `String.prototype.trim`) is modelled on the
ASCII whitespace characters, the only ones the embedding ever feeds it.
-/

set_option maxHeartbeats 1000000

namespace ClaudeMd

/-- The backtick character (written via its code point throughout). -/
def btk : Char := Char.ofNat 96

/-- The single-quote character. -/
def sq : Char := Char.ofNat 39

/-- JS whitespace: space, tab, newline, carriage return, vertical tab, form feed. -/
def isSpace (c : Char) : Bool :=
  c = ' ' || c = '\t' || c = '\n' || c = '\r' || c = Char.ofNat 11 || c = Char.ofNat 12

/-- JavaScript `.` in a regex without the `s` flag: any character except a
line terminator, so in particular not `\r` and not `\n`. -/
def dotMatches (c : Char) : Bool := !(c = '\n' || c = '\r')

/-- ASCII letter, as in the source's `[a-zA-Z]`. -/
def isAsciiLetter (c : Char) : Bool :=
  ('a' ≤ c && c ≤ 'z') || ('A' ≤ c && c ≤ 'Z')

/-- ASCII digit, as in `\d` / `[0-9]`. -/
def isDigitCh (c : Char) : Bool := '0' ≤ c && c ≤ '9'

/-- First character of a tag name: `[a-zA-Z_]`. -/
def isNameStart (c : Char) : Bool := isAsciiLetter c || c = '_'

/-- Later characters of a tag name: `[a-zA-Z0-9_-]`. -/
def isNameChar (c : Char) : Bool := isAsciiLetter c || isDigitCh c || c = '_' || c = '-'

/-- `text.split(/\r?\n/)`: break at `\n`, consuming one `\r` directly before
it; a `\r` not followed by `\n` is ordinary content.  `acc` holds the
current line reversed. -/
def splitLinesGo : List Char → List Char → List (List Char)
  | acc, [] => [acc.reverse]
  | acc, '\r' :: '\n' :: rest => acc.reverse :: splitLinesGo [] rest
  | acc, '\n' :: rest => acc.reverse :: splitLinesGo [] rest
  | acc, c :: rest => splitLinesGo (c :: acc) rest

/-- `text.split(/\r?\n/)`. -/
def splitLines (cs : List Char) : List (List Char) := splitLinesGo [] cs

/-- Join lines back with `\n`, as `result.join('\n')`. -/
def joinLines (ls : List (List Char)) : List Char := List.intercalate ['\n'] ls

/-- Remove trailing JS whitespace. -/
def dropTrailingSpace (cs : List Char) : List Char :=
  (cs.reverse.dropWhile isSpace).reverse

/-- `String.prototype.trim`. -/
def trimChars (cs : List Char) : List Char := dropTrailingSpace (cs.dropWhile isSpace)

/-- Decimal rendering of a `Nat` (the digits `toString`/template literals
produce for the placeholder index), fueled for structural recursion. -/
def natDigitsAux : Nat → Nat → List Char
  | 0, _ => []
  | fuel + 1, n =>
    if n < 10 then [Char.ofNat (48 + n)]
    else natDigitsAux fuel (n / 10) ++ [Char.ofNat (48 + n % 10)]

/-- Decimal rendering of a `Nat`. -/
def natDigits (n : Nat) : List Char := natDigitsAux (n + 1) n

/-- Numeric value of a digit character. -/
def digitVal (c : Char) : Nat := c.toNat - 48

/-- `parseInt` on a run of decimal digits. -/
def digitsToNat (ds : List Char) : Nat := ds.foldl (fun a c => a * 10 + digitVal c) 0

/-! ## The code-mask utility (`maskCodeContent` / `unmaskCodeContent`)

Source, first variant of `part_000`:

    let masked = text.replace(/(`\x7b2,\x7d)([^`]+?)\1/g, ...push \x00CODE\x7bi\x7d\x00...)
    masked = masked.replace(/`([^`]+)`/g, ...push \x00CODE\x7bi\x7d\x00...)
    unmask: text.replace(/\x00CODE(\d+)\x00/g, (_, i) => codeBlocks[parseInt(i)])
-/

/-- A piece of a line as seen by one masking pass: an unmatched character or
one matched code span (the full match, delimiters included). -/
inductive CodeSeg where
  | lit (c : Char)
  | code (s : List Char)
deriving Repr, DecidableEq

/-- Length of the run of backticks at the head. -/
def btkRun : List Char → Nat
  | [] => 0
  | c :: rest => if c = btk then btkRun rest + 1 else 0

/-- Matching the lazy content-and-backreference part of the multi-backtick
regex: `revContent` (reversed, already non-empty) grows one non-backtick
character at a time, and before each extension we test whether `k` backticks
follow (the backreference `\1`; lazy `+?` stops at the first success). -/
def multiContentGo (k : Nat) : List Char → List Char → Option (List Char × List Char)
  | revContent, rest =>
    if List.isPrefixOf (List.replicate k btk) rest then
      some (revContent.reverse, rest.drop k)
    else
      match rest with
      | [] => none
      | c :: r => if c = btk then none else multiContentGo k (c :: revContent) r

/-- Content of `([^`]+?)` followed by the backreference: at least one
non-backtick character is required before the first backreference test. -/
def multiContent (k : Nat) : List Char → Option (List Char × List Char)
  | [] => none
  | c :: r => if c = btk then none else multiContentGo k [c] r

/-- Match of `/(`\x7b2,\x7d)([^`]+?)\1/` anchored at the head.  The greedy
`\x7b2,\x7d` starts at the full leading backtick run `r`; any shorter choice
leaves a backtick as the next character, where `[^`]` fails at once, so only
`k = r` can succeed and the scan is deterministic.  Returns the whole match
and the rest. -/
def matchMultiAt (cs : List Char) : Option (List Char × List Char) :=
  let r := btkRun cs
  if r < 2 then none
  else
    match multiContent r (cs.drop r) with
    | some (content, rest) =>
      some (List.replicate r btk ++ content ++ List.replicate r btk, rest)
    | none => none

/-- The global scan of the multi-backtick pass (`.replace(..., /g)`): try a
match at each position, resuming after a match's end.  Fuel is the input
length (every step consumes at least one character). -/
def scanMultiGo : Nat → List Char → List CodeSeg
  | 0, _ => []
  | _, [] => []
  | fuel + 1, c :: rest =>
    match matchMultiAt (c :: rest) with
    | some (m, rest') => .code m :: scanMultiGo fuel rest'
    | none => .lit c :: scanMultiGo fuel rest

/-- Segments of the multi-backtick pass. -/
def scanMulti (cs : List Char) : List CodeSeg := scanMultiGo cs.length cs

/-- Match of ``/`([^`]+)`/`` anchored at the head.  The greedy `[^`]+` runs
to the next backtick or the end; only the former yields a match, so the scan
is deterministic. -/
def matchSingleAt : List Char → Option (List Char × List Char)
  | [] => none
  | c :: rest =>
    if c = btk then
      match rest.takeWhile (· ≠ btk), rest.dropWhile (· ≠ btk) with
      | [], _ => none
      | _ :: _, [] => none
      | x :: xs, _ :: rest2 => some ((btk :: x :: xs) ++ [btk], rest2)
    else none

/-- Global scan of the single-backtick pass. -/
def scanSingleGo : Nat → List Char → List CodeSeg
  | 0, _ => []
  | _, [] => []
  | fuel + 1, c :: rest =>
    match matchSingleAt (c :: rest) with
    | some (m, rest') => .code m :: scanSingleGo fuel rest'
    | none => .lit c :: scanSingleGo fuel rest

/-- Segments of the single-backtick pass. -/
def scanSingle (cs : List Char) : List CodeSeg := scanSingleGo cs.length cs

/-- The placeholder `\x00CODE\x7bn\x7d\x00`. -/
def phChars (n : Nat) : List Char :=
  '\x00' :: 'C' :: 'O' :: 'D' :: 'E' :: (natDigits n ++ ['\x00'])

/-- Replace each matched span with a placeholder, numbering from `idx`
(`codeBlocks.length` at push time), and collect the spans. -/
def renderSegsGo : Nat → List CodeSeg → List Char × List (List Char)
  | _, [] => ([], [])
  | idx, .lit c :: rest =>
    let p := renderSegsGo idx rest
    (c :: p.1, p.2)
  | idx, .code s :: rest =>
    let p := renderSegsGo (idx + 1) rest
    (phChars idx ++ p.1, s :: p.2)

/-- Result of `maskCodeContent`. -/
structure MaskResult where
  masked : List Char
  codeBlocks : List (List Char)
deriving Repr, DecidableEq

/-- `maskCodeContent`: the multi-backtick pass, then the single-backtick
pass over its output, pushing onto the same `codeBlocks` array. -/
def maskCodeContent (text : List Char) : MaskResult :=
  let p1 := renderSegsGo 0 (scanMulti text)
  let p2 := renderSegsGo p1.2.length (scanSingle p1.1)
  ⟨p2.1, p1.2 ++ p2.2⟩

/-- Match of `/\x00CODE(\d+)\x00/` anchored at the head.  The greedy `\d+`
is the maximal digit run; a shorter choice leaves a digit where `\x00` is
required, so the parse is deterministic. -/
def placeholderAt (cs : List Char) : Option (Nat × List Char) :=
  if List.isPrefixOf ('\x00' :: 'C' :: 'O' :: 'D' :: ['E']) cs then
    let rest := cs.drop 5
    match rest.takeWhile isDigitCh, rest.dropWhile isDigitCh with
    | [], _ => none
    | _ :: _, c :: rest3 =>
      if c = '\x00' then some (digitsToNat (rest.takeWhile isDigitCh), rest3) else none
    | _, _ => none
  else none

/-- `codeBlocks[n]`; an out-of-range index gives JS `undefined`, coerced to
the string `"undefined"` by `String.replace`. -/
def blockAt (blocks : List (List Char)) (n : Nat) : List Char :=
  (blocks.get? n).getD ("undefined".data)

/-- The global placeholder-replacing scan of `unmaskCodeContent`. -/
def unmaskGo (blocks : List (List Char)) : Nat → List Char → List Char
  | 0, rest => rest
  | _, [] => []
  | fuel + 1, c :: rest =>
    match placeholderAt (c :: rest) with
    | some p => blockAt blocks p.1 ++ unmaskGo blocks fuel p.2
    | none => c :: unmaskGo blocks fuel rest

/-- `unmaskCodeContent`. -/
def unmaskCodeContent (text : List Char) (blocks : List (List Char)) : List Char :=
  unmaskGo blocks text.length text

/-! ## Line classifiers (`parseDocumentText`'s per-line regexes)

    codeBlockRegex      = /^(\s*)(`\x7b3,\x7d|~\x7b3,\x7d)/
    headerRegex         = /^(#\x7b1,6\x7d)\s+(.+?)\s*$/
    horizontalRuleRegex = /^\s*([-*_])\x7b3,\x7d\s*$/
-/

/-- `codeBlockRegex` succeeds iff, after leading whitespace, at least three
backticks or three tildes follow (the regex is unanchored on the right).
The beautifier toggles on the same regex; the converter's variant appends
`(.*)$` and is stricter, see `isFenceLineConvV1`. -/
def isFenceLine (cs : List Char) : Bool :=
  let t := cs.dropWhile isSpace
  List.isPrefixOf [btk, btk, btk] t || List.isPrefixOf ['~', '~', '~'] t

/-- The first variant converter's fence regex
`/^(\s*)(`\x7b3,\x7d|~\x7b3,\x7d)(.*)$/`: as `isFenceLine`, but the whole
remainder after the (maximal) fence run must consist of characters `.`
matches — a carriage return there (kept by the `/\r?\n/` split when not
followed by a newline) makes the anchored match fail, while the parser's
unanchored regex still fires.  Backtracking cannot rescue such a line: a
shorter run or shorter leading whitespace leaves the offending character
inside `(.*)` all the same. -/
def isFenceLineConvV1 (cs : List Char) : Bool :=
  let t := cs.dropWhile isSpace
  (List.isPrefixOf [btk, btk, btk] t && (t.dropWhile (· = btk)).all dotMatches) ||
    (List.isPrefixOf ['~', '~', '~'] t && (t.dropWhile (· = '~')).all dotMatches)

/-- A character of the horizontal-rule class `[-*_]`. -/
def hrChar (c : Char) : Bool := c = '-' || c = '*' || c = '_'

/-- `horizontalRuleRegex`: leading whitespace, then three or more characters
each from `[-*_]` (the repeated capturing group does **not** force them to
be identical, nor does it admit interior whitespace), then trailing
whitespace to the end.  The class and `\s` are disjoint, so the greedy
quantifiers leave nothing to backtrack over. -/
def isHorizontalRule (cs : List Char) : Bool :=
  let t := cs.dropWhile isSpace
  3 ≤ (t.takeWhile hrChar).length && (t.dropWhile hrChar).all isSpace

/-- `headerRegex` match: the level and the captured text.  Anchored `#` run
of length 1..6 followed by at least one whitespace.  The interplay of the
greedy `\s+`, lazy `(.+?)` and `\s*$` makes the capture: the rest trimmed of
surrounding whitespace when it has a non-whitespace character — but only
when that trimmed core is free of characters `.` cannot match (`\r`), since
the capture must span from the first to the last non-whitespace character;
when the rest is whitespace only, `\s+` backtracks until the capture is the
last whitespace character `.` accepts, whose position must leave at least
one whitespace character before it. -/
def headerMatch (cs : List Char) : Option (Nat × List Char) :=
  let k := (cs.takeWhile (· = '#')).length
  if k = 0 ∨ 6 < k then none
  else
    match cs.drop k with
    | [] => none
    | c :: r =>
      if isSpace c then
        let body := (c :: r).dropWhile isSpace
        if body.isEmpty then
          match (c :: r).reverse.dropWhile (fun d => !dotMatches d) with
          | d :: _ :: _ => some (k, [d])
          | _ => none
        else
          if (dropTrailingSpace body).all dotMatches then
            some (k, dropTrailingSpace body)
          else none
      else none

/-! ## Tag scanning (`parseDocumentText`'s tag regexes)

    xmlOpeningTagRegex  = /<([a-zA-Z_][a-zA-Z0-9_-]*)(\s+[^>]*)?\s*>/g
    xmlClosingTagRegex  = /<\/([a-zA-Z_][a-zA-Z0-9_-]*)>/g
    xmlSelfClosingRegex = /<([a-zA-Z_][a-zA-Z0-9_-]*)(\s+[^>]*)?\s*\/>/g
    attrRegex = /([a-zA-Z_][a-zA-Z0-9_-]*)\s*=\s*(?:"([^"]*)"|'([^']*)'|([^\s>]+))/g
-/

/-- Parse a tag name `[a-zA-Z_][a-zA-Z0-9_-]*` at the head (greedy; the name
is always maximal, since every follower the regexes allow after it fails on
a name character). -/
def nameAt : List Char → Option (List Char × List Char)
  | [] => none
  | c :: rest =>
    if isNameStart c then some (c :: rest.takeWhile isNameChar, rest.dropWhile isNameChar)
    else none

/-- Parse `(\s+[^>]*)?\s*>` (equivalently `(?:\s+[^>]*)?>`: with the group
absent, `\s*` covers what `\s+[^>]*` would) after a tag name.  Since `[^>]`
cannot pass a `>`, the closing `>` is the first one, and the stretch before
it must be empty or start with whitespace; the greedy capture takes the
whole stretch.  Returns (captured attribute text, rest after `>`). -/
def attrThenGt (cs : List Char) : Option (List Char × List Char) :=
  match cs.dropWhile (· ≠ '>') with
  | '>' :: rest2 =>
    match cs.takeWhile (· ≠ '>') with
    | [] => some ([], rest2)
    | c :: q => if isSpace c then some (c :: q, rest2) else none
  | _ => none

/-- Parse `(\s+[^>]*)?\s*\/>` after a tag name: as `attrThenGt`, but the
character before the first `>` must be `/` (the literal `\/`), which is not
part of the capture. -/
def attrThenSlashGt (cs : List Char) : Option (List Char × List Char) :=
  match cs.dropWhile (· ≠ '>') with
  | '>' :: rest2 =>
    match (cs.takeWhile (· ≠ '>')).reverse with
    | '/' :: revp =>
      match revp.reverse with
      | [] => some ([], rest2)
      | c :: q => if isSpace c then some (c :: q, rest2) else none
    | _ => none
  | _ => none

/-- One attribute value: `"([^"]*)"` or `'([^']*)'` or the bare `[^\s>]+`.
An opening quote without a closing one falls back to the bare alternative
(which accepts the quote character itself). -/
def attrBare (cs : List Char) : Option (List Char × List Char) :=
  match cs.takeWhile (fun c => !isSpace c && c ≠ '>') with
  | [] => none
  | v => some (v, cs.drop v.length)

/-- Quoted attribute value with delimiter `q`, or `none`. -/
def attrQuoted (q : Char) (cs : List Char) : Option (List Char × List Char) :=
  match cs with
  | c :: r =>
    if c = q then
      match r.dropWhile (· ≠ q) with
      | _ :: r2 => some (r.takeWhile (· ≠ q), r2)
      | [] => none
    else none
  | [] => none

/-- The value alternation of `attrRegex`, in order. -/
def attrValueAt (cs : List Char) : Option (List Char × List Char) :=
  match attrQuoted '"' cs with
  | some p => some p
  | none =>
    match attrQuoted sq cs with
    | some p => some p
    | none => attrBare cs

/-- One `attrRegex` match anchored at the head: name, `\s*=\s*`, value. -/
def attrMatchAt (cs : List Char) : Option ((List Char × List Char) × List Char) :=
  match nameAt cs with
  | some (nm, r1) =>
    match r1.dropWhile isSpace with
    | '=' :: r3 =>
      match attrValueAt (r3.dropWhile isSpace) with
      | some (v, rest) => some ((nm, v), rest)
      | none => none
    | _ => none
  | none => none

/-- JS `Map.set`: overwrite in place keeping first-insertion order, else
append. -/
def mapSet {α β : Type} [DecidableEq α] (m : List (α × β)) (k : α) (v : β) :
    List (α × β) :=
  if m.any (fun kv => kv.1 = k) then m.map (fun kv => if kv.1 = k then (k, v) else kv)
  else m ++ [(k, v)]

/-- JS `Map.get` (the maps below never hold duplicate keys). -/
def mapGet {α β : Type} [DecidableEq α] (m : List (α × β)) (k : α) : Option β :=
  (m.find? (fun kv => kv.1 = k)).map (·.2)

/-- JS `Set.add`. -/
def setAdd (s : List Nat) (x : Nat) : List Nat := if x ∈ s then s else s ++ [x]

/-- JS `String.prototype.includes`. -/
def containsSub (pat : List Char) : List Char → Bool
  | [] => pat.isEmpty
  | c :: rest => List.isPrefixOf pat (c :: rest) || containsSub pat rest

/-- The global scan of `attrRegex` over an attribute string (`parseAttributes`):
on a match, continue after it; otherwise advance one character.  Later
duplicate names overwrite earlier ones (`Map.set`). -/
def parseAttributesGo : Nat → List Char → List (List Char × List Char) →
    List (List Char × List Char)
  | 0, _, acc => acc
  | _, [], acc => acc
  | fuel + 1, c :: rest, acc =>
    match attrMatchAt (c :: rest) with
    | some (kv, rest') => parseAttributesGo fuel rest' (mapSet acc kv.1 kv.2)
    | none => parseAttributesGo fuel rest acc

/-- `parseAttributes`. -/
def parseAttributes (cs : List Char) : List (List Char × List Char) :=
  parseAttributesGo cs.length cs []

/-- `xmlSelfClosingRegex` match anchored at the head: (name, captured
attribute text, match length, rest). -/
def selfClosingMatchAt (cs : List Char) : Option (List Char × List Char × Nat × List Char) :=
  match cs with
  | '<' :: rest =>
    match nameAt rest with
    | some (nm, r1) =>
      match attrThenSlashGt r1 with
      | some (attrText, rest2) => some (nm, attrText, cs.length - rest2.length, rest2)
      | none => none
    | none => none
  | _ => none

/-- `xmlClosingTagRegex` match anchored at the head: (name, match length, rest). -/
def closingMatchAt (cs : List Char) : Option (List Char × Nat × List Char) :=
  match cs with
  | '<' :: '/' :: rest =>
    match nameAt rest with
    | some (nm, r1) =>
      match r1 with
      | '>' :: rest2 => some (nm, nm.length + 3, rest2)
      | _ => none
    | none => none
  | _ => none

/-- `xmlOpeningTagRegex` match anchored at the head: (name, captured
attribute text, match length, rest). -/
def openingMatchAt (cs : List Char) : Option (List Char × List Char × Nat × List Char) :=
  match cs with
  | '<' :: rest =>
    match nameAt rest with
    | some (nm, r1) =>
      match attrThenGt r1 with
      | some (attrText, rest2) => some (nm, attrText, cs.length - rest2.length, rest2)
      | none => none
    | none => none
  | _ => none

/-- Global scan for self-closing tags, also producing the line with each
match blanked to spaces, as `masked.replace(xmlSelfClosingRegex, m =>
' '.repeat(m.length))`.  `pos` tracks `match.index`. -/
def selfClosingScanGo : Nat → Nat → List Char →
    List (Nat × List Char × List Char × Nat) × List Char
  | 0, _, cs => ([], cs)
  | _, _, [] => ([], [])
  | fuel + 1, pos, c :: rest =>
    match selfClosingMatchAt (c :: rest) with
    | some (nm, attrText, len, rest') =>
      let p := selfClosingScanGo fuel (pos + len) rest'
      ((pos, nm, attrText, pos + len) :: p.1, List.replicate len ' ' ++ p.2)
    | none =>
      let p := selfClosingScanGo fuel (pos + 1) rest
      (p.1, c :: p.2)

/-- Global scan for closing tags: list of (start, name, end). -/
def closingScanGo : Nat → Nat → List Char → List (Nat × List Char × Nat)
  | 0, _, _ => []
  | _, _, [] => []
  | fuel + 1, pos, c :: rest =>
    match closingMatchAt (c :: rest) with
    | some (nm, len, rest') => (pos, nm, pos + len) :: closingScanGo fuel (pos + len) rest'
    | none => closingScanGo fuel (pos + 1) rest

/-- Global scan for opening tags: list of (start, name, attribute text, end). -/
def openingScanGo : Nat → Nat → List Char → List (Nat × List Char × List Char × Nat)
  | 0, _, _ => []
  | _, _, [] => []
  | fuel + 1, pos, c :: rest =>
    match openingMatchAt (c :: rest) with
    | some (nm, attrText, len, rest') =>
      (pos, nm, attrText, pos + len) :: openingScanGo fuel (pos + len) rest'
    | none => openingScanGo fuel (pos + 1) rest

/-- A recorded tag occurrence. -/
structure XmlTag where
  name : List Char
  line : Nat
  indent : Nat
  isOpening : Bool
  isClosing : Bool
  isSelfClosing : Bool
  attributes : List (List Char × List Char)
  startIndex : Nat
  endIndex : Nat
deriving Repr, DecidableEq

/-- A recorded Markdown header occurrence. -/
structure MarkdownHeader where
  level : Nat
  line : Nat
  text : List Char
deriving Repr, DecidableEq

/-- The document-structure aggregate. -/
structure DocumentStructure where
  xmlTags : List XmlTag
  headers : List MarkdownHeader
  horizontalRules : List Nat
deriving Repr, DecidableEq

/-- The tags `parseDocumentText` records on one (outside-code, non-fence,
non-rule) line: the line is masked, then self-closing tags are scanned,
then closing tags (on the masked line), then opening tags on the masked
line with the self-closing matches blanked out. -/
def parseLineTags (i : Nat) (line : List Char) : List XmlTag :=
  let indent := line.length - (line.dropWhile isSpace).length
  let masked := (maskCodeContent line).masked
  let sc := selfClosingScanGo masked.length 0 masked
  (sc.1.map fun m =>
    ⟨m.2.1, i, indent, false, false, true, parseAttributes m.2.2.1, m.1, m.2.2.2⟩) ++
  ((closingScanGo masked.length 0 masked).map fun m =>
    ⟨m.2.1, i, indent, false, true, false, [], m.1, m.2.2⟩) ++
  ((openingScanGo sc.2.length 0 sc.2).map fun m =>
    ⟨m.2.1, i, indent, true, false, false, parseAttributes m.2.2.1, m.1, m.2.2.2⟩)

/-- What `parseDocumentText` records on one line reached outside a code
block and not matching the fence regex: a horizontal rule records only its
line number and short-circuits; otherwise a header (if any) and the line's
tags. -/
def parseLineStructure (i : Nat) (line : List Char) : DocumentStructure :=
  if isHorizontalRule line then ⟨[], [], [i]⟩
  else
    ⟨parseLineTags i line,
     match headerMatch line with
     | some kt => [⟨kt.1, i, kt.2⟩]
     | none => [],
     []⟩

/-- The line loop of `parseDocumentText`: a fence line toggles the
code-block state and records nothing; a line inside a code block records
nothing. -/
def parseGo : Bool → Nat → List (List Char) → DocumentStructure
  | _, _, [] => ⟨[], [], []⟩
  | inCode, i, l :: rest =>
    if isFenceLine l then parseGo (!inCode) (i + 1) rest
    else if inCode then parseGo inCode (i + 1) rest
    else
      let s := parseLineStructure i l
      let s' := parseGo inCode (i + 1) rest
      ⟨s.xmlTags ++ s'.xmlTags, s.headers ++ s'.headers,
       s.horizontalRules ++ s'.horizontalRules⟩

/-- `parseDocumentText`. -/
def parseDocumentText (text : List Char) : DocumentStructure :=
  parseGo false 0 (splitLines text)

/-- The code-block state the parser's and the beautifier's line loops are
in when they reach line `i` (both toggle on `isFenceLine`; the first
variant converter's loop toggles on the stricter `isFenceLineConvV1`, see
`convV1CodeStateAt`). -/
def codeStateAt (b : Bool) (ls : List (List Char)) (i : Nat) : Bool :=
  (ls.take i).foldl (fun st l => if isFenceLine l then !st else st) b

/-- The code-block state the first variant converter's loop is in when it
reaches line `i` (it toggles on its own anchored fence regex). -/
def convV1CodeStateAt (b : Bool) (ls : List (List Char)) (i : Nat) : Bool :=
  (ls.take i).foldl (fun st l => if isFenceLineConvV1 l then !st else st) b

/-! ## The Markdown transformer (`convertToMarkdown`, first variant)

The converter first walks `structure.xmlTags` building `tagDepthMap`,
`tagInfoMap` and `tagEndLines` with a stack and a depth counter reset at
horizontal rules, then rewrites the document line by line. -/

/-- State of the tag walk.  The stack is kept top-first (the source pushes
onto the end of an array and searches from the end down; head-first lists
model that with the head as the top). -/
structure ConvSt where
  depth : Int
  stack : List (List Char × Nat)
  dmap : List (Nat × Int)
  imap : List (Nat × (List Char × List (List Char × List Char)))
  ends : List Nat
deriving Repr, DecidableEq

/-- One iteration of the horizontal-rule reset loop:
`if (hrLine < tag.line && (tagStack.length === 0 || hrLine >
tagStack[tagStack.length - 1].line)) \x7b currentDepth = 0; tagStack.length = 0; \x7d`. -/
def hrTrigger (tagLine : Nat) (stack : List (List Char × Nat)) (hr : Nat) : Bool :=
  hr < tagLine &&
    (stack.isEmpty || (match stack.head? with | some top => top.2 < hr | none => false))

/-- `for (const hrLine of hrLines) \x7b ... \x7d` (a JS `Set` iterates in
insertion order, which for `horizontalRules` is document order). -/
def hrResetLoop (hrs : List Nat) (tagLine : Nat) (d : Int)
    (stack : List (List Char × Nat)) : Int × List (List Char × Nat) :=
  hrs.foldl (fun p hr => if hrTrigger tagLine p.2 hr then (0, []) else p) (d, stack)

/-- Search the stack from the top for the first entry with the given name
and remove it, returning its line as well; `none` when absent. -/
def tagStackFind (nm : List Char) : List (List Char × Nat) →
    Option (Nat × List (List Char × Nat))
  | [] => none
  | e :: rest =>
    if e.1 = nm then some (e.2, rest)
    else
      match tagStackFind nm rest with
      | some p => some (p.1, e :: p.2)
      | none => none

/-- One step of the tag walk. -/
def convTagStep (hrs : List Nat) (st : ConvSt) (t : XmlTag) : ConvSt :=
  let p := hrResetLoop hrs t.line st.depth st.stack
  let d := p.1
  let stk := p.2
  if t.isOpening then
    { depth := d + 1, stack := (t.name, t.line) :: stk,
      dmap := mapSet st.dmap t.line d,
      imap := mapSet st.imap t.line (t.name, t.attributes), ends := st.ends }
  else if t.isClosing then
    match tagStackFind t.name stk with
    | some q =>
      { depth := max 0 (d - 1), stack := q.2, dmap := st.dmap, imap := st.imap,
        ends := setAdd st.ends t.line }
    | none =>
      { depth := d, stack := stk, dmap := st.dmap, imap := st.imap,
        ends := setAdd st.ends t.line }
  else if t.isSelfClosing then
    { depth := d, stack := stk, dmap := mapSet st.dmap t.line d,
      imap := mapSet st.imap t.line (t.name, t.attributes), ends := st.ends }
  else { depth := d, stack := stk, dmap := st.dmap, imap := st.imap, ends := st.ends }

/-- The whole tag walk. -/
def convBuildSt (hrs : List Nat) (tags : List XmlTag) : ConvSt :=
  tags.foldl (convTagStep hrs) ⟨0, [], [], [], []⟩

/-- `.replace(/_/g, '\\_')`. -/
def escUnderscore : List Char → List Char
  | [] => []
  | c :: r => if c = '_' then '\\' :: '_' :: escUnderscore r else c :: escUnderscore r

/-- The attribute rendering ` (k="v", k2="v2")` with underscores in keys
escaped; empty for an empty map. -/
def attrsRender (attrs : List (List Char × List Char)) : List Char :=
  if attrs.isEmpty then []
  else
    ' ' :: '(' ::
      (List.intercalate (", ".data)
        (attrs.map fun kv => escUnderscore kv.1 ++ '=' :: '"' :: kv.2 ++ ['"'])) ++ [')']

/-- The header line the tag branch pushes for depth `d`:
level `min(d + 2, 6)`, name with underscores escaped, attributes. -/
def tagHeaderLine (d : Int) (nm : List Char)
    (attrs : List (List Char × List Char)) : List Char :=
  List.replicate (min (d + 2) 6).toNat '#' ++ ' ' :: escUnderscore nm ++ attrsRender attrs

/-- Match of `` `<$\x7bname\x7d(?:\s+[^>]*)?>\s*(.*)$` `` anchored at a
position: the capture, i.e. the rest of the line after the first `>` and
any following whitespace. -/
def tagContentAtPos (nm : List Char) (cs : List Char) : Option (List Char) :=
  match cs with
  | '<' :: rest =>
    if List.isPrefixOf nm rest then
      match attrThenGt (rest.drop nm.length) with
      | some p =>
        if (p.2.dropWhile isSpace).all dotMatches then some (p.2.dropWhile isSpace)
        else none
      | none => none
    else none
  | _ => none

/-- The unanchored search `line.match(tagPattern)`: first matching position
(a position whose trailing `(.*)$` would have to cross a carriage return
does not match, and the search moves on). -/
def findTagContentGo (nm : List Char) : Nat → List Char → Option (List Char)
  | 0, _ => none
  | _, [] => none
  | fuel + 1, c :: rest =>
    match tagContentAtPos nm (c :: rest) with
    | some content => some content
    | none => findTagContentGo nm fuel rest

/-- Match of the stray-tag stripper `/<\/?[a-zA-Z_][a-zA-Z0-9_-]*(?:\s+[^>]*)?>/`
anchored at the head; returns the rest after the match. -/
def stripTagMatchAt (cs : List Char) : Option (List Char) :=
  match cs with
  | '<' :: rest =>
    match (match rest with | '/' :: r => nameAt r | _ => nameAt rest) with
    | some p =>
      match attrThenGt p.2 with
      | some q => some q.2
      | none => none
    | none => none
  | _ => none

/-- `.replace(/<\/?[a-zA-Z_][a-zA-Z0-9_-]*(?:\s+[^>]*)?>/g, '')`. -/
def stripTagsGo : Nat → List Char → List Char
  | 0, cs => cs
  | _, [] => []
  | fuel + 1, c :: rest =>
    match stripTagMatchAt (c :: rest) with
    | some rest' => stripTagsGo fuel rest'
    | none => c :: stripTagsGo fuel rest

/-- The lines `convertToMarkdown`'s loop pushes for one input line, and the
updated code-block state.  Order of the branches as in the source: fence
toggle (push unchanged), in-block (push unchanged), recorded closing line
(push one empty line), recorded tag line (push header, empty line, and any
trailing same-line content trimmed), otherwise mask, strip stray tags,
unmask, and push unless that emptied a non-blank line.  (`tagInfoMap` is
read with `!` in the source; its keys always coincide with `tagDepthMap`'s,
and the impossible miss is modelled as emitting nothing.) -/
def convertLineEmit (st : ConvSt) (inCode : Bool) (i : Nat) (line : List Char) :
    List (List Char) :=
  if isFenceLineConvV1 line then [line]
  else if inCode then [line]
  else if st.ends.contains i then [[]]
  else
    match mapGet st.dmap i with
    | some d =>
      match mapGet st.imap i with
      | some info =>
        let content :=
          match findTagContentGo info.1 line.length line with
          | some c => if (trimChars c).isEmpty then [] else [trimChars c]
          | none => []
        tagHeaderLine d info.1 info.2 :: [] :: content
      | none => []
    | none =>
      let mr := maskCodeContent line
      let processed := unmaskCodeContent (stripTagsGo mr.masked.length mr.masked) mr.codeBlocks
      if ¬ (trimChars processed).isEmpty ∨ (trimChars line).isEmpty then [processed]
      else []

/-- The line loop, yielding the pushed lines grouped by input line (the
source mutates `inCodeBlock` only in the fence branch, which the loop
threads as a toggle). -/
def convertLoop (st : ConvSt) : Bool → Nat → List (List Char) → List (List (List Char))
  | _, _, [] => []
  | inCode, i, l :: rest =>
    convertLineEmit st inCode i l ::
      convertLoop st (if isFenceLineConvV1 l then !inCode else inCode) (i + 1) rest

/-- The converter's precomputed tag-walk state for a document. -/
def convStOf (text : List Char) : ConvSt :=
  convBuildSt (parseDocumentText text).horizontalRules (parseDocumentText text).xmlTags

/-- The lines pushed while processing input line `i`. -/
def convertEmits (text : List Char) (i : Nat) : List (List Char) :=
  ((convertLoop (convStOf text) false 0 (splitLines text)).get? i).getD []

/-- `convertToMarkdown` (first variant of `part_000`). -/
def convertToMarkdown (text : List Char) : List Char :=
  joinLines (List.flatten (convertLoop (convStOf text) false 0 (splitLines text)))

/-! ## The folding provider's tag walk (first variant) -/

/-- One step of `ClaudeMdFoldingRangeProvider`'s tag walk: push opening
tags; on a closing tag, search the stack top-down for the matching name and,
if found, emit `[startLine, endLine]` when `endLine > startLine` and remove
the entry; an unmatched closing tag changes nothing. -/
def foldTagStep (p : List (List Char × Nat) × List (Nat × Nat)) (t : XmlTag) :
    List (List Char × Nat) × List (Nat × Nat) :=
  if t.isOpening then ((t.name, t.line) :: p.1, p.2)
  else if t.isClosing then
    match tagStackFind t.name p.1 with
    | some q => (q.2, if q.1 < t.line then p.2 ++ [(q.1, t.line)] else p.2)
    | none => p
  else p

/-- The tag-derived folding ranges. -/
def foldTagRanges (tags : List XmlTag) : List (Nat × Nat) :=
  (tags.foldl foldTagStep ([], [])).2

namespace V2

/-! ## The second variant of `part_000`: `convertClaudeMdToMarkdown`

State: `inFencedCodeBlock`, `fenceChar`, `fenceLength`, and a tag stack of
`\x7bname, attributes, depth\x7d` (attributes kept as the raw trimmed
string).  A fence only closes when the line matches
`^\s*$\x7bfenceChar\x7d\x7b$\x7bfenceLength\x7d,\x7d\s*$`. -/

/-- An entry of the second variant's tag stack. -/
structure TagInfo where
  name : List Char
  attributes : List Char
  depth : Nat
deriving Repr, DecidableEq

/-- Match of `/^(\s*)(`\x7b3,\x7d|~\x7b3,\x7d)(.*)$/`: the fence character
and run length (the greedy run is maximal). -/
def fenceParse (l : List Char) : Option (Char × Nat) :=
  match l.dropWhile isSpace with
  | c :: r =>
    if c = btk ∨ c = '~' then
      if 2 ≤ (r.takeWhile (· = c)).length then
        if (r.dropWhile (· = c)).all dotMatches then
          some (c, (r.takeWhile (· = c)).length + 1)
        else none
      else none
    else none
  | [] => none

/-- Match of the dynamically built closing regex
`^\s*$\x7bc\x7d\x7b$\x7bL\x7d,\x7d\s*$`. -/
def fenceCloses (c : Char) (L : Nat) (l : List Char) : Bool :=
  let t := l.dropWhile isSpace
  L ≤ (t.takeWhile (· = c)).length && (t.dropWhile (· = c)).all isSpace

/-- Search the stack (top-first) for a name and remove the first match. -/
def stackRemove (nm : List Char) : List TagInfo → Option (List TagInfo)
  | [] => none
  | e :: rest =>
    if e.name = nm then some rest
    else (stackRemove nm rest).map (e :: ·)

/-- Match of `/^<\/([a-zA-Z_][a-zA-Z0-9_-]*)>\s*$/` on the trimmed line. -/
def standaloneClosing (trimmed : List Char) : Option (List Char) :=
  match trimmed with
  | '<' :: '/' :: rest =>
    match nameAt rest with
    | some (nm, r1) =>
      match r1 with
      | '>' :: r2 => if r2.all isSpace then some nm else none
      | _ => none
    | none => none
  | _ => none

/-- Match of `/^<([a-zA-Z_][a-zA-Z0-9_-]*)(\s+[^>]*)?>$/` on the trimmed
line: name and captured attribute text. -/
def standaloneOpening (trimmed : List Char) : Option (List Char × List Char) :=
  match trimmed with
  | '<' :: rest =>
    match nameAt rest with
    | some (nm, r1) =>
      match attrThenGt r1 with
      | some (attrText, rest2) => if rest2.isEmpty then some (nm, attrText) else none
      | none => none
    | none => none
  | _ => none

/-- Match of `/^<(name)(\s+[^>]*)?>(.+)<\/\1>$/`: with both anchors, the
backreferenced closing tag must sit exactly at the end and the greedy `(.+)`
is everything in between (at least one character). -/
def inlineTag (trimmed : List Char) : Option (List Char × List Char × List Char) :=
  match trimmed with
  | '<' :: rest =>
    match nameAt rest with
    | some (nm, r1) =>
      match attrThenGt r1 with
      | some (attrText, rest2) =>
        let closer := '<' :: '/' :: nm ++ ['>']
        if closer.length + 1 ≤ rest2.length ∧ rest2.drop (rest2.length - closer.length) = closer
        then some (nm, attrText, rest2.take (rest2.length - closer.length))
        else none
      | none => none
    | none => none
  | _ => none

/-- Match of `/^<(name)(\s+[^>]*)?>(.+)$/`: name, attribute text, and the
non-empty rest of the line after the tag. -/
def openingWithContent (trimmed : List Char) : Option (List Char × List Char × List Char) :=
  match trimmed with
  | '<' :: rest =>
    match nameAt rest with
    | some (nm, r1) =>
      match attrThenGt r1 with
      | some (attrText, rest2) => if rest2.isEmpty then none else some (nm, attrText, rest2)
      | none => none
    | none => none
  | _ => none

/-- `escapeMarkdownInHeader` (same underscore escaping as the first
variant). -/
def escapeMarkdownInHeader (cs : List Char) : List Char := escUnderscore cs

/-- `processContentLine`: mask single-backtick inline code with the same
placeholders, strip `/<\/?[a-zA-Z_][a-zA-Z0-9_-]*(\s+[^>]*)?>/g`, unmask. -/
def processContentLine (line : List Char) : List Char :=
  let p := renderSegsGo 0 (scanSingle line)
  unmaskCodeContent (stripTagsGo p.1.length p.1) p.2

/-- The ` (attrs)` suffix of a second-variant header. -/
def attrSuffix (attributes : List Char) : List Char :=
  if attributes.isEmpty then []
  else ' ' :: '(' :: escapeMarkdownInHeader attributes ++ [')']

/-- A second-variant header line at stack depth `depth`. -/
def headerFor (depth : Nat) (nm attributes : List Char) : List Char :=
  List.replicate (min (depth + 2) 6) '#' ++ ' ' :: escapeMarkdownInHeader nm ++
    attrSuffix attributes

/-- `processLine`: the per-line rewrite outside code blocks.  Note the
returned strings embed the source's literal `\n` suffixes. -/
def processLine (line : List Char) (tagStack : List TagInfo) :
    List Char × List TagInfo :=
  let trimmed := trimChars line
  if trimmed.isEmpty then ([], tagStack)
  else
    match standaloneClosing trimmed with
    | some nm =>
      ([], match stackRemove nm tagStack with | some s => s | none => tagStack)
    | none =>
      match standaloneOpening trimmed with
      | some (nm, attrText) =>
        let attributes := trimChars attrText
        let depth := tagStack.length
        (headerFor depth nm attributes ++ ['\n'],
         ⟨nm, attributes, depth⟩ :: tagStack)
      | none =>
        match inlineTag trimmed with
        | some (nm, attrText, content) =>
          (headerFor tagStack.length nm (trimChars attrText) ++ '\n' :: '\n' ::
            trimChars content ++ ['\n'], tagStack)
        | none =>
          match openingWithContent trimmed with
          | some (nm, attrText, rawContent) =>
            if containsSub ('<' :: ['/']) rawContent then
              (processContentLine line, tagStack)
            else
              let attributes := trimChars attrText
              let content := trimChars rawContent
              let depth := tagStack.length
              let st' := (⟨nm, attributes, depth⟩ : TagInfo) :: tagStack
              if content.isEmpty then (headerFor depth nm attributes ++ ['\n'], st')
              else (headerFor depth nm attributes ++ '\n' :: '\n' :: content, st')
          | none => (processContentLine line, tagStack)

/-- State of the second variant's converter (`fenceChar` starts as the
empty string in the source; it is never read before a fence opens, and is
initialised arbitrarily here). -/
structure St where
  inFenced : Bool
  fenceChar : Char
  fenceLength : Nat
  tagStack : List TagInfo
deriving Repr, DecidableEq

/-- One iteration of the line loop of `convertClaudeMdToMarkdown`: a fence
line opens a block when outside one, closes it only when it matches the
stored character and at least the stored run length, and otherwise falls
through to the verbatim in-block push.  Returns the new state and the
pushed line. -/
def lineStep (st : St) (l : List Char) : St × List Char :=
  match fenceParse l with
  | some cl =>
    if !st.inFenced then
      ({ st with inFenced := true, fenceChar := cl.1, fenceLength := cl.2 }, l)
    else if fenceCloses st.fenceChar st.fenceLength l then
      ({ st with inFenced := false }, l)
    else (st, l)
  | none =>
    if st.inFenced then (st, l)
    else
      let p := processLine l st.tagStack
      ({ st with tagStack := p.2 }, p.1)

/-- The line loop. -/
def convertGo (st : St) : List (List Char) → List (List Char)
  | [] => []
  | l :: rest => (lineStep st l).2 :: convertGo (lineStep st l).1 rest

/-- The state after a list of lines. -/
def stAfter (st : St) (lines : List (List Char)) : St :=
  lines.foldl (fun s l => (lineStep s l).1) st

/-- `convertClaudeMdToMarkdown`. -/
def convertClaudeMdToMarkdown (text : List Char) : List Char :=
  joinLines (convertGo ⟨false, ' ', 0, []⟩ (splitLines text))

end V2

namespace V3

/-! ## `src/extension.ts`

Its `parseDocument` mirrors `parseDocumentText` with two differences: lines
are **not** masked before tag scanning, and opening tags are scanned on
`text.replace(xmlSelfClosingRegex, '')` (removal rather than blanking); it
records no offsets (`startIndex`/`endIndex` are set to 0 in this model).
Its `convertToMarkdown` differs from the first variant's in the ways the
definitions below note. -/

/-- Self-closing scan whose second component removes the matches
(`text.replace(xmlSelfClosingRegex, '')`). -/
def selfClosingScanRemoveGo : Nat → List Char → List (List Char × List Char) × List Char
  | 0, cs => ([], cs)
  | _, [] => ([], [])
  | fuel + 1, c :: rest =>
    match selfClosingMatchAt (c :: rest) with
    | some (nm, attrText, _, rest') =>
      let p := selfClosingScanRemoveGo fuel rest'
      ((nm, attrText) :: p.1, p.2)
    | none =>
      let p := selfClosingScanRemoveGo fuel rest
      (p.1, c :: p.2)

/-- The tags `parseDocument` records on one line (unmasked text). -/
def parseLineTags (i : Nat) (line : List Char) : List XmlTag :=
  let indent := line.length - (line.dropWhile isSpace).length
  let sc := selfClosingScanRemoveGo line.length line
  (sc.1.map fun m =>
    ⟨m.1, i, indent, false, false, true, parseAttributes m.2, 0, 0⟩) ++
  ((closingScanGo line.length 0 line).map fun m =>
    ⟨m.2.1, i, indent, false, true, false, [], 0, 0⟩) ++
  ((openingScanGo sc.2.length 0 sc.2).map fun m =>
    ⟨m.2.1, i, indent, true, false, false, parseAttributes m.2.2.1, 0, 0⟩)

/-- Per-line records of `parseDocument` (same fence/rule/header handling as
the first variant; identical regexes). -/
def parseLineStructure (i : Nat) (line : List Char) : DocumentStructure :=
  if isHorizontalRule line then ⟨[], [], [i]⟩
  else
    ⟨parseLineTags i line,
     match headerMatch line with
     | some kt => [⟨kt.1, i, kt.2⟩]
     | none => [],
     []⟩

/-- The line loop of `parseDocument`. -/
def parseGo : Bool → Nat → List (List Char) → DocumentStructure
  | _, _, [] => ⟨[], [], []⟩
  | inCode, i, l :: rest =>
    if isFenceLine l then parseGo (!inCode) (i + 1) rest
    else if inCode then parseGo inCode (i + 1) rest
    else
      let s := parseLineStructure i l
      let s' := parseGo inCode (i + 1) rest
      ⟨s.xmlTags ++ s'.xmlTags, s.headers ++ s'.headers,
       s.horizontalRules ++ s'.horizontalRules⟩

/-- `parseDocument`. -/
def parseDocument (text : List Char) : DocumentStructure :=
  parseGo false 0 (splitLines text)

/-- One step of `extension.ts`'s tag walk: as the first variant's, but the
horizontal-rule reset loop runs only when `tag.line > 0` (the dead
`baseDepth` bookkeeping is omitted). -/
def convTagStep (hrs : List Nat) (st : ConvSt) (t : XmlTag) : ConvSt :=
  let p := if 0 < t.line then hrResetLoop hrs t.line st.depth st.stack
           else (st.depth, st.stack)
  let d := p.1
  let stk := p.2
  if t.isOpening then
    { depth := d + 1, stack := (t.name, t.line) :: stk,
      dmap := mapSet st.dmap t.line d,
      imap := mapSet st.imap t.line (t.name, t.attributes), ends := st.ends }
  else if t.isClosing then
    match tagStackFind t.name stk with
    | some q =>
      { depth := max 0 (d - 1), stack := q.2, dmap := st.dmap, imap := st.imap,
        ends := setAdd st.ends t.line }
    | none =>
      { depth := d, stack := stk, dmap := st.dmap, imap := st.imap,
        ends := setAdd st.ends t.line }
  else if t.isSelfClosing then
    { depth := d, stack := stk, dmap := mapSet st.dmap t.line d,
      imap := mapSet st.imap t.line (t.name, t.attributes), ends := st.ends }
  else { depth := d, stack := stk, dmap := st.dmap, imap := st.imap, ends := st.ends }

/-- The whole tag walk of `extension.ts`'s converter. -/
def convBuildSt (hrs : List Nat) (tags : List XmlTag) : ConvSt :=
  tags.foldl (convTagStep hrs) ⟨0, [], [], [], []⟩

/-- The converter's fence regex
`/^(\s*)(`\x7b3,\x7d|~\x7b3,\x7d)(\S*)?$/` — anchored, so anything after
the (maximal) run must be free of whitespace.  Note it is stricter than the
unanchored regex `parseDocument` toggles on. -/
def isFenceLineConv (l : List Char) : Bool :=
  match l.dropWhile isSpace with
  | c :: r =>
    (c = btk || c = '~') &&
      (2 ≤ (r.takeWhile (· = c)).length &&
        (r.dropWhile (· = c)).all (fun d => !isSpace d))
  | [] => false

/-- Match of `` `<$\x7bname\x7d(?:\s+[^>]*)?>(.*)$` `` at a position
(no `\s*` before the capture, unlike the first variant). -/
def tagContentAtPos (nm : List Char) (cs : List Char) : Option (List Char) :=
  match cs with
  | '<' :: rest =>
    if List.isPrefixOf nm rest then
      match attrThenGt (rest.drop nm.length) with
      | some p => if p.2.all dotMatches then some p.2 else none
      | none => none
    else none
  | _ => none

/-- The unanchored search for the tag-content pattern. -/
def findTagContentGo (nm : List Char) : Nat → List Char → Option (List Char)
  | 0, _ => none
  | _, [] => none
  | fuel + 1, c :: rest =>
    match tagContentAtPos nm (c :: rest) with
    | some content => some content
    | none => findTagContentGo nm fuel rest

/-- The attribute rendering of `extension.ts` (no underscore escaping). -/
def attrsRender (attrs : List (List Char × List Char)) : List Char :=
  if attrs.isEmpty then []
  else
    ' ' :: '(' ::
      (List.intercalate (", ".data)
        (attrs.map fun kv => kv.1 ++ '=' :: '"' :: kv.2 ++ ['"'])) ++ [')']

/-- The header line `extension.ts` pushes (no underscore escaping, and no
blank line after it). -/
def tagHeaderLine (d : Int) (nm : List Char)
    (attrs : List (List Char × List Char)) : List Char :=
  List.replicate (min (d + 2) 6).toNat '#' ++ ' ' :: nm ++ attrsRender attrs

/-- Match of the inline-tag regex
`/<([a-zA-Z_][a-zA-Z0-9_-]*)(?:\s+[^>]*)?>(.+?)<\/\1>/` anchored at a
position: the lazy `(.+?)` stops at the first occurrence of the
backreferenced closer.  Returns (match text, name, content, rest). -/
def inlineCloserGo (closer : List Char) : Nat → List Char → List Char →
    Option (List Char × List Char)
  | 0, _, _ => none
  | fuel + 1, revContent, r =>
    match r with
    | [] => none
    | c :: r2 =>
      if dotMatches c then
        if List.isPrefixOf closer r2 then
          some ((c :: revContent).reverse, r2.drop closer.length)
        else inlineCloserGo closer fuel (c :: revContent) r2
      else none

/-- Anchored inline-tag match. -/
def inlineMatchAt (cs : List Char) : Option (List Char × List Char × List Char × List Char) :=
  match cs with
  | '<' :: rest =>
    match nameAt rest with
    | some (nm, r1) =>
      match attrThenGt r1 with
      | some (_, rest2) =>
        match inlineCloserGo ('<' :: '/' :: nm ++ ['>']) rest2.length [] rest2 with
        | some (content, rest3) =>
          some (cs.take (cs.length - rest3.length), nm, content, rest3)
        | none => none
      | none => none
    | none => none
  | _ => none

/-- The global `exec` loop collecting all inline-tag matches of a line. -/
def inlineScanGo : Nat → List Char → List (List Char × List Char × List Char)
  | 0, _ => []
  | _, [] => []
  | fuel + 1, c :: rest =>
    match inlineMatchAt (c :: rest) with
    | some (m, nm, content, rest') => (m, nm, content) :: inlineScanGo fuel rest'
    | none => inlineScanGo fuel rest

/-- JS `String.replace` with a plain string pattern: replace the first
occurrence (dollar escapes in the replacement are not modelled; no theorem
below exercises a replacement containing `$`). -/
def replaceFirstGo : Nat → List Char → List Char → List Char → List Char
  | 0, s, _, _ => s
  | _, [], _, _ => []
  | fuel + 1, c :: rest, pat, repl =>
    if List.isPrefixOf pat (c :: rest) then repl ++ (c :: rest).drop pat.length
    else c :: replaceFirstGo fuel rest pat repl

/-- JS `s.replace(pat, repl)` for string `pat` (when `pat` does not occur,
`s` is returned unchanged; an empty `pat` puts `repl` in front). -/
def replaceFirst (s pat repl : List Char) : List Char :=
  if List.isPrefixOf pat s then repl ++ s.drop pat.length
  else replaceFirstGo s.length s pat repl

/-- The else-branch of `extension.ts`'s line loop: rewrite each inline tag
occurrence of the (unchanging) source line to `**name**: content` inside
the working string, then strip remaining tags.  No code masking. -/
def processElse (line : List Char) : List Char :=
  let processed :=
    (inlineScanGo line.length line).foldl
      (fun acc m =>
        replaceFirst acc m.1 ('*' :: '*' :: m.2.1 ++ '*' :: '*' :: ':' :: ' ' :: m.2.2))
      line
  stripTagsGo processed.length processed

/-- The lines `extension.ts`'s loop pushes for one input line: fence
(by the anchored converter regex) and in-block lines pass through; a
recorded closing line is **skipped** (nothing pushed); a recorded tag line
becomes a header (plus same-line trailing content trimmed, no blank line);
anything else goes through `processElse` and is pushed unless emptied. -/
def convertLineEmit (st : ConvSt) (inCode : Bool) (i : Nat) (line : List Char) :
    List (List Char) :=
  if isFenceLineConv line then [line]
  else if inCode then [line]
  else if st.ends.contains i then []
  else
    match mapGet st.dmap i with
    | some d =>
      match mapGet st.imap i with
      | some info =>
        let content :=
          match findTagContentGo info.1 line.length line with
          | some c => if (trimChars c).isEmpty then [] else [trimChars c]
          | none => []
        tagHeaderLine d info.1 info.2 :: content
      | none => []
    | none =>
      let processed := processElse line
      if ¬ (trimChars processed).isEmpty ∨ (trimChars line).isEmpty then [processed]
      else []

/-- The line loop, yielding the pushed lines grouped by input line (the
source mutates `inCodeBlock` only in the fence branch, which the loop
threads as a toggle). -/
def convertLoop (st : ConvSt) : Bool → Nat → List (List Char) → List (List (List Char))
  | _, _, [] => []
  | inCode, i, l :: rest =>
    convertLineEmit st inCode i l ::
      convertLoop st (if isFenceLineConv l then !inCode else inCode) (i + 1) rest

/-- The precomputed tag-walk state for a document. -/
def convStOf (text : List Char) : ConvSt :=
  convBuildSt (parseDocument text).horizontalRules (parseDocument text).xmlTags

/-- The lines pushed while processing input line `i`. -/
def convertEmits (text : List Char) (i : Nat) : List (List Char) :=
  ((convertLoop (convStOf text) false 0 (splitLines text)).get? i).getD []

/-- The code-block state of the converter's loop before line `i` (it
toggles on `isFenceLineConv`, not on `isFenceLine`). -/
def convCodeStateAt (b : Bool) (ls : List (List Char)) (i : Nat) : Bool :=
  (ls.take i).foldl (fun st l => if isFenceLineConv l then !st else st) b

/-- `extension.ts`'s `convertToMarkdown`. -/
def convertToMarkdown (text : List Char) : List Char :=
  joinLines (List.flatten (convertLoop (convStOf text) false 0 (splitLines text)))

end V3

/-! ## `beautifyDocument`

The first variant of `part_000` and `extension.ts` carry the identical
function (same regexes, same branch order); this embedding serves both.

    codeBlockRegex      = /^(\s*)(`\x7b3,\x7d|~\x7b3,\x7d)/
    openingTagRegex     = /^(\s*)<([a-zA-Z_][a-zA-Z0-9_-]*)(\s+[^>]*)?>(\s*)$/
    closingTagRegex     = /^(\s*)<\/([a-zA-Z_][a-zA-Z0-9_-]*)>(\s*)$/
    selfClosingTagRegex = /^(\s*)<([a-zA-Z_][a-zA-Z0-9_-]*)(\s+[^>]*)?\/>\s*$/
    headerRegex         = /^(\s*)(#\x7b1,6\x7d\s+.*)$/
-/

/-- `closingTagRegex` test. -/
def isClosingTagLine (l : List Char) : Bool :=
  match l.dropWhile isSpace with
  | '<' :: '/' :: rest =>
    match nameAt rest with
    | some p =>
      match p.2 with
      | '>' :: r2 => r2.all isSpace
      | _ => false
    | none => false
  | _ => false

/-- `openingTagRegex` test. -/
def isOpeningTagLine (l : List Char) : Bool :=
  match l.dropWhile isSpace with
  | '<' :: rest =>
    match nameAt rest with
    | some p =>
      match attrThenGt p.2 with
      | some q => q.2.all isSpace
      | none => false
    | none => false
  | _ => false

/-- `selfClosingTagRegex` test. -/
def isSelfClosingTagLine (l : List Char) : Bool :=
  match l.dropWhile isSpace with
  | '<' :: rest =>
    match nameAt rest with
    | some p =>
      match attrThenSlashGt p.2 with
      | some q => q.2.all isSpace
      | none => false
    | none => false
  | _ => false

/-- `beautifyDocument`'s header test: 1..6 hashes after leading whitespace,
then at least one whitespace character, and `.*` must cover the rest up to
the anchor — so everything after the whitespace run following the hashes
must be free of characters `.` cannot match (a trailing `\r` survives the
`/\r?\n/` split and makes the match fail). -/
def isHeaderLine (l : List Char) : Bool :=
  let t := l.dropWhile isSpace
  let k := (t.takeWhile (· = '#')).length
  1 ≤ k && k ≤ 6 &&
    (match t.drop k with
     | c :: _ => isSpace c
     | [] => false) &&
    ((t.drop k).dropWhile isSpace).all dotMatches

/-- `indentString.repeat(n)` with `indentString = '  '`. -/
def indentStr (n : Nat) : List Char := List.replicate (2 * n) ' '

/-- The line loop of `beautifyDocument`.  Branch order as in the source:
fence toggle (re-indented, trimmed), in-block verbatim, closing tag
(decrement first, clamped at 0 — `Nat` subtraction models `Math.max(0, n-1)`),
self-closing, opening (increment after), header (no indent), blank,
ordinary content. -/
def beautifyGo : Bool → Nat → List (List Char) → List (List Char)
  | _, _, [] => []
  | inCode, ind, l :: rest =>
    if isFenceLine l then (indentStr ind ++ trimChars l) :: beautifyGo (!inCode) ind rest
    else if inCode then l :: beautifyGo inCode ind rest
    else if isClosingTagLine l then
      (indentStr (ind - 1) ++ trimChars l) :: beautifyGo inCode (ind - 1) rest
    else if isSelfClosingTagLine l then
      (indentStr ind ++ trimChars l) :: beautifyGo inCode ind rest
    else if isOpeningTagLine l then
      (indentStr ind ++ trimChars l) :: beautifyGo inCode (ind + 1) rest
    else if isHeaderLine l then trimChars l :: beautifyGo inCode ind rest
    else if (trimChars l).isEmpty then [] :: beautifyGo inCode ind rest
    else (indentStr ind ++ trimChars l) :: beautifyGo inCode ind rest

/-- `beautifyDocument`: the whole-document replacement text. -/
def beautifyDocument (text : List Char) : List Char :=
  joinLines (beautifyGo false 0 (splitLines text))

/-! ## Specification-side notions

These definitions formalise wording of the specification and the claims
(they are *not* translations of source code); each theorem below compares
them with the embedded source functions. -/

/-- The claimed horizontal-rule predicate of C4: the line consists of three
or more **identical** characters from `[-*_]`, optionally interspersed with
and surrounded by whitespace. -/
def claimedHorizontalRule (cs : List Char) : Bool :=
  match cs.filter (fun c => !isSpace c) with
  | [] => false
  | c :: rest => hrChar c && rest.all (· = c) && 3 ≤ rest.length + 1

/-- The shape the source's rule regex actually accepts: optional
surrounding whitespace around one contiguous run of three or more
characters each from `[-*_]` (not necessarily identical, no interior
whitespace). -/
def HRuleShape (cs : List Char) : Prop :=
  ∃ a m b, cs = a ++ m ++ b ∧ (∀ c ∈ a, isSpace c = true) ∧
    (∀ c ∈ b, isSpace c = true) ∧ 3 ≤ m.length ∧ (∀ c ∈ m, hrChar c = true)

/-- A closing-fence shape: whitespace, then at least `L` copies of the
fence character, then whitespace. -/
def FenceCloseShape (c : Char) (L : Nat) (l : List Char) : Prop :=
  ∃ a k b, l = a ++ List.replicate k c ++ b ∧ (∀ d ∈ a, isSpace d = true) ∧
    (∀ d ∈ b, isSpace d = true) ∧ L ≤ k

/-- Well-formedness of an extracted tag sequence: reading it in order,
every closing occurrence matches the innermost open tag, and nothing stays
open (every opening tag has exactly one matching closing tag, properly
nested, with no interleaving; self-closing occurrences are leaves). -/
def balancedGo : List (List Char) → List XmlTag → Bool
  | stk, [] => stk.isEmpty
  | stk, t :: rest =>
    if t.isOpening then balancedGo (t.name :: stk) rest
    else if t.isClosing then
      match stk with
      | top :: stk' => top = t.name && balancedGo stk' rest
      | [] => false
    else balancedGo stk rest

/-- A well-formed extracted tag sequence. -/
def wellFormedTags (tags : List XmlTag) : Bool := balancedGo [] tags

/-- The number of top-level tags of a sequence: opening or self-closing
occurrences read at nesting depth 0. -/
def topLevelCountGo : Nat → List XmlTag → Nat
  | _, [] => 0
  | d, t :: rest =>
    if t.isOpening then (if d = 0 then 1 else 0) + topLevelCountGo (d + 1) rest
    else if t.isClosing then topLevelCountGo (d - 1) rest
    else if t.isSelfClosing then (if d = 0 then 1 else 0) + topLevelCountGo d rest
    else topLevelCountGo d rest

/-- The number of top-level tags. -/
def topLevelCount (tags : List XmlTag) : Nat := topLevelCountGo 0 tags

/-- No two recorded tag occurrences share a line. -/
def tagLinesDistinct (tags : List XmlTag) : Prop := (tags.map (·.line)).Nodup

/-- The header level the transformer's tag branch emits for line `i`, if
the line loop reaches that branch there (mirrors `convertLineEmit`; the
link is `convertLineEmit_headerLevel`). -/
def emitHeaderLevel (st : ConvSt) (inCode : Bool) (i : Nat) (line : List Char) :
    Option Int :=
  if isFenceLineConvV1 line then none
  else if inCode then none
  else if st.ends.contains i then none
  else
    match mapGet st.dmap i with
    | some d =>
      match mapGet st.imap i with
      | some _ => some (min (d + 2) 6)
      | none => none
    | none => none

/-- All tag-branch header levels the transformer emits, in document order. -/
def headerLevelsGo (st : ConvSt) : Bool → Nat → List (List Char) → List Int
  | _, _, [] => []
  | inCode, i, l :: rest =>
    (emitHeaderLevel st inCode i l).toList ++
      headerLevelsGo st (if isFenceLineConvV1 l then !inCode else inCode) (i + 1) rest

/-- The tag-derived header levels `convertToMarkdown` emits for a document. -/
def emittedHeaderLevels (text : List Char) : List Int :=
  headerLevelsGo (convStOf text) false 0 (splitLines text)

/-- The opening-tag occurrences recorded on line `i`. -/
def openingsOnLine (tags : List XmlTag) (i : Nat) : List XmlTag :=
  tags.filter (fun t => t.line == i && t.isOpening)

/-- The closing-tag occurrences recorded on line `i`. -/
def closingsOnLine (tags : List XmlTag) (i : Nat) : List XmlTag :=
  tags.filter (fun t => t.line == i && t.isClosing)

/-! ## Proof devices for the mask/unmask analysis

A masked line decomposes into *pieces*: ordinary characters and whole
placeholders.  These definitions only serve the round-trip proofs. -/

/-- The characters of a segment list in order (what the pass read). -/
def joinSegs : List CodeSeg → List Char
  | [] => []
  | .lit c :: r => c :: joinSegs r
  | .code s :: r => s ++ joinSegs r

/-- The matched spans of a segment list, in order (what the pass pushed). -/
def codeSegs : List CodeSeg → List (List Char)
  | [] => []
  | .lit _ :: r => codeSegs r
  | .code s :: r => s :: codeSegs r

/-- A piece of a masked line: a plain character or a whole placeholder. -/
inductive GPiece where
  | raw (c : Char)
  | ph (n : Nat)
deriving Repr, DecidableEq

/-- The characters a piece renders to in the masked line. -/
def renderP : GPiece → List Char
  | .raw c => [c]
  | .ph n => phChars n

/-- What unmasking turns a piece into. -/
def restoreP (blocks : List (List Char)) : GPiece → List Char
  | .raw c => [c]
  | .ph n => blockAt blocks n

/-- The masked line a piece list renders to. -/
def concatRender (P : List GPiece) : List Char := (P.map renderP).flatten

/-- The text unmasking produces from a piece list. -/
def concatRestore (blocks : List (List Char)) (P : List GPiece) : List Char :=
  (P.map (restoreP blocks)).flatten

/-- The pieces of one masking pass's output: literal characters stay raw,
the `j`-th span becomes placeholder `idx + j`. -/
def segsPieces : Nat → List CodeSeg → List GPiece
  | _, [] => []
  | idx, .lit c :: rest => .raw c :: segsPieces idx rest
  | idx, .code _ :: rest => .ph idx :: segsPieces (idx + 1) rest

/-! ## Proof devices for the line loops

`parseGo` concatenates per-line records; `lineStructure` is the record of
one line given the code-block state, and `parseLinesGo` the per-line list,
so that membership in the aggregate becomes membership at some index. -/

/-- Concatenation of document structures (the `push(...)` merges of the
parser's loop body). -/
def dsAppend (a b : DocumentStructure) : DocumentStructure :=
  ⟨a.xmlTags ++ b.xmlTags, a.headers ++ b.headers,
   a.horizontalRules ++ b.horizontalRules⟩

/-- The empty document structure. -/
def dsNil : DocumentStructure := ⟨[], [], []⟩

/-- What `parseDocumentText`'s loop records on one line: nothing on a fence
line or inside a code block, otherwise `parseLineStructure`. -/
def lineStructure (inCode : Bool) (i : Nat) (l : List Char) : DocumentStructure :=
  if isFenceLine l then dsNil
  else if inCode then dsNil
  else parseLineStructure i l

/-- The per-line records of `parseDocumentText`'s loop. -/
def parseLinesGo : Bool → Nat → List (List Char) → List DocumentStructure
  | _, _, [] => []
  | inCode, i, l :: rest =>
    lineStructure inCode i l ::
      parseLinesGo (if isFenceLine l then !inCode else inCode) (i + 1) rest

/-- What `extension.ts`'s parser loop records on one line (its fence regex
is the same `isFenceLine`). -/
def lineStructureV3 (inCode : Bool) (i : Nat) (l : List Char) : DocumentStructure :=
  if isFenceLine l then dsNil
  else if inCode then dsNil
  else V3.parseLineStructure i l

/-- The per-line records of `extension.ts`'s parser loop. -/
def parseLinesGoV3 : Bool → Nat → List (List Char) → List DocumentStructure
  | _, _, [] => []
  | inCode, i, l :: rest =>
    lineStructureV3 inCode i l ::
      parseLinesGoV3 (if isFenceLine l then !inCode else inCode) (i + 1) rest

/-- The converter's tag-walk state after the first `k` extracted tags of a
document (first variant). -/
def convStPrefix (text : List Char) (k : Nat) : ConvSt :=
  ((parseDocumentText text).xmlTags.take k).foldl
    (convTagStep (parseDocumentText text).horizontalRules) ⟨0, [], [], [], []⟩

/-- The folding provider's tag-walk state after the first `k` extracted
tags of a document. -/
def foldStPrefix (text : List Char) (k : Nat) :
    List (List Char × Nat) × List (Nat × Nat) :=
  ((parseDocumentText text).xmlTags.take k).foldl foldTagStep ([], [])

/-- A tag occurrence that writes the per-line depth/info maps in the tag
walk: an opening, or a self-closing occurrence (branch order of
`convTagStep`: `isClosing` shadows `isSelfClosing`). -/
def isSetter (t : XmlTag) : Bool := t.isOpening || (!t.isClosing && t.isSelfClosing)

/-- The `(line, stored depth)` pairs the tag walk writes into
`tagDepthMap`, in walk order. -/
def dmapTrace (hrs : List Nat) : ConvSt → List XmlTag → List (Nat × Int)
  | _, [] => []
  | st, t :: ts =>
    if isSetter t then
      (t.line, (hrResetLoop hrs t.line st.depth st.stack).1) ::
        dmapTrace hrs (convTagStep hrs st t) ts
    else dmapTrace hrs (convTagStep hrs st t) ts

/-- The opening-tag records of one line (the third group of
`parseLineTags`). -/
def lineOpeningTags (i : Nat) (line : List Char) : List XmlTag :=
  let indent := line.length - (line.dropWhile isSpace).length
  let masked := (maskCodeContent line).masked
  let sc := selfClosingScanGo masked.length 0 masked
  (openingScanGo sc.2.length 0 sc.2).map fun m =>
    ⟨m.2.1, i, indent, true, false, false, parseAttributes m.2.2.1, m.1, m.2.2.2⟩

/-! # Theorems -/

/-! ## Generic scanning lemmas -/

theorem takeWhile_append_all {α : Type} {p : α → Bool} :
    ∀ {a l : List α}, (∀ c ∈ a, p c = true) →
      (a ++ l).takeWhile p = a ++ l.takeWhile p
  | [], _, _ => by simp
  | c :: a, l, h => by
    have hc : p c = true := h c (List.mem_cons_self _ _)
    simp only [List.cons_append, List.takeWhile_cons, hc, if_true]
    rw [takeWhile_append_all (fun d hd => h d (List.mem_cons_of_mem _ hd))]

theorem dropWhile_append_all {α : Type} {p : α → Bool} :
    ∀ {a l : List α}, (∀ c ∈ a, p c = true) →
      (a ++ l).dropWhile p = l.dropWhile p
  | [], _, _ => by simp
  | c :: a, l, h => by
    have hc : p c = true := h c (List.mem_cons_self _ _)
    simp only [List.cons_append, List.dropWhile_cons, hc, if_true]
    exact dropWhile_append_all (fun d hd => h d (List.mem_cons_of_mem _ hd))

theorem takeWhile_nil_of_head {α : Type} {p : α → Bool} {l : List α}
    (h : ∀ c ∈ l.head?, p c = false) : l.takeWhile p = [] := by
  cases l with
  | nil => rfl
  | cons c rest => simp [List.takeWhile_cons, h c rfl]

theorem dropWhile_self_of_head {α : Type} {p : α → Bool} {l : List α}
    (h : ∀ c ∈ l.head?, p c = false) : l.dropWhile p = l := by
  cases l with
  | nil => rfl
  | cons c rest => simp [List.dropWhile_cons, h c rfl]

theorem hrChar_not_space {c : Char} (h : hrChar c = true) : isSpace c = false := by
  have : (c = '-' ∨ c = '*') ∨ c = '_' := by
    simpa [hrChar, Bool.or_eq_true, decide_eq_true_eq] using h
  rcases this with (rfl | rfl) | rfl <;> decide

theorem space_not_hrChar {c : Char} (h : isSpace c = true) : hrChar c = false := by
  by_contra hb
  have := hrChar_not_space (c := c) (by simpa using Bool.of_not_eq_false hb)
  rw [h] at this
  cases this

/-! ## C4: the horizontal-rule classifier -/

/-- The rule regex accepts exactly the `HRuleShape` decompositions. -/
theorem isHorizontalRule_iff (cs : List Char) :
    isHorizontalRule cs = true ↔ HRuleShape cs := by
  constructor
  · intro h
    simp only [isHorizontalRule, Bool.and_eq_true, decide_eq_true_eq,
      List.all_eq_true] at h
    refine ⟨cs.takeWhile isSpace, (cs.dropWhile isSpace).takeWhile hrChar,
      (cs.dropWhile isSpace).dropWhile hrChar, ?_, ?_, ?_, h.1, ?_⟩
    · rw [List.append_assoc, List.takeWhile_append_dropWhile,
        List.takeWhile_append_dropWhile]
    · exact fun c hc => List.mem_takeWhile_imp hc
    · exact h.2
    · exact fun c hc => List.mem_takeWhile_imp hc
  · rintro ⟨a, m, b, rfl, ha, hb, hm3, hm⟩
    have hmne : m ≠ [] := by
      intro h
      rw [h] at hm3
      simp at hm3
    have hd : (a ++ (m ++ b)).dropWhile isSpace = m ++ b := by
      rw [dropWhile_append_all ha]
      refine dropWhile_self_of_head ?_
      intro c hc
      cases m with
      | nil => exact absurd rfl hmne
      | cons d m' =>
        simp only [List.cons_append, List.head?_cons, Option.mem_def,
          Option.some.injEq] at hc
        exact hc ▸ hrChar_not_space (hm d (List.mem_cons_self _ _))
    have ht : (m ++ b).takeWhile hrChar = m := by
      rw [takeWhile_append_all hm, takeWhile_nil_of_head, List.append_nil]
      intro c hc
      cases b with
      | nil => cases hc
      | cons d b' =>
        simp only [List.head?_cons, Option.mem_def, Option.some.injEq] at hc
        exact hc ▸ space_not_hrChar (hb d (List.mem_cons_self _ _))
    have hdw : (m ++ b).dropWhile hrChar = b := by
      rw [dropWhile_append_all hm]
      refine dropWhile_self_of_head ?_
      intro c hc
      cases b with
      | nil => cases hc
      | cons d b' =>
        simp only [List.head?_cons, Option.mem_def, Option.some.injEq] at hc
        exact hc ▸ space_not_hrChar (hb d (List.mem_cons_self _ _))
    simp only [isHorizontalRule, List.append_assoc, hd, ht, hdw,
      Bool.and_eq_true, decide_eq_true_eq, List.all_eq_true]
    exact ⟨hm3, hb⟩

/-- C4 counterexample: the claim calls `- - -` (spaces interspersed) a
horizontal rule and excludes mixed runs, but the source's regex
`/^\s*([-*_])\x7b3,\x7d\s*$/` rejects `- - -` (the repeated group admits no
interior whitespace) and accepts the mixed `-*_` (the repeated capturing
group does not constrain the characters to be identical). -/
theorem C4_counterexample :
    claimedHorizontalRule ("- - -".data) = true ∧
    isHorizontalRule ("- - -".data) = false ∧
    claimedHorizontalRule ("-*_".data) = false ∧
    isHorizontalRule ("-*_".data) = true := by decide

/-- C4 (amended): the classifier accepts a line iff it is optional
whitespace around one contiguous run of three or more characters each from
`\x7b-, *, _\x7d`, not necessarily identical and with no interior whitespace;
in particular `--` is rejected, `---` is accepted, `- - -` is rejected, and
the mixed `-*_` is accepted. -/
theorem C4_horizontal_rule_amended :
    isHorizontalRule ("---".data) = true ∧
    isHorizontalRule ("--".data) = false ∧
    isHorizontalRule ("- - -".data) = false ∧
    isHorizontalRule ("-*_".data) = true ∧
    ∀ cs : List Char, isHorizontalRule cs = true ↔ HRuleShape cs :=
  ⟨by decide, by decide, by decide, by decide, isHorizontalRule_iff⟩

/-! ## C8: the horizontal-rule reset before each tag -/

theorem hrResetLoop_zero_nil (hrs : List Nat) (tagLine : Nat) :
    hrResetLoop hrs tagLine 0 [] = (0, []) := by
  induction hrs with
  | nil => rfl
  | cons h t ih =>
    show List.foldl _ _ _ = _
    rw [List.foldl_cons]
    by_cases hc : hrTrigger tagLine ([] : List (List Char × Nat)) h = true
    · simpa [hrResetLoop, hc] using ih
    · simpa [hrResetLoop, hc] using ih

/-- C8: before a tag is processed, if some recorded horizontal-rule line
lies strictly between the line of the current top-of-stack entry (or 0 for
an empty stack) and the tag's line, the reset loop ends with the depth
counter at 0 and the stack cleared.  (In `extension.ts` the loop is guarded
by `tag.line > 0`, which the hypothesis implies.) -/
theorem C8_hr_reset_clears (hrs : List Nat) (tagLine : Nat) (d : Int)
    (stack : List (List Char × Nat))
    (h : ∃ hr ∈ hrs,
      (match stack.head? with | some top => top.2 | none => 0) < hr ∧ hr < tagLine) :
    hrResetLoop hrs tagLine d stack = (0, []) := by
  induction hrs generalizing d stack with
  | nil => obtain ⟨hr, hmem, -⟩ := h; cases hmem
  | cons a t ih =>
    obtain ⟨hr, hmem, hlo, hhi⟩ := h
    by_cases hc : hrTrigger tagLine stack a = true
    · show List.foldl _ _ _ = _
      rw [List.foldl_cons]
      simp only [hc, if_true]
      exact hrResetLoop_zero_nil t tagLine
    · have hmem' : hr ∈ t := by
        rcases List.mem_cons.mp hmem with rfl | h'
        · exfalso
          apply hc
          cases stack with
          | nil =>
            simp only [List.head?_nil] at hlo
            simp [hrTrigger, hhi]
          | cons top rest =>
            simp only [List.head?_cons] at hlo
            simp [hrTrigger, hhi, hlo]
        · exact h'
      show List.foldl _ _ _ = _
      rw [List.foldl_cons]
      simp only [hc, if_false]
      exact ih d stack ⟨hr, hmem', hlo, hhi⟩

/-- C8 witness: a rule at line 1 between an open tag at line 0 and a tag at
line 2 clears depth 5 and the stack. -/
theorem C8_hr_reset_clears_witness :
    (∃ hr ∈ [1],
      (match (([(['a'], 0)] : List (List Char × Nat))).head? with
       | some top => top.2 | none => 0) < hr ∧ hr < 2) ∧
    hrResetLoop [1] 2 5 [(['a'], 0)] = (0, []) :=
  ⟨by decide, C8_hr_reset_clears [1] 2 5 [(['a'], 0)] (by decide)⟩

/-! ## C5: mismatched fence markers do not close a block -/

theorem fenceCloses_iff (c : Char) (L : Nat) (l : List Char)
    (hc : isSpace c = false) (hL : 1 ≤ L) :
    V2.fenceCloses c L l = true ↔ FenceCloseShape c L l := by
  constructor
  · intro h
    simp only [V2.fenceCloses, Bool.and_eq_true, decide_eq_true_eq,
      List.all_eq_true] at h
    refine ⟨l.takeWhile isSpace,
      ((l.dropWhile isSpace).takeWhile (· = c)).length,
      (l.dropWhile isSpace).dropWhile (· = c), ?_, ?_, ?_, h.1⟩
    · have hrep : (l.dropWhile isSpace).takeWhile (· = c) =
          List.replicate ((l.dropWhile isSpace).takeWhile (· = c)).length c := by
        rw [List.eq_replicate_iff]
        exact ⟨rfl, fun b hb => by
          have := List.mem_takeWhile_imp hb
          simpa [decide_eq_true_eq] using this⟩
      rw [List.append_assoc, ← hrep, List.takeWhile_append_dropWhile,
        List.takeWhile_append_dropWhile]
    · exact fun d hd => List.mem_takeWhile_imp hd
    · exact h.2
  · rintro ⟨a, k, b, rfl, ha, hb, hLk⟩
    have hk : 1 ≤ k := le_trans hL hLk
    have hbf : ∀ d ∈ b.head?, (decide (d = c)) = false := by
      intro d hd
      have hsp : isSpace d = true := hb d (List.mem_of_mem_head? hd)
      simp only [decide_eq_false_iff_not]
      intro hdc
      rw [hdc, hc] at hsp
      cases hsp
    have hd : (a ++ (List.replicate k c ++ b)).dropWhile isSpace =
        List.replicate k c ++ b := by
      rw [dropWhile_append_all ha]
      refine dropWhile_self_of_head ?_
      intro d hd
      have hdm : d ∈ List.replicate k c ++ b := List.mem_of_mem_head? hd
      cases k with
      | zero => exact absurd hk (by simp)
      | succ k' =>
        have : d = c := by
          rw [List.replicate_succ, List.cons_append, List.head?_cons] at hd
          simpa using hd.symm
        rw [this, hc]
    have hrep : ∀ d ∈ List.replicate k c, (decide (d = c)) = true := by
      intro d hd
      simp [List.eq_of_mem_replicate hd]
    have ht : (List.replicate k c ++ b).takeWhile (· = c) =
        List.replicate k c ++ b.takeWhile (· = c) := takeWhile_append_all hrep
    have htb : b.takeWhile (fun d => decide (d = c)) = [] :=
      takeWhile_nil_of_head hbf
    have hdw : (List.replicate k c ++ b).dropWhile (· = c) = b := by
      rw [dropWhile_append_all hrep]
      exact dropWhile_self_of_head hbf
    simp only [V2.fenceCloses, List.append_assoc, hd, ht, htb, List.append_nil,
      hdw, Bool.and_eq_true, decide_eq_true_eq, List.all_eq_true,
      List.length_replicate]
    exact ⟨hLk, hb⟩

theorem lineStep_inside_verbatim {st : V2.St} {l : List Char}
    (h : V2.fenceParse l = none) (hin : st.inFenced = true) :
    V2.lineStep st l = (st, l) := by
  simp [V2.lineStep, h, hin]

theorem stAfter_cons (st : V2.St) (l : List Char) (ls : List (List Char)) :
    V2.stAfter st (l :: ls) = V2.stAfter (V2.lineStep st l).1 ls :=
  List.foldl_cons _ _

theorem stAfter_append (st : V2.St) (l1 l2 : List (List Char)) :
    V2.stAfter st (l1 ++ l2) = V2.stAfter (V2.stAfter st l1) l2 :=
  List.foldl_append _ _ _ _

theorem stAfter_nonfence_inFenced {st : V2.St} {l : List Char}
    (h : V2.fenceParse l = none) : (V2.lineStep st l).1.inFenced = st.inFenced := by
  by_cases hin : st.inFenced = true
  · rw [lineStep_inside_verbatim h hin, hin]
  · simp only [Bool.not_eq_true] at hin
    simp [V2.lineStep, h, hin]

theorem convertGo_cons (st : V2.St) (l : List Char) (ls : List (List Char)) :
    V2.convertGo st (l :: ls) =
      (V2.lineStep st l).2 :: V2.convertGo (V2.lineStep st l).1 ls := rfl

theorem convertGo_append (st : V2.St) (l1 l2 : List (List Char)) :
    V2.convertGo st (l1 ++ l2) =
      V2.convertGo st l1 ++ V2.convertGo (V2.stAfter st l1) l2 := by
  induction l1 generalizing st with
  | nil => rfl
  | cons l rest ih =>
    rw [List.cons_append, convertGo_cons, convertGo_cons, List.cons_append,
      ih, stAfter_cons]

theorem convertGo_inside (st : V2.St) (mid : List (List Char))
    (h : ∀ l ∈ mid, V2.fenceParse l = none) (hin : st.inFenced = true) :
    V2.convertGo st mid = mid ∧ V2.stAfter st mid = st := by
  induction mid with
  | nil => exact ⟨rfl, rfl⟩
  | cons l rest ih =>
    have hstep := @lineStep_inside_verbatim st l (h l (List.mem_cons_self _ _)) hin
    obtain ⟨ho, hs⟩ := ih (fun x hx => h x (List.mem_cons_of_mem _ hx))
    refine ⟨?_, ?_⟩
    · rw [convertGo_cons, hstep, ho]
    · rw [stAfter_cons, hstep, hs]

theorem stAfter_outside_inFenced (st : V2.St) (pre : List (List Char))
    (h : ∀ l ∈ pre, V2.fenceParse l = none) :
    (V2.stAfter st pre).inFenced = st.inFenced := by
  induction pre generalizing st with
  | nil => rfl
  | cons l rest ih =>
    rw [stAfter_cons]
    rw [ih _ (fun x hx => h x (List.mem_cons_of_mem _ hx))]
    exact stAfter_nonfence_inFenced (h l (List.mem_cons_self _ _))

/-- C5: a fence opened with backticks is not closed by a tilde line.  In a
document `pre ++ [op] ++ mid ++ [tl] ++ post` where no line of `pre`, `mid`
or `post` matches the fence regex, `op` opens a backtick fence and `tl` is a
tilde fence line, the second variant's converter emits `op`, every line of
`mid`, `tl`, and every line of `post` byte-for-byte unchanged, and the
code block is still open at the end of the document.  The last conjunct is
the general closing rule: with the block open on character `c` and run
length `L`, a line closes it iff it is whitespace around at least `L`
copies of `c`. -/
theorem C5_mismatched_fence_stays_open (pre mid post : List (List Char))
    (op tl : List Char) (L k : Nat)
    (hpre : ∀ l ∈ pre, V2.fenceParse l = none)
    (hmid : ∀ l ∈ mid, V2.fenceParse l = none)
    (hpost : ∀ l ∈ post, V2.fenceParse l = none)
    (hop : V2.fenceParse op = some (btk, L))
    (htl : V2.fenceParse tl = some ('~', k)) :
    V2.convertGo ⟨false, ' ', 0, []⟩ (pre ++ op :: (mid ++ tl :: post)) =
      V2.convertGo ⟨false, ' ', 0, []⟩ pre ++ op :: (mid ++ tl :: post) ∧
    (V2.stAfter ⟨false, ' ', 0, []⟩ (pre ++ op :: (mid ++ tl :: post))).inFenced = true ∧
    (∀ (c : Char) (L' : Nat) (line : List Char), isSpace c = false → 1 ≤ L' →
      (V2.fenceCloses c L' line = true ↔ FenceCloseShape c L' line)) := by
  have hL3 : 3 ≤ L := by
    simp only [V2.fenceParse] at hop
    rcases hd : op.dropWhile isSpace with _ | ⟨c, r⟩
    · rw [hd] at hop; cases hop
    · rw [hd] at hop
      by_cases hcb : c = btk ∨ c = '~'
      · simp only [hcb, if_true] at hop
        by_cases h2 : 2 ≤ (r.takeWhile (· = c)).length
        · simp only [h2, if_true] at hop
          by_cases h3 : (r.dropWhile (· = c)).all dotMatches = true
          · rw [if_pos h3] at hop
            simp only [Option.some.injEq, Prod.mk.injEq] at hop
            omega
          · rw [if_neg h3] at hop
            cases hop
        · simp [h2] at hop
      · simp [hcb] at hop
  -- the state after the opener
  have hpreF : (V2.stAfter ⟨false, ' ', 0, []⟩ pre).inFenced = false :=
    stAfter_outside_inFenced _ pre hpre
  set st0 := V2.stAfter ⟨false, ' ', 0, []⟩ pre with hst0
  have hopStep : V2.lineStep st0 op =
      ({ st0 with inFenced := true, fenceChar := btk, fenceLength := L }, op) := by
    simp [V2.lineStep, hop, hpreF]
  set st1 : V2.St := { st0 with inFenced := true, fenceChar := btk, fenceLength := L }
  have hmid' := convertGo_inside st1 mid hmid rfl
  -- the tilde line does not close a backtick fence
  have htlhead : ∃ r, tl.dropWhile isSpace = '~' :: r := by
    simp only [V2.fenceParse] at htl
    rcases hd : tl.dropWhile isSpace with _ | ⟨c, r⟩
    · rw [hd] at htl; cases htl
    · rw [hd] at htl
      by_cases hcb : c = btk ∨ c = '~'
      · simp only [hcb, if_true] at htl
        by_cases h2 : 2 ≤ (r.takeWhile (· = c)).length
        · simp only [h2, if_true] at htl
          by_cases h3 : (r.dropWhile (· = c)).all dotMatches = true
          · rw [if_pos h3] at htl
            simp only [Option.some.injEq, Prod.mk.injEq] at htl
            exact ⟨r, by rw [htl.1]⟩
          · rw [if_neg h3] at htl
            cases htl
        · simp [h2] at htl
      · simp [hcb] at htl
  have htlno : V2.fenceCloses btk L tl = false := by
    obtain ⟨r, hr⟩ := htlhead
    simp only [V2.fenceCloses, hr, List.takeWhile_cons]
    have : (decide ('~' = btk)) = false := by decide
    simp only [this, if_false, List.length_nil]
    have : ¬ (L ≤ 0) := by omega
    simp [this]
  have htlStep : V2.lineStep st1 tl = (st1, tl) := by
    simp only [V2.lineStep, htl, st1]
    simp [htlno]
  have hpost' := convertGo_inside st1 post hpost rfl
  refine ⟨?_, ?_, fun c L' line hc hL' => fenceCloses_iff c L' line hc hL'⟩
  · rw [convertGo_append, ← hst0]
    congr 1
    rw [convertGo_cons, hopStep]
    show op :: V2.convertGo st1 (mid ++ tl :: post) = op :: (mid ++ tl :: post)
    congr 1
    rw [convertGo_append, hmid'.1, hmid'.2]
    congr 1
    rw [convertGo_cons, htlStep]
    show tl :: V2.convertGo st1 post = tl :: post
    rw [hpost'.1]
  · rw [stAfter_append, ← hst0, stAfter_cons, hopStep]
    show (V2.stAfter st1 (mid ++ tl :: post)).inFenced = true
    rw [stAfter_append, hmid'.2, stAfter_cons, htlStep]
    show (V2.stAfter st1 post).inFenced = true
    rw [hpost'.2]

/-! ## C2: the mask/unmask round trip

The round trip fails when a single-backtick span of the second pass
encloses a placeholder the first pass left (its recorded segment then
contains `\x00`, and the single unmasking pass does not recurse into
replacements).  It holds whenever every recorded segment is itself free of
the control byte; the proof decomposes masked text into *pieces* (plain
characters and whole placeholders). -/

theorem digitsToNat_append_singleton (ds : List Char) (c : Char) :
    digitsToNat (ds ++ [c]) = digitsToNat ds * 10 + digitVal c := by
  simp [digitsToNat, List.foldl_append]

theorem charOfNat_digit_spec {m : Nat} (hm : m < 10) :
    isDigitCh (Char.ofNat (48 + m)) = true ∧ (Char.ofNat (48 + m)) ≠ '\x00' ∧
      (Char.ofNat (48 + m)) ≠ btk ∧ digitVal (Char.ofNat (48 + m)) = m := by
  interval_cases m <;>
    exact ⟨by decide, by decide, by decide, by decide⟩

theorem natDigitsAux_spec : ∀ fuel n, n < fuel →
    natDigitsAux fuel n ≠ [] ∧
    (∀ c ∈ natDigitsAux fuel n, isDigitCh c = true ∧ c ≠ '\x00' ∧ c ≠ btk) ∧
    digitsToNat (natDigitsAux fuel n) = n := by
  intro fuel
  induction fuel with
  | zero => intro n hn; omega
  | succ fuel ih =>
    intro n hn
    by_cases h10 : n < 10
    · simp only [natDigitsAux, h10, if_true]
      refine ⟨by simp, ?_, ?_⟩
      · intro c hc
        rw [List.mem_singleton] at hc
        subst hc
        exact ⟨(charOfNat_digit_spec h10).1, (charOfNat_digit_spec h10).2.1,
          (charOfNat_digit_spec h10).2.2.1⟩
      · show digitsToNat [_] = n
        have := (charOfNat_digit_spec h10).2.2.2
        simp [digitsToNat, this]
    · have hdiv : n / 10 < fuel := by
        have h1 : n / 10 < n := Nat.div_lt_self (by omega) (by omega)
        omega
      obtain ⟨hne, hmem, hval⟩ := ih (n / 10) hdiv
      simp only [natDigitsAux, h10, if_false]
      have hm10 : n % 10 < 10 := Nat.mod_lt _ (by omega)
      refine ⟨by simp, ?_, ?_⟩
      · intro c hc
        rcases List.mem_append.mp hc with hc | hc
        · exact hmem c hc
        · rw [List.mem_singleton] at hc
          subst hc
          exact ⟨(charOfNat_digit_spec hm10).1, (charOfNat_digit_spec hm10).2.1,
            (charOfNat_digit_spec hm10).2.2.1⟩
      · rw [digitsToNat_append_singleton, hval, (charOfNat_digit_spec hm10).2.2.2]
        omega

theorem natDigits_spec (n : Nat) :
    natDigits n ≠ [] ∧
    (∀ c ∈ natDigits n, isDigitCh c = true ∧ c ≠ '\x00' ∧ c ≠ btk) ∧
    digitsToNat (natDigits n) = n :=
  natDigitsAux_spec (n + 1) n (by omega)

theorem phChars_ne_btk (n : Nat) : ∀ c ∈ phChars n, c ≠ btk := by
  intro c hc
  simp only [phChars, List.mem_cons, List.mem_append, List.mem_singleton,
    List.not_mem_nil, or_false] at hc
  rcases hc with rfl | rfl | rfl | rfl | rfl | (h | rfl)
  · decide
  · decide
  · decide
  · decide
  · decide
  · exact ((natDigits_spec n).2.1 c h).2.2
  · decide

theorem placeholderAt_phChars (n : Nat) (rest : List Char) :
    placeholderAt (phChars n ++ rest) = some (n, rest) := by
  have hpre : List.isPrefixOf ('\x00' :: 'C' :: 'O' :: 'D' :: ['E'])
      (phChars n ++ rest) = true := by
    rw [List.isPrefixOf_iff_prefix]
    exact ⟨natDigits n ++ '\x00' :: rest, by simp [phChars]⟩
  have hdig0 : isDigitCh '\x00' = false := by decide
  have hdrop : (phChars n ++ rest).drop 5 = natDigits n ++ '\x00' :: rest := by
    simp [phChars]
  have htake : ((phChars n ++ rest).drop 5).takeWhile isDigitCh = natDigits n := by
    rw [hdrop, takeWhile_append_all (fun c hc => ((natDigits_spec n).2.1 c hc).1),
      List.takeWhile_cons]
    simp [hdig0]
  have hdw : ((phChars n ++ rest).drop 5).dropWhile isDigitCh = '\x00' :: rest := by
    rw [hdrop, dropWhile_append_all (fun c hc => ((natDigits_spec n).2.1 c hc).1),
      List.dropWhile_cons]
    simp [hdig0]
  obtain ⟨d, ds, hds⟩ : ∃ d ds, natDigits n = d :: ds := by
    rcases h : natDigits n with _ | ⟨d, ds⟩
    · exact absurd h (natDigits_spec n).1
    · exact ⟨d, ds, rfl⟩
  rw [placeholderAt, if_pos hpre]
  simp only [htake, hdw, hds]
  show (if ('\x00' : Char) = '\x00' then some (digitsToNat (d :: ds), rest)
    else none) = some (n, rest)
  rw [if_pos rfl, ← hds, (natDigits_spec n).2.2]

theorem placeholderAt_none {c : Char} (hc : c ≠ '\x00') (rest : List Char) :
    placeholderAt (c :: rest) = none := by
  have hpre : List.isPrefixOf ('\x00' :: 'C' :: 'O' :: 'D' :: ['E'])
      (c :: rest) = false := by
    rw [Bool.eq_false_iff]
    intro h
    rw [List.isPrefixOf_iff_prefix] at h
    obtain ⟨t, ht⟩ := h
    rw [List.cons_append] at ht
    exact hc (by injection ht with h1 _; exact h1.symm)
  rw [placeholderAt, if_neg (by simp [hpre])]

theorem concatRender_cons (p : GPiece) (P : List GPiece) :
    concatRender (p :: P) = renderP p ++ concatRender P := by
  simp [concatRender]

theorem concatRestore_cons (blocks : List (List Char)) (p : GPiece) (P : List GPiece) :
    concatRestore blocks (p :: P) = restoreP blocks p ++ concatRestore blocks P := by
  simp [concatRestore]

theorem concatRender_eq_nil {P : List GPiece} (h : concatRender P = []) : P = [] := by
  cases P with
  | nil => rfl
  | cons p P' =>
    exfalso
    rw [concatRender_cons] at h
    cases p with
    | raw c => simp [renderP] at h
    | ph n => simp [renderP, phChars] at h

theorem unmaskGo_cons (blocks : List (List Char)) (fuel : Nat) (c : Char)
    (rest : List Char) :
    unmaskGo blocks (fuel + 1) (c :: rest) =
      match placeholderAt (c :: rest) with
      | some p => blockAt blocks p.1 ++ unmaskGo blocks fuel p.2
      | none => c :: unmaskGo blocks fuel rest := rfl

theorem unmaskGo_ph_step (blocks : List (List Char)) (fuel n : Nat) (T : List Char) :
    unmaskGo blocks (fuel + 1) (phChars n ++ T) =
      blockAt blocks n ++ unmaskGo blocks fuel T := by
  have hp := placeholderAt_phChars n T
  simp only [phChars, List.cons_append] at hp ⊢
  rw [unmaskGo_cons, hp]

/-- Unmasking a piece render replaces each placeholder and keeps each plain
character (no placeholder can form across piece boundaries). -/
theorem unmaskGo_pieces (blocks : List (List Char)) :
    ∀ fuel P, (∀ c, GPiece.raw c ∈ P → c ≠ '\x00') →
      (concatRender P).length ≤ fuel →
      unmaskGo blocks fuel (concatRender P) = concatRestore blocks P := by
  intro fuel
  induction fuel with
  | zero =>
    intro P hraw hlen
    have h0 : concatRender P = [] := by
      cases h : concatRender P with
      | nil => rfl
      | cons a t => rw [h] at hlen; simp at hlen
    rw [concatRender_eq_nil h0] at *
    rfl
  | succ fuel ih =>
    intro P hraw hlen
    cases P with
    | nil => rfl
    | cons p P' =>
      cases p with
      | raw c =>
        have hc : c ≠ '\x00' := hraw c (List.mem_cons_self _ _)
        rw [concatRender_cons]
        show unmaskGo blocks (fuel + 1) (c :: concatRender P') = _
        rw [unmaskGo_cons, placeholderAt_none hc]
        rw [concatRestore_cons]
        show c :: unmaskGo blocks fuel (concatRender P') = [c] ++ concatRestore blocks P'
        rw [ih P' (fun d hd => hraw d (List.mem_cons_of_mem _ hd)) ?_]
        · rfl
        · rw [concatRender_cons] at hlen
          simp only [renderP, List.length_append, List.length_cons,
            List.length_nil] at hlen
          omega
      | ph n =>
        rw [concatRender_cons]
        show unmaskGo blocks (fuel + 1) (phChars n ++ concatRender P') = _
        rw [unmaskGo_ph_step, concatRestore_cons]
        rw [ih P' (fun d hd => hraw d (List.mem_cons_of_mem _ hd)) ?_]
        · rfl
        · rw [concatRender_cons] at hlen
          simp only [renderP, List.length_append] at hlen
          have : 1 ≤ (phChars n).length := by simp [phChars]
          omega

theorem dropWhile_head_false {α : Type} {p : α → Bool} :
    ∀ {l : List α} {d : α} {r : List α}, l.dropWhile p = d :: r → p d = false
  | [], _, _ => by intro h; cases h
  | c :: l, d, r => by
    intro h
    rw [List.dropWhile_cons] at h
    by_cases hc : p c = true
    · rw [if_pos hc] at h
      exact dropWhile_head_false h
    · rw [if_neg hc] at h
      injection h with h1 _
      rw [← h1]
      exact Bool.eq_false_iff.mpr hc

theorem matchSingleAt_none_of_ne {c : Char} (hc : c ≠ btk) (rest : List Char) :
    matchSingleAt (c :: rest) = none := by
  simp [matchSingleAt, hc]

theorem matchSingleAt_spec {cs m rest' : List Char}
    (h : matchSingleAt cs = some (m, rest')) :
    cs = m ++ rest' ∧ rest'.length < cs.length ∧ 2 ≤ m.length := by
  cases cs with
  | nil => cases h
  | cons c rest =>
    by_cases hc : c = btk
    · subst hc
      rw [matchSingleAt, if_pos rfl] at h
      rcases h1 : rest.takeWhile (· ≠ btk) with _ | ⟨x, xs⟩ <;>
        rcases h2 : rest.dropWhile (· ≠ btk) with _ | ⟨d, r2⟩ <;>
          rw [h1, h2] at h
      · cases h
      · cases h
      · cases h
      · injection h with h3
        injection h3 with hm hr
        have hd : d = btk := by
          have := dropWhile_head_false h2
          simpa using this
        have hsplit : rest = (x :: xs) ++ (d :: r2) := by
          rw [← h1, ← h2, List.takeWhile_append_dropWhile]
        subst hm
        subst hr
        subst hd
        refine ⟨?_, ?_, ?_⟩
        · rw [hsplit]
          simp
        · rw [hsplit]
          simp only [List.length_cons, List.length_append]
          omega
        · simp
    · rw [matchSingleAt_none_of_ne hc] at h
      cases h

theorem multiContentGo_spec (k : Nat) :
    ∀ (rest0 : List Char) (revContent content rest : List Char),
      multiContentGo k revContent rest0 = some (content, rest) →
      ∃ mid, content = revContent.reverse ++ mid ∧
        rest0 = mid ++ (List.replicate k btk ++ rest) := by
  intro rest0
  induction rest0 with
  | nil =>
    intro rev content rest h
    rw [multiContentGo] at h
    by_cases hp : List.isPrefixOf (List.replicate k btk) ([] : List Char) = true
    · rw [if_pos hp] at h
      have hk : List.replicate k btk = ([] : List Char) := by
        rw [List.isPrefixOf_iff_prefix] at hp
        exact List.prefix_nil.mp hp
      injection h with h3
      injection h3 with hm hr
      refine ⟨[], by simp [← hm], ?_⟩
      rw [hk] at *
      simp only [List.nil_append]
      rw [← hr]
      simp
    · rw [if_neg hp] at h
      cases h
  | cons c r ih =>
    intro rev content rest h
    rw [multiContentGo] at h
    by_cases hp : List.isPrefixOf (List.replicate k btk) (c :: r) = true
    · rw [if_pos hp] at h
      injection h with h3
      injection h3 with hm hr
      rw [List.isPrefixOf_iff_prefix] at hp
      obtain ⟨t, ht⟩ := hp
      refine ⟨[], by simp [← hm], ?_⟩
      have hdrop : (List.replicate k btk ++ t).drop k = t := by
        have h2 := List.drop_left (List.replicate k btk) t
        rwa [List.length_replicate] at h2
      rw [List.nil_append, ← hr, ← ht, hdrop]
    · rw [if_neg hp] at h
      by_cases hcb : c = btk
      · rw [if_pos hcb] at h
        cases h
      · rw [if_neg hcb] at h
        obtain ⟨mid, hcontent, hrest⟩ := ih (c :: rev) content rest h
        refine ⟨c :: mid, ?_, ?_⟩
        · rw [hcontent]
          simp
        · rw [hrest]
          simp

theorem multiContent_spec {k : Nat} {cs content rest : List Char}
    (h : multiContent k cs = some (content, rest)) :
    content ≠ [] ∧ cs = content ++ (List.replicate k btk ++ rest) := by
  cases cs with
  | nil => cases h
  | cons c r =>
    rw [multiContent] at h
    by_cases hc : c = btk
    · rw [if_pos hc] at h
      cases h
    · rw [if_neg hc] at h
      obtain ⟨mid, hcontent, hrest⟩ := multiContentGo_spec k r [c] content rest h
      simp only [List.reverse_cons, List.reverse_nil, List.nil_append] at hcontent
      refine ⟨by simp [hcontent], ?_⟩
      rw [hcontent, hrest]
      simp

theorem btkRun_decompose : ∀ cs : List Char,
    cs = List.replicate (btkRun cs) btk ++ cs.drop (btkRun cs)
  | [] => rfl
  | c :: rest => by
    rw [btkRun]
    by_cases hc : c = btk
    · rw [if_pos hc, List.replicate_succ]
      have := btkRun_decompose rest
      rw [List.drop_succ_cons, List.cons_append, ← this, hc]
    · rw [if_neg hc]
      simp

theorem matchMultiAt_spec {cs m restA : List Char}
    (h : matchMultiAt cs = some (m, restA)) :
    cs = m ++ restA ∧ restA.length < cs.length := by
  rw [matchMultiAt] at h
  by_cases hr : btkRun cs < 2
  · rw [if_pos hr] at h
    cases h
  · rw [if_neg hr] at h
    rcases hmc : multiContent (btkRun cs) (cs.drop (btkRun cs)) with _ | ⟨content, rest⟩
    · rw [hmc] at h
      cases h
    · rw [hmc] at h
      injection h with h3
      injection h3 with hm hrr
      obtain ⟨hcne, hdec⟩ := multiContent_spec hmc
      have hcs : cs = List.replicate (btkRun cs) btk ++
          (content ++ (List.replicate (btkRun cs) btk ++ rest)) := by
        conv_lhs => rw [btkRun_decompose cs]
        rw [← hdec]
      constructor
      · rw [← hrr, hcs, ← hm]
        simp
      · have hlen := congrArg List.length hcs
        simp only [List.length_append, List.length_replicate] at hlen
        have hc1 : 1 ≤ content.length := by
          cases content with
          | nil => exact absurd rfl hcne
          | cons _ _ => simp
        rw [← hrr]
        omega

theorem scanMultiGo_cons (fuel : Nat) (c : Char) (rest : List Char) :
    scanMultiGo (fuel + 1) (c :: rest) =
      match matchMultiAt (c :: rest) with
      | some (m, rest2) => .code m :: scanMultiGo fuel rest2
      | none => .lit c :: scanMultiGo fuel rest := rfl

theorem scanSingleGo_cons (fuel : Nat) (c : Char) (rest : List Char) :
    scanSingleGo (fuel + 1) (c :: rest) =
      match matchSingleAt (c :: rest) with
      | some (m, rest2) => .code m :: scanSingleGo fuel rest2
      | none => .lit c :: scanSingleGo fuel rest := rfl

theorem scanMultiGo_join : ∀ (fuel : Nat) (cs : List Char), cs.length ≤ fuel →
    joinSegs (scanMultiGo fuel cs) = cs ∧
    (∀ c, CodeSeg.lit c ∈ scanMultiGo fuel cs → c ∈ cs) := by
  intro fuel
  induction fuel with
  | zero =>
    intro cs hlen
    have : cs = [] := by
      cases cs with
      | nil => rfl
      | cons a t => simp at hlen
    subst this
    exact ⟨rfl, by intro c hc; cases hc⟩
  | succ fuel ih =>
    intro cs hlen
    cases cs with
    | nil => exact ⟨rfl, by intro c hc; cases hc⟩
    | cons c rest =>
      rcases hm : matchMultiAt (c :: rest) with _ | ⟨m, rest2⟩
      · have hS : scanMultiGo (fuel + 1) (c :: rest) =
            .lit c :: scanMultiGo fuel rest := by
          rw [scanMultiGo_cons, hm]
        have hrest := ih rest (by simpa using Nat.le_of_succ_le_succ hlen)
        rw [hS]
        constructor
        · rw [joinSegs, hrest.1]
        · intro d hd
          rcases List.mem_cons.mp hd with he | he
          · injection he with he
            rw [he]
            exact List.mem_cons_self _ _
          · exact List.mem_cons_of_mem _ (hrest.2 d he)
      · have hS : scanMultiGo (fuel + 1) (c :: rest) =
            .code m :: scanMultiGo fuel rest2 := by
          rw [scanMultiGo_cons, hm]
        obtain ⟨heq, hlt⟩ := matchMultiAt_spec hm
        have hrest := ih rest2 (by
          have : rest2.length < fuel + 1 := lt_of_lt_of_le hlt hlen
          omega)
        rw [hS]
        constructor
        · rw [joinSegs, hrest.1, ← heq]
        · intro d hd
          rcases List.mem_cons.mp hd with he | he
          · cases he
          · rw [heq]
            exact List.mem_append_right _ (hrest.2 d he)

theorem scanSingleGo_join : ∀ (fuel : Nat) (cs : List Char), cs.length ≤ fuel →
    joinSegs (scanSingleGo fuel cs) = cs ∧
    (∀ c, CodeSeg.lit c ∈ scanSingleGo fuel cs → c ∈ cs) := by
  intro fuel
  induction fuel with
  | zero =>
    intro cs hlen
    have : cs = [] := by
      cases cs with
      | nil => rfl
      | cons a t => simp at hlen
    subst this
    exact ⟨rfl, by intro c hc; cases hc⟩
  | succ fuel ih =>
    intro cs hlen
    cases cs with
    | nil => exact ⟨rfl, by intro c hc; cases hc⟩
    | cons c rest =>
      rcases hm : matchSingleAt (c :: rest) with _ | ⟨m, rest2⟩
      · have hS : scanSingleGo (fuel + 1) (c :: rest) =
            .lit c :: scanSingleGo fuel rest := by
          rw [scanSingleGo_cons, hm]
        have hrest := ih rest (by simpa using Nat.le_of_succ_le_succ hlen)
        rw [hS]
        constructor
        · rw [joinSegs, hrest.1]
        · intro d hd
          rcases List.mem_cons.mp hd with he | he
          · injection he with he
            rw [he]
            exact List.mem_cons_self _ _
          · exact List.mem_cons_of_mem _ (hrest.2 d he)
      · have hS : scanSingleGo (fuel + 1) (c :: rest) =
            .code m :: scanSingleGo fuel rest2 := by
          rw [scanSingleGo_cons, hm]
        obtain ⟨heq, hlt, -⟩ := matchSingleAt_spec hm
        have hrest := ih rest2 (by
          have : rest2.length < fuel + 1 := lt_of_lt_of_le hlt hlen
          omega)
        rw [hS]
        constructor
        · rw [joinSegs, hrest.1, ← heq]
        · intro d hd
          rcases List.mem_cons.mp hd with he | he
          · cases he
          · rw [heq]
            exact List.mem_append_right _ (hrest.2 d he)

theorem scanSingleGo_litrun :
    ∀ (u : List Char) (fuel : Nat) (T : List Char), (∀ c ∈ u, c ≠ btk) →
      scanSingleGo (fuel + u.length) (u ++ T) =
        u.map CodeSeg.lit ++ scanSingleGo fuel T
  | [], fuel, T, _ => by simp
  | c :: u', fuel, T, h => by
    have hc : c ≠ btk := h c (List.mem_cons_self _ _)
    have : fuel + (c :: u').length = (fuel + u'.length) + 1 := by
      simp [List.length_cons]
      omega
    rw [this, List.cons_append]
    show scanSingleGo ((fuel + u'.length) + 1) (c :: (u' ++ T)) = _
    have hS : scanSingleGo ((fuel + u'.length) + 1) (c :: (u' ++ T)) =
        .lit c :: scanSingleGo (fuel + u'.length) (u' ++ T) := by
      rw [scanSingleGo_cons, matchSingleAt_none_of_ne hc]
    rw [hS]
    rw [scanSingleGo_litrun u' fuel T (fun d hd => h d (List.mem_cons_of_mem _ hd))]
    simp

theorem renderSegsGo_fst : ∀ (idx : Nat) (segs : List CodeSeg),
    (renderSegsGo idx segs).1 = concatRender (segsPieces idx segs)
  | _, [] => rfl
  | idx, .lit c :: rest => by
    rw [renderSegsGo, segsPieces, concatRender_cons]
    show c :: (renderSegsGo idx rest).1 = renderP (.raw c) ++ _
    rw [renderSegsGo_fst idx rest]
    rfl
  | idx, .code s :: rest => by
    rw [renderSegsGo, segsPieces, concatRender_cons]
    show phChars idx ++ (renderSegsGo (idx + 1) rest).1 = renderP (.ph idx) ++ _
    rw [renderSegsGo_fst (idx + 1) rest]
    rfl

theorem renderSegsGo_snd : ∀ (idx : Nat) (segs : List CodeSeg),
    (renderSegsGo idx segs).2 = codeSegs segs
  | _, [] => rfl
  | idx, .lit c :: rest => by
    rw [renderSegsGo, codeSegs]
    show (renderSegsGo idx rest).2 = _
    exact renderSegsGo_snd idx rest
  | idx, .code s :: rest => by
    rw [renderSegsGo, codeSegs]
    show s :: (renderSegsGo (idx + 1) rest).2 = _
    rw [renderSegsGo_snd (idx + 1) rest]

theorem segsPieces_raw_mem {c : Char} :
    ∀ {idx : Nat} {segs : List CodeSeg},
      GPiece.raw c ∈ segsPieces idx segs → CodeSeg.lit c ∈ segs := by
  intro idx segs
  induction segs generalizing idx with
  | nil => intro h; cases h
  | cons s rest ih =>
    intro h
    cases s with
    | lit d =>
      rw [segsPieces] at h
      rcases List.mem_cons.mp h with he | he
      · injection he with he
        rw [he]
        exact List.mem_cons_self _ _
      · exact List.mem_cons_of_mem _ (ih he)
    | code s' =>
      rw [segsPieces] at h
      rcases List.mem_cons.mp h with he | he
      · cases he
      · exact List.mem_cons_of_mem _ (ih he)

theorem segsPieces_restore (blocks : List (List Char)) :
    ∀ (segs : List CodeSeg) (idx : Nat),
      (∀ j, j < (codeSegs segs).length →
        blocks.get? (idx + j) = (codeSegs segs).get? j) →
      concatRestore blocks (segsPieces idx segs) = joinSegs segs
  | [], _, _ => rfl
  | .lit c :: rest, idx, h => by
    rw [segsPieces, concatRestore_cons, joinSegs,
      segsPieces_restore blocks rest idx (by
        intro j hj
        exact h j (by rw [codeSegs]; exact hj))]
    rfl
  | .code s :: rest, idx, h => by
    rw [segsPieces, concatRestore_cons, joinSegs]
    have h0 : blocks.get? idx = some s := by
      have := h 0 (by rw [codeSegs]; simp)
      simpa [codeSegs] using this
    have hrest : concatRestore blocks (segsPieces (idx + 1) rest) = joinSegs rest := by
      refine segsPieces_restore blocks rest (idx + 1) ?_
      intro j hj
      have := h (j + 1) (by rw [codeSegs]; simpa using hj)
      rw [show idx + (j + 1) = idx + 1 + j by omega] at this
      rw [this, codeSegs]
      simp
    rw [hrest]
    show blockAt blocks idx ++ _ = _
    rw [blockAt, h0]
    rfl

theorem concatRestore_rawmap (blocks : List (List Char)) :
    ∀ m : List Char, concatRestore blocks (m.map GPiece.raw) = m
  | [] => rfl
  | c :: m' => by
    rw [List.map_cons, concatRestore_cons, concatRestore_rawmap blocks m']
    rfl

theorem concatRender_append (P Q : List GPiece) :
    concatRender (P ++ Q) = concatRender P ++ concatRender Q := by
  simp [concatRender]

theorem concatRestore_append (blocks : List (List Char)) (P Q : List GPiece) :
    concatRestore blocks (P ++ Q) =
      concatRestore blocks P ++ concatRestore blocks Q := by
  simp [concatRestore]

theorem pieces_split : ∀ (m : List Char) (P : List GPiece) (restA : List Char),
    (∀ c ∈ m, c ≠ '\x00') → concatRender P = m ++ restA →
    ∃ Pr, P = m.map GPiece.raw ++ Pr ∧ concatRender Pr = restA
  | [], P, restA, _, h => ⟨P, by simp, by simpa using h⟩
  | c :: m', P, restA, hm, h => by
    cases P with
    | nil =>
      exfalso
      rw [show concatRender ([] : List GPiece) = [] from rfl] at h
      exact List.cons_ne_nil _ _ h.symm
    | cons p P' =>
      cases p with
      | raw d =>
        rw [concatRender_cons] at h
        have hd : d = c ∧ concatRender P' = m' ++ restA := by
          rw [show renderP (GPiece.raw d) = [d] from rfl] at h
          simp only [List.singleton_append, List.cons_append, List.nil_append] at h
          exact ⟨by injection h, by injection h⟩
        obtain ⟨Pr, hP', hR⟩ := pieces_split m' P' restA
          (fun x hx => hm x (List.mem_cons_of_mem _ hx)) hd.2
        refine ⟨Pr, ?_, hR⟩
        rw [List.map_cons, hP', hd.1]
        rfl
      | ph n =>
        exfalso
        rw [concatRender_cons] at h
        have hc0 : c = '\x00' := by
          have hh := congrArg List.head? h
          simp only [renderP, phChars, List.cons_append, List.head?_cons] at hh
          injection hh with hh
          exact hh.symm
        exact hm c (List.mem_cons_self _ _) hc0

theorem renderSegsGo_lit (idx : Nat) (c : Char) (segs : List CodeSeg) :
    renderSegsGo idx (.lit c :: segs) =
      (c :: (renderSegsGo idx segs).1, (renderSegsGo idx segs).2) := rfl

theorem renderSegsGo_code (idx : Nat) (s : List Char) (segs : List CodeSeg) :
    renderSegsGo idx (.code s :: segs) =
      (phChars idx ++ (renderSegsGo (idx + 1) segs).1,
       s :: (renderSegsGo (idx + 1) segs).2) := rfl

theorem codeSegs_litmap : ∀ (u : List Char) (segs : List CodeSeg),
    codeSegs (u.map CodeSeg.lit ++ segs) = codeSegs segs
  | [], _ => rfl
  | c :: u', segs => by
    rw [List.map_cons, List.cons_append, codeSegs]
    exact codeSegs_litmap u' segs

theorem renderSegsGo_litmap : ∀ (u : List Char) (base : Nat) (segs : List CodeSeg),
    renderSegsGo base (u.map CodeSeg.lit ++ segs) =
      (u ++ (renderSegsGo base segs).1, (renderSegsGo base segs).2)
  | [], _, _ => by simp
  | c :: u', base, segs => by
    rw [List.map_cons, List.cons_append, renderSegsGo_lit,
      renderSegsGo_litmap u' base segs]
    simp

theorem drop_cons_parts {α : Type} {l : List α} {n : Nat} {x : α} {xs : List α}
    (h : l.drop n = x :: xs) : l.drop (n + 1) = xs ∧ l.get? n = some x := by
  constructor
  · rw [← List.tail_drop, h]
    rfl
  · have h2 := List.get?_drop l n 0
    rw [h, Nat.add_zero] at h2
    exact h2.symm

/-- The central lemma: running the single-backtick pass over a piece-shaped
text and renumbering from `base` yields a piece-shaped text again, with the
same unmasking, provided every span the pass records is free of `\x00`
(`blocks` holds exactly those spans from position `base` on). -/
theorem maskSecond_pieces (blocks : List (List Char)) :
    ∀ (N : Nat) (P : List GPiece) (base fuel : Nat),
      (concatRender P).length ≤ N →
      (∀ c, GPiece.raw c ∈ P → c ≠ '\x00') →
      (concatRender P).length ≤ fuel →
      (∀ s ∈ codeSegs (scanSingleGo fuel (concatRender P)), '\x00' ∉ s) →
      blocks.drop base = codeSegs (scanSingleGo fuel (concatRender P)) →
      ∃ P2, (renderSegsGo base (scanSingleGo fuel (concatRender P))).1 = concatRender P2 ∧
        (∀ c, GPiece.raw c ∈ P2 → c ≠ '\x00') ∧
        concatRestore blocks P2 = concatRestore blocks P := by
  intro N
  induction N with
  | zero =>
    intro P base fuel hN hraw hfuel hcf halign
    have h0 : concatRender P = [] := by
      cases h : concatRender P with
      | nil => rfl
      | cons a t => rw [h] at hN; simp at hN
    have hP : P = [] := concatRender_eq_nil h0
    subst hP
    have hs : scanSingleGo fuel ([] : List Char) = [] := by cases fuel <;> rfl
    refine ⟨[], ?_, ?_, rfl⟩
    · rw [show concatRender ([] : List GPiece) = [] from rfl, hs]
      rfl
    · intro c hc
      cases hc
  | succ N ih =>
    intro P base fuel hN hraw hfuel hcf halign
    cases P with
    | nil =>
      have hs : scanSingleGo fuel ([] : List Char) = [] := by cases fuel <;> rfl
      refine ⟨[], ?_, ?_, rfl⟩
      · rw [show concatRender ([] : List GPiece) = [] from rfl, hs]
        rfl
      · intro c hc
        cases hc
    | cons p P' =>
      cases p with
      | raw c =>
        have hT : concatRender (GPiece.raw c :: P') = c :: concatRender P' := by
          rw [concatRender_cons]
          rfl
        obtain ⟨f, rfl⟩ : ∃ f, fuel = f + 1 := by
          cases fuel with
          | zero => rw [hT] at hfuel; simp at hfuel
          | succ f => exact ⟨f, rfl⟩
        rcases hm : matchSingleAt (c :: concatRender P') with _ | ⟨m, restA⟩
        · -- no span starts here: the character stays literal
          have hS : scanSingleGo (f + 1) (concatRender (GPiece.raw c :: P')) =
              .lit c :: scanSingleGo f (concatRender P') := by
            rw [hT, scanSingleGo_cons, hm]
          rw [hS] at hcf halign ⊢
          rw [codeSegs] at hcf halign
          have hlen : (concatRender P').length ≤ N := by
            rw [hT] at hN
            simp only [List.length_cons] at hN
            omega
          have hfuel' : (concatRender P').length ≤ f := by
            rw [hT] at hfuel
            simp only [List.length_cons] at hfuel
            omega
          obtain ⟨P2', h1, h2, h3⟩ := ih P' base f hlen
            (fun d hd => hraw d (List.mem_cons_of_mem _ hd)) hfuel' hcf halign
          refine ⟨GPiece.raw c :: P2', ?_, ?_, ?_⟩
          · rw [renderSegsGo_lit]
            show c :: (renderSegsGo base (scanSingleGo f (concatRender P'))).1 = _
            rw [h1, concatRender_cons]
            rfl
          · intro d hd
            rcases List.mem_cons.mp hd with he | he
            · injection he with he
              rw [he]
              exact hraw c (List.mem_cons_self _ _)
            · exact h2 d he
          · rw [concatRestore_cons, concatRestore_cons, h3]
        · -- a span starts here
          obtain ⟨heq, hlt, hm2⟩ := matchSingleAt_spec hm
          have hS : scanSingleGo (f + 1) (concatRender (GPiece.raw c :: P')) =
              .code m :: scanSingleGo f restA := by
            rw [hT, scanSingleGo_cons, hm]
          rw [hS] at hcf halign ⊢
          rw [codeSegs] at hcf halign
          have hm0 : '\x00' ∉ m := hcf m (List.mem_cons_self _ _)
          have hrender : concatRender (GPiece.raw c :: P') = m ++ restA := by
            rw [hT]
            exact heq
          obtain ⟨Pr, hP, hPr⟩ := pieces_split m (GPiece.raw c :: P') restA
            (fun x hx he => hm0 (he ▸ hx)) hrender
          obtain ⟨hdrop1, hget⟩ := drop_cons_parts halign
          have hlenPr : (concatRender Pr).length ≤ N := by
            rw [hPr]
            rw [hT] at hN
            have h2 := hlt
            simp only [List.length_cons] at h2 hN
            omega
          have hfuelPr : (concatRender Pr).length ≤ f := by
            rw [hPr]
            rw [hT] at hfuel
            have h2 := hlt
            simp only [List.length_cons] at h2 hfuel
            omega
          have hrawPr : ∀ d, GPiece.raw d ∈ Pr → d ≠ '\x00' := by
            intro d hd
            exact hraw d (hP ▸ List.mem_append_right _ hd)
          have hcfPr : ∀ s ∈ codeSegs (scanSingleGo f (concatRender Pr)), '\x00' ∉ s := by
            rw [hPr]
            exact fun s hs => hcf s (List.mem_cons_of_mem _ hs)
          have halignPr : blocks.drop (base + 1) =
              codeSegs (scanSingleGo f (concatRender Pr)) := by
            rw [hPr]
            exact hdrop1
          obtain ⟨P2', h1, h2, h3⟩ := ih Pr (base + 1) f hlenPr hrawPr hfuelPr hcfPr halignPr
          rw [hPr] at h1
          refine ⟨GPiece.ph base :: P2', ?_, ?_, ?_⟩
          · rw [renderSegsGo_code]
            show phChars base ++ (renderSegsGo (base + 1) (scanSingleGo f restA)).1 = _
            rw [h1, concatRender_cons]
            rfl
          · intro d hd
            rcases List.mem_cons.mp hd with he | he
            · cases he
            · exact h2 d he
          · rw [concatRestore_cons, h3, hP, concatRestore_append,
              concatRestore_rawmap]
            show blockAt blocks base ++ concatRestore blocks Pr = _
            rw [blockAt, hget]
            rfl
      | ph n =>
        have hT : concatRender (GPiece.ph n :: P') = phChars n ++ concatRender P' := by
          rw [concatRender_cons]
          rfl
        have hulen : 1 ≤ (phChars n).length := by simp [phChars]
        have hfu : (phChars n).length ≤ fuel := by
          rw [hT] at hfuel
          simp only [List.length_append] at hfuel
          omega
        have hfuel_eq : fuel = (fuel - (phChars n).length) + (phChars n).length := by omega
        have hS : scanSingleGo fuel (concatRender (GPiece.ph n :: P')) =
            (phChars n).map CodeSeg.lit ++
              scanSingleGo (fuel - (phChars n).length) (concatRender P') := by
          rw [hT]
          conv_lhs => rw [hfuel_eq]
          exact scanSingleGo_litrun (phChars n) _ _ (phChars_ne_btk n)
        rw [hS] at hcf halign ⊢
        rw [codeSegs_litmap] at hcf halign
        have hlen : (concatRender P').length ≤ N := by
          rw [hT] at hN
          simp only [List.length_append] at hN
          omega
        have hfuel' : (concatRender P').length ≤ fuel - (phChars n).length := by
          rw [hT] at hfuel
          simp only [List.length_append] at hfuel
          omega
        obtain ⟨P2', h1, h2, h3⟩ := ih P' base (fuel - (phChars n).length) hlen
          (fun d hd => hraw d (List.mem_cons_of_mem _ hd)) hfuel' hcf halign
        refine ⟨GPiece.ph n :: P2', ?_, ?_, ?_⟩
        · rw [renderSegsGo_litmap]
          show phChars n ++
            (renderSegsGo base (scanSingleGo (fuel - (phChars n).length)
              (concatRender P'))).1 = _
          rw [h1, concatRender_cons]
          rfl
        · intro d hd
          rcases List.mem_cons.mp hd with he | he
          · cases he
          · exact h2 d he
        · rw [concatRestore_cons, concatRestore_cons, h3]

theorem mask_roundtrip_core (cs m1 : List Char) (b1 b2 : List (List Char))
    (segs1 segs2 : List CodeSeg)
    (hs1 : segs1 = scanMulti cs) (hm1 : m1 = (renderSegsGo 0 segs1).1)
    (hb1 : b1 = (renderSegsGo 0 segs1).2) (hs2 : segs2 = scanSingle m1)
    (hb2 : b2 = (renderSegsGo b1.length segs2).2)
    (h0 : '\x00' ∉ cs) (hseg : ∀ b ∈ b1 ++ b2, '\x00' ∉ b) :
    unmaskCodeContent (renderSegsGo b1.length segs2).1 (b1 ++ b2) = cs := by
  have hjoin := scanMultiGo_join cs.length cs (le_refl _)
  have hm1P : m1 = concatRender (segsPieces 0 segs1) := by
    rw [hm1, renderSegsGo_fst]
  have hb1c : b1 = codeSegs segs1 := by rw [hb1, renderSegsGo_snd]
  have hb2c : b2 = codeSegs segs2 := by rw [hb2, renderSegsGo_snd]
  have hlen1 : (concatRender (segsPieces 0 segs1)).length = m1.length := by
    rw [← hm1P]
  have hraw1 : ∀ c, GPiece.raw c ∈ segsPieces 0 segs1 → c ≠ '\x00' := by
    intro c hc he
    apply h0
    rw [← he]
    have hmem : CodeSeg.lit c ∈ segs1 := segsPieces_raw_mem hc
    rw [hs1] at hmem
    exact hjoin.2 c hmem
  have hcf : ∀ s ∈ codeSegs (scanSingleGo m1.length
      (concatRender (segsPieces 0 segs1))), '\x00' ∉ s := by
    intro s hs
    apply hseg s
    apply List.mem_append_right
    rw [← hm1P] at hs
    rw [hb2c, hs2]
    exact hs
  have halign : (b1 ++ b2).drop b1.length =
      codeSegs (scanSingleGo m1.length (concatRender (segsPieces 0 segs1))) := by
    rw [List.drop_left, hb2c, hs2, ← hm1P]
    rfl
  obtain ⟨P2, h1, h2, h3⟩ := maskSecond_pieces (b1 ++ b2) m1.length
    (segsPieces 0 segs1) b1.length m1.length (le_of_eq hlen1) hraw1
    (le_of_eq hlen1) hcf halign
  rw [← hm1P] at h1
  have hm2P : (renderSegsGo b1.length segs2).1 = concatRender P2 := by
    rw [hs2]
    exact h1
  have hrestore1 : concatRestore (b1 ++ b2) (segsPieces 0 segs1) = joinSegs segs1 := by
    refine segsPieces_restore (b1 ++ b2) segs1 0 ?_
    intro j hj
    have hjb : j < b1.length := by rw [hb1c]; exact hj
    have hga : (b1 ++ b2).get? j = b1.get? j := List.get?_append hjb
    rw [Nat.zero_add, hga, hb1c]
  rw [hm2P, unmaskCodeContent,
    unmaskGo_pieces (b1 ++ b2) (concatRender P2).length P2 h2 (le_refl _), h3,
    hrestore1, hs1]
  exact hjoin.1

/-- C2 (amended): the mask/unmask round trip holds for every line free of
the control byte `\x00` in which, additionally, every recorded code segment
is itself free of `\x00` (equivalently: no single-backtick span of the
second pass encloses a placeholder left by the multi-backtick pass). -/
theorem C2_mask_roundtrip_amended (cs : List Char) (h0 : '\x00' ∉ cs)
    (hseg : ∀ b ∈ (maskCodeContent cs).codeBlocks, '\x00' ∉ b) :
    unmaskCodeContent (maskCodeContent cs).masked (maskCodeContent cs).codeBlocks = cs :=
  mask_roundtrip_core cs _ _ _ _ _ rfl rfl rfl rfl rfl h0 hseg

/-- C2 counterexample: on a line where a single-backtick span encloses a
double-backtick span, the second masking pass records a segment containing
a first-pass placeholder, and the single unmasking pass does not restore
it: `unmask(mask(s)) ≠ s` although `s` is free of `\x00`. -/
theorem C2_counterexample :
    ('\x00' ∉ ("` ``x`` `").data) ∧
    unmaskCodeContent (maskCodeContent ("` ``x`` `").data).masked
      (maskCodeContent ("` ``x`` `").data).codeBlocks ≠ ("` ``x`` `").data := by
  constructor
  · decide
  · decide

/-- C2 witness: a line with both kinds of spans, none nested. -/
theorem C2_mask_roundtrip_amended_witness :
    (('\x00' ∉ ("a ``x`` and `y`").data) ∧
      ∀ b ∈ (maskCodeContent ("a ``x`` and `y`").data).codeBlocks, '\x00' ∉ b) ∧
    unmaskCodeContent (maskCodeContent ("a ``x`` and `y`").data).masked
      (maskCodeContent ("a ``x`` and `y`").data).codeBlocks = ("a ``x`` and `y`").data :=
  ⟨⟨by decide, by decide⟩,
    C2_mask_roundtrip_amended ("a ``x`` and `y`").data (by decide) (by decide)⟩

/-- C5 witness at a concrete document. -/
theorem C5_mismatched_fence_stays_open_witness :
    V2.convertGo ⟨false, ' ', 0, []⟩
        (["before".data] ++ "```".data :: (["code <x>".data] ++ "~~~".data :: ["after".data])) =
      V2.convertGo ⟨false, ' ', 0, []⟩ ["before".data] ++
        "```".data :: (["code <x>".data] ++ "~~~".data :: ["after".data]) ∧
    (V2.stAfter ⟨false, ' ', 0, []⟩
        (["before".data] ++ "```".data :: (["code <x>".data] ++ "~~~".data :: ["after".data]))).inFenced = true :=
  have h := C5_mismatched_fence_stays_open ["before".data] ["code <x>".data]
    ["after".data] ("```".data) ("~~~".data) 3 3
    (by decide) (by decide) (by decide) (by decide) (by decide)
  ⟨h.1, h.2.1⟩


/-! ## The line loops: per-line decomposition and indexing -/

theorem codeStateAt_zero (b : Bool) (ls : List (List Char)) : codeStateAt b ls 0 = b := rfl

theorem codeStateAt_succ (b : Bool) (l : List Char) (ls : List (List Char)) (i : Nat) :
    codeStateAt b (l :: ls) (i + 1) =
      codeStateAt (if isFenceLine l then !b else b) ls i := rfl

theorem convV1CodeStateAt_zero (b : Bool) (ls : List (List Char)) :
    convV1CodeStateAt b ls 0 = b := rfl

theorem convV1CodeStateAt_succ (b : Bool) (l : List Char) (ls : List (List Char)) (i : Nat) :
    convV1CodeStateAt b (l :: ls) (i + 1) =
      convV1CodeStateAt (if isFenceLineConvV1 l then !b else b) ls i := rfl

/-- The converter's anchored fence regex only accepts lines the parser's
unanchored one does. -/
theorem isFenceLineConvV1_imp (l : List Char) (h : isFenceLineConvV1 l = true) :
    isFenceLine l = true := by
  simp only [isFenceLineConvV1, Bool.or_eq_true, Bool.and_eq_true] at h
  simp only [isFenceLine, Bool.or_eq_true]
  rcases h with ⟨h1, -⟩ | ⟨h1, -⟩
  · exact Or.inl h1
  · exact Or.inr h1

theorem isFenceLineConvV1_false_of (l : List Char) (h : isFenceLine l = false) :
    isFenceLineConvV1 l = false := by
  cases hb : isFenceLineConvV1 l with
  | false => rfl
  | true => rw [isFenceLineConvV1_imp l hb] at h; exact Bool.noConfusion h

theorem foldl_fence_agree (b : Bool) :
    ∀ (L : List (List Char)), (∀ l ∈ L, isFenceLine l = isFenceLineConvV1 l) →
      L.foldl (fun st l => if isFenceLineConvV1 l then !st else st) b =
        L.foldl (fun st l => if isFenceLine l then !st else st) b := by
  intro L
  induction L generalizing b with
  | nil => intro h; rfl
  | cons l rest ih =>
    intro h
    rw [List.foldl_cons, List.foldl_cons, h l (List.mem_cons_self _ _)]
    exact ih _ (fun x hx => h x (List.mem_cons_of_mem _ hx))

/-- When every line's two fence tests agree, the parser's and the
converter's code-block states coincide. -/
theorem convV1CodeStateAt_agree (b : Bool) (ls : List (List Char)) (i : Nat)
    (h : ∀ l ∈ ls, isFenceLine l = isFenceLineConvV1 l) :
    convV1CodeStateAt b ls i = codeStateAt b ls i := by
  unfold convV1CodeStateAt codeStateAt
  exact foldl_fence_agree b _ (fun l hl => h l (List.mem_of_mem_take hl))

/-- The converter's line loop, indexed: the group at index `i` is the
emission of line `i` under the code-block state its own fence regex
reaches there. -/
theorem convertLoop_get (st : ConvSt) :
    ∀ (ls : List (List Char)) (b : Bool) (k i : Nat),
      (convertLoop st b k ls).get? i =
        (ls.get? i).map (fun l => convertLineEmit st (convV1CodeStateAt b ls i) (k + i) l) := by
  intro ls
  induction ls with
  | nil => intro b k i; rfl
  | cons l rest ih =>
    intro b k i
    cases i with
    | zero => rfl
    | succ i =>
      show (convertLoop st (if isFenceLineConvV1 l then !b else b) (k + 1) rest).get? i = _
      rw [ih, convV1CodeStateAt_succ]
      have h : k + 1 + i = k + (i + 1) := by omega
      rw [h]
      rfl

theorem dsAppend_dsNil (s : DocumentStructure) : dsAppend dsNil s = s := by
  cases s
  simp [dsAppend, dsNil]

/-- One step of the parser's loop as a record-and-merge. -/
theorem parseGo_cons (b : Bool) (k : Nat) (l : List Char) (rest : List (List Char)) :
    parseGo b k (l :: rest) =
      dsAppend (lineStructure b k l)
        (parseGo (if isFenceLine l then !b else b) (k + 1) rest) := by
  by_cases hf : isFenceLine l
  · simp [parseGo, lineStructure, hf, dsAppend_dsNil]
  · cases b with
    | true => simp [parseGo, lineStructure, hf, dsAppend_dsNil]
    | false => simp [parseGo, lineStructure, hf, dsAppend]

/-- The parser's loop is the concatenation of its per-line records. -/
theorem parseGo_eq_fold :
    ∀ (ls : List (List Char)) (b : Bool) (k : Nat),
      parseGo b k ls = (parseLinesGo b k ls).foldr dsAppend dsNil := by
  intro ls
  induction ls with
  | nil => intro b k; rfl
  | cons l rest ih =>
    intro b k
    rw [parseGo_cons, ih]
    rfl

/-- The per-line records, indexed. -/
theorem parseLinesGo_get :
    ∀ (ls : List (List Char)) (b : Bool) (k i : Nat),
      (parseLinesGo b k ls).get? i =
        (ls.get? i).map (fun l => lineStructure (codeStateAt b ls i) (k + i) l) := by
  intro ls
  induction ls with
  | nil => intro b k i; rfl
  | cons l rest ih =>
    intro b k i
    cases i with
    | zero => rfl
    | succ i =>
      show (parseLinesGo (if isFenceLine l then !b else b) (k + 1) rest).get? i = _
      rw [ih, codeStateAt_succ]
      have h : k + 1 + i = k + (i + 1) := by omega
      rw [h]
      rfl

theorem foldr_dsAppend_mem_tags (L : List DocumentStructure) (t : XmlTag) :
    t ∈ (L.foldr dsAppend dsNil).xmlTags ↔ ∃ s ∈ L, t ∈ s.xmlTags := by
  induction L with
  | nil => simp [dsNil]
  | cons s L ih => simp [dsAppend, ih]

theorem foldr_dsAppend_mem_headers (L : List DocumentStructure) (h : MarkdownHeader) :
    h ∈ (L.foldr dsAppend dsNil).headers ↔ ∃ s ∈ L, h ∈ s.headers := by
  induction L with
  | nil => simp [dsNil]
  | cons s L ih => simp [dsAppend, ih]

theorem foldr_dsAppend_mem_rules (L : List DocumentStructure) (x : Nat) :
    x ∈ (L.foldr dsAppend dsNil).horizontalRules ↔
      ∃ s ∈ L, x ∈ s.horizontalRules := by
  induction L with
  | nil => simp [dsNil]
  | cons s L ih => simp [dsAppend, ih]

/-- A tag occurrence recorded by the parser comes from some line, read
under the code-block state reached there — and conversely. -/
theorem parseGo_mem_xmlTags (ls : List (List Char)) (b : Bool) (k : Nat) (t : XmlTag) :
    t ∈ (parseGo b k ls).xmlTags ↔
      ∃ j l, ls.get? j = some l ∧
        t ∈ (lineStructure (codeStateAt b ls j) (k + j) l).xmlTags := by
  rw [parseGo_eq_fold, foldr_dsAppend_mem_tags]
  constructor
  · rintro ⟨s, hs, hm⟩
    obtain ⟨j, hj⟩ := List.mem_iff_get?.mp hs
    rw [parseLinesGo_get] at hj
    cases hl : ls.get? j with
    | none => rw [hl] at hj; exact absurd hj (by simp)
    | some l =>
      rw [hl] at hj
      have hj2 : lineStructure (codeStateAt b ls j) (k + j) l = s := Option.some.inj hj
      exact ⟨j, l, hl, by rw [hj2]; exact hm⟩
  · rintro ⟨j, l, hl, hm⟩
    refine ⟨lineStructure (codeStateAt b ls j) (k + j) l, ?_, hm⟩
    exact List.mem_iff_get?.mpr ⟨j, by rw [parseLinesGo_get, hl]; rfl⟩

/-- A header occurrence recorded by the parser comes from some line. -/
theorem parseGo_mem_headers (ls : List (List Char)) (b : Bool) (k : Nat)
    (h : MarkdownHeader) :
    h ∈ (parseGo b k ls).headers ↔
      ∃ j l, ls.get? j = some l ∧
        h ∈ (lineStructure (codeStateAt b ls j) (k + j) l).headers := by
  rw [parseGo_eq_fold, foldr_dsAppend_mem_headers]
  constructor
  · rintro ⟨s, hs, hm⟩
    obtain ⟨j, hj⟩ := List.mem_iff_get?.mp hs
    rw [parseLinesGo_get] at hj
    cases hl : ls.get? j with
    | none => rw [hl] at hj; exact absurd hj (by simp)
    | some l =>
      rw [hl] at hj
      have hj2 : lineStructure (codeStateAt b ls j) (k + j) l = s := Option.some.inj hj
      exact ⟨j, l, hl, by rw [hj2]; exact hm⟩
  · rintro ⟨j, l, hl, hm⟩
    refine ⟨lineStructure (codeStateAt b ls j) (k + j) l, ?_, hm⟩
    exact List.mem_iff_get?.mpr ⟨j, by rw [parseLinesGo_get, hl]; rfl⟩

/-- A horizontal-rule record of the parser comes from some line. -/
theorem parseGo_mem_rules (ls : List (List Char)) (b : Bool) (k : Nat) (x : Nat) :
    x ∈ (parseGo b k ls).horizontalRules ↔
      ∃ j l, ls.get? j = some l ∧
        x ∈ (lineStructure (codeStateAt b ls j) (k + j) l).horizontalRules := by
  rw [parseGo_eq_fold, foldr_dsAppend_mem_rules]
  constructor
  · rintro ⟨s, hs, hm⟩
    obtain ⟨j, hj⟩ := List.mem_iff_get?.mp hs
    rw [parseLinesGo_get] at hj
    cases hl : ls.get? j with
    | none => rw [hl] at hj; exact absurd hj (by simp)
    | some l =>
      rw [hl] at hj
      have hj2 : lineStructure (codeStateAt b ls j) (k + j) l = s := Option.some.inj hj
      exact ⟨j, l, hl, by rw [hj2]; exact hm⟩
  · rintro ⟨j, l, hl, hm⟩
    refine ⟨lineStructure (codeStateAt b ls j) (k + j) l, ?_, hm⟩
    exact List.mem_iff_get?.mpr ⟨j, by rw [parseLinesGo_get, hl]; rfl⟩

/-- Every tag the per-line scan records carries that line's number. -/
theorem parseLineTags_line (i : Nat) (l : List Char) (t : XmlTag)
    (h : t ∈ parseLineTags i l) : t.line = i := by
  simp only [parseLineTags, List.mem_append, List.mem_map] at h
  rcases h with (⟨m, _, rfl⟩ | ⟨m, _, rfl⟩) | ⟨m, _, rfl⟩ <;> rfl

/-- What membership in one line's record implies: the line was read
outside code blocks, is no fence and no rule, and the tag is the scan's. -/
theorem lineStructure_tags {b : Bool} {i : Nat} {l : List Char} {t : XmlTag}
    (h : t ∈ (lineStructure b i l).xmlTags) :
    t.line = i ∧ b = false ∧ isFenceLine l = false ∧ isHorizontalRule l = false ∧
      t ∈ parseLineTags i l := by
  unfold lineStructure at h
  by_cases hf : isFenceLine l
  · rw [if_pos hf] at h; exact absurd h (by simp [dsNil])
  · rw [if_neg hf] at h
    cases b with
    | true => exact absurd h (by simp [dsNil])
    | false =>
      simp only [Bool.false_eq_true, if_false, parseLineStructure] at h
      by_cases hhr : isHorizontalRule l
      · rw [if_pos hhr] at h; exact absurd h (by simp)
      · rw [if_neg hhr] at h
        exact ⟨parseLineTags_line i l t h, rfl, by simp [hf], by simp [hhr], h⟩

/-- Conversely, a tag of the scan of an outside-code, non-fence, non-rule
line is in that line's record. -/
theorem lineStructure_tags_intro {i : Nat} {l : List Char} {t : XmlTag}
    (hf : isFenceLine l = false) (hhr : isHorizontalRule l = false)
    (h : t ∈ parseLineTags i l) : t ∈ (lineStructure false i l).xmlTags := by
  unfold lineStructure parseLineStructure
  rw [if_neg (by simp [hf]), if_neg (by simp), if_neg (by simp [hhr])]
  exact h

/-- What membership in one line's header record implies. -/
theorem lineStructure_headers {b : Bool} {i : Nat} {l : List Char} {h : MarkdownHeader}
    (hm : h ∈ (lineStructure b i l).headers) :
    h.line = i ∧ b = false ∧ isFenceLine l = false ∧ isHorizontalRule l = false ∧
      ∃ kt, headerMatch l = some kt ∧ h = ⟨kt.1, i, kt.2⟩ := by
  unfold lineStructure at hm
  by_cases hf : isFenceLine l
  · rw [if_pos hf] at hm; exact absurd hm (by simp [dsNil])
  · rw [if_neg hf] at hm
    cases b with
    | true => exact absurd hm (by simp [dsNil])
    | false =>
      simp only [Bool.false_eq_true, if_false, parseLineStructure] at hm
      by_cases hhr : isHorizontalRule l
      · rw [if_pos hhr] at hm; exact absurd hm (by simp)
      · rw [if_neg hhr] at hm
        cases hmt : headerMatch l with
        | none => rw [hmt] at hm; exact absurd hm (by simp)
        | some kt =>
          rw [hmt] at hm
          simp only [List.mem_singleton] at hm
          exact ⟨by rw [hm], rfl, by simp [hf], by simp [hhr], kt, rfl, hm⟩

/-- What membership in one line's rule record implies. -/
theorem lineStructure_rules {b : Bool} {i : Nat} {l : List Char} {x : Nat}
    (hm : x ∈ (lineStructure b i l).horizontalRules) :
    x = i ∧ b = false ∧ isFenceLine l = false ∧ isHorizontalRule l = true := by
  unfold lineStructure at hm
  by_cases hf : isFenceLine l
  · rw [if_pos hf] at hm; exact absurd hm (by simp [dsNil])
  · rw [if_neg hf] at hm
    cases b with
    | true => exact absurd hm (by simp [dsNil])
    | false =>
      simp only [Bool.false_eq_true, if_false, parseLineStructure] at hm
      by_cases hhr : isHorizontalRule l
      · rw [if_pos hhr] at hm
        simp only [List.mem_singleton] at hm
        exact ⟨hm, rfl, by simp [hf], by simp [hhr]⟩
      · rw [if_neg hhr] at hm; exact absurd hm (by simp)


/-! ## C1: lines inside fenced code blocks -/

/-- **C1 (amended).**  The structure extractor and the Markdown transformer
track fenced code blocks with *different* regexes (the transformer's is
anchored with a `(.*)$` completion), so "inside a fenced code block" splits
in two.  A non-fence line reached with the extractor's code-block state on
contributes no tag, header, or horizontal-rule occurrence; when
additionally the transformer's own code-block state is on there, the line
is also emitted byte-for-byte unchanged.  With the transformer's state off
the passthrough fails, see `C1_counterexample`. -/
theorem C1_code_line_passthrough (text : List Char) (i : Nat) (l : List Char)
    (hl : (splitLines text).get? i = some l)
    (hin : codeStateAt false (splitLines text) i = true)
    (hinc : convV1CodeStateAt false (splitLines text) i = true)
    (hf : isFenceLine l = false) :
    convertEmits text i = [l] ∧
    (∀ t ∈ (parseDocumentText text).xmlTags, t.line ≠ i) ∧
    (∀ h ∈ (parseDocumentText text).headers, h.line ≠ i) ∧
    i ∉ (parseDocumentText text).horizontalRules := by
  refine ⟨?_, ?_, ?_, ?_⟩
  · show ((convertLoop (convStOf text) false 0 (splitLines text)).get? i).getD [] = [l]
    rw [convertLoop_get, hl]
    show convertLineEmit (convStOf text) (convV1CodeStateAt false (splitLines text) i)
      (0 + i) l = [l]
    rw [hinc]
    unfold convertLineEmit
    rw [if_neg (by simp [isFenceLineConvV1_false_of l hf]), if_pos rfl]
  · intro t ht hline
    unfold parseDocumentText at ht
    rw [parseGo_mem_xmlTags] at ht
    obtain ⟨j, l', hj, hm⟩ := ht
    obtain ⟨hline', hb, -, -, -⟩ := lineStructure_tags hm
    have hji : j = i := by omega
    subst hji
    rw [hb] at hin
    exact Bool.noConfusion hin
  · intro h hh hline
    unfold parseDocumentText at hh
    rw [parseGo_mem_headers] at hh
    obtain ⟨j, l', hj, hm⟩ := hh
    obtain ⟨hline', hb, -, -, -⟩ := lineStructure_headers hm
    have hji : j = i := by omega
    subst hji
    rw [hb] at hin
    exact Bool.noConfusion hin
  · intro hx
    unfold parseDocumentText at hx
    rw [parseGo_mem_rules] at hx
    obtain ⟨j, l', hj, hm⟩ := hx
    obtain ⟨hline', hb, -, -⟩ := lineStructure_rules hm
    have hji : j = i := by omega
    subst hji
    rw [hb] at hin
    exact Bool.noConfusion hin

/-- C1 witness at a concrete document. -/
theorem C1_code_line_passthrough_witness :
    convertEmits ("~~~\n<a>\n~~~").data 1 = [("<a>").data] ∧
    (∀ t ∈ (parseDocumentText ("~~~\n<a>\n~~~").data).xmlTags, t.line ≠ 1) ∧
    (∀ h ∈ (parseDocumentText ("~~~\n<a>\n~~~").data).headers, h.line ≠ 1) ∧
    1 ∉ (parseDocumentText ("~~~\n<a>\n~~~").data).horizontalRules :=
  C1_code_line_passthrough ("~~~\n<a>\n~~~").data 1 (("<a>").data)
    (by decide) (by decide) (by decide) (by decide)

/-- **C1, counterexample side.**  A fence line ending in a stray carriage
return (`/\r?\n/` keeps a `\r` not followed by `\n`) toggles the
extractor's unanchored fence regex but not the transformer's anchored one:
on the second line the extractor's state is on (the line's tag is *not*
recorded) while the transformer, still outside any code block, strips the
tag from the line instead of passing it through. -/
theorem C1_counterexample :
    (splitLines ("```\r\r\nX<a>Y\n```").data).get? 1 = some (("X<a>Y").data) ∧
    codeStateAt false (splitLines ("```\r\r\nX<a>Y\n```").data) 1 = true ∧
    isFenceLine (("X<a>Y").data) = false ∧
    convertEmits ("```\r\r\nX<a>Y\n```").data 1 = [("XY").data] ∧
    convertEmits ("```\r\r\nX<a>Y\n```").data 1 ≠ [("X<a>Y").data] :=
  ⟨by decide, by decide, by decide, by decide, by decide⟩


/-! ## The tag walk: where end lines come from, unmatched closings, depth -/

theorem setAdd_mem {s : List Nat} {x y : Nat} (h : x ∈ setAdd s y) : x ∈ s ∨ x = y := by
  unfold setAdd at h
  split at h
  · exact Or.inl h
  · rcases List.mem_append.mp h with h1 | h1
    · exact Or.inl h1
    · exact Or.inr (List.mem_singleton.mp h1)

/-- A line in the end-line set after one step of the tag walk was there
before, or is the line of this tag, it being a closing occurrence. -/
theorem convTagStep_ends_mem (hrs : List Nat) (st : ConvSt) (t : XmlTag) (x : Nat)
    (h : x ∈ (convTagStep hrs st t).ends) :
    x ∈ st.ends ∨ (t.isClosing = true ∧ x = t.line) := by
  unfold convTagStep at h
  by_cases ho : t.isOpening
  · rw [if_pos ho] at h
    exact Or.inl h
  · rw [if_neg (by simp [ho])] at h
    by_cases hc : t.isClosing
    · rw [if_pos hc] at h
      cases hfind : tagStackFind t.name (hrResetLoop hrs t.line st.depth st.stack).2 with
      | some q =>
        rw [hfind] at h
        rcases setAdd_mem h with h1 | h1
        · exact Or.inl h1
        · exact Or.inr ⟨hc, h1⟩
      | none =>
        rw [hfind] at h
        rcases setAdd_mem h with h1 | h1
        · exact Or.inl h1
        · exact Or.inr ⟨hc, h1⟩
    · rw [if_neg (by simp [hc])] at h
      by_cases hs : t.isSelfClosing
      · rw [if_pos hs] at h
        exact Or.inl h
      · rw [if_neg (by simp [hs])] at h
        exact Or.inl h

/-- Every line of the end-line set after the whole walk is the line of a
closing occurrence among the tags walked. -/
theorem convFold_ends_mem (hrs : List Nat) :
    ∀ (tags : List XmlTag) (st : ConvSt) (x : Nat),
      x ∈ (tags.foldl (convTagStep hrs) st).ends →
        x ∈ st.ends ∨ ∃ t ∈ tags, t.isClosing = true ∧ t.line = x := by
  intro tags
  induction tags with
  | nil => intro st x h; exact Or.inl h
  | cons t ts ih =>
    intro st x h
    rcases ih (convTagStep hrs st t) x h with h1 | ⟨u, hu, hc, hl⟩
    · rcases convTagStep_ends_mem hrs st t x h1 with h2 | ⟨h2, h3⟩
      · exact Or.inl h2
      · exact Or.inr ⟨t, List.mem_cons_self t ts, h2, h3.symm⟩
    · exact Or.inr ⟨u, List.mem_cons_of_mem t hu, hc, hl⟩

/-- The horizontal-rule reset loop either leaves its state alone or resets
it to depth 0 and an empty stack. -/
theorem hrResetLoop_cases (tagLine : Nat) :
    ∀ (hrs : List Nat) (d : Int) (stack : List (List Char × Nat)),
      hrResetLoop hrs tagLine d stack = (d, stack) ∨
        hrResetLoop hrs tagLine d stack = (0, []) := by
  intro hrs
  induction hrs with
  | nil => intro d stack; exact Or.inl rfl
  | cons hr hrs ih =>
    intro d stack
    have hcons : hrResetLoop (hr :: hrs) tagLine d stack =
        (if hrTrigger tagLine stack hr then hrResetLoop hrs tagLine 0 []
         else hrResetLoop hrs tagLine d stack) := by
      unfold hrResetLoop
      simp only [List.foldl_cons]
      by_cases htr : hrTrigger tagLine stack hr
      · simp [htr]
      · simp [htr]
    rw [hcons]
    by_cases htr : hrTrigger tagLine stack hr
    · rw [if_pos htr]
      rcases ih 0 [] with h1 | h1
      · exact Or.inr h1
      · exact Or.inr h1
    · rw [if_neg htr]
      exact ih d stack

/-- Searching the stack for an absent name fails. -/
theorem tagStackFind_eq_none (nm : List Char) :
    ∀ (stk : List (List Char × Nat)), (∀ e ∈ stk, e.1 ≠ nm) →
      tagStackFind nm stk = none := by
  intro stk
  induction stk with
  | nil => intro _; rfl
  | cons e rest ih =>
    intro h
    unfold tagStackFind
    rw [if_neg (h e (List.mem_cons_self e rest)), ih (fun x hx => h x (List.mem_cons_of_mem e hx))]

/-- One step of the tag walk keeps the depth counter nonnegative. -/
theorem convTagStep_depth_nonneg (hrs : List Nat) (st : ConvSt) (t : XmlTag)
    (h : 0 ≤ st.depth) : 0 ≤ (convTagStep hrs st t).depth := by
  unfold convTagStep
  have hp : 0 ≤ (hrResetLoop hrs t.line st.depth st.stack).1 := by
    rcases hrResetLoop_cases t.line hrs st.depth st.stack with h1 | h1 <;> rw [h1] <;>
      try exact h
  by_cases ho : t.isOpening
  · rw [if_pos ho]
    show 0 ≤ (hrResetLoop hrs t.line st.depth st.stack).1 + 1
    omega
  · rw [if_neg (by simp [ho])]
    by_cases hc : t.isClosing
    · rw [if_pos hc]
      cases hfind : tagStackFind t.name (hrResetLoop hrs t.line st.depth st.stack).2 with
      | some q =>
        show 0 ≤ max 0 ((hrResetLoop hrs t.line st.depth st.stack).1 - 1)
        exact le_max_left 0 _
      | none =>
        exact hp
    · rw [if_neg (by simp [hc])]
      by_cases hs : t.isSelfClosing
      · rw [if_pos hs]
        exact hp
      · rw [if_neg (by simp [hs])]
        exact hp


/-! ## C6: recorded closing lines -/

/-- **C6, amended side.**  In the first variant's transformer, every line
on which the tag walk recorded an end line — and which the transformer's
own (anchored) fence tracking reaches outside a code block — is replaced
by a single empty line in the output.  (Its loop pushes one empty string
there; `extension.ts` instead skips the line entirely, and inside the
transformer's own code block the line passes through verbatim, see
`C6_counterexample` for both.) -/
theorem C6_closing_line_blank (text : List Char) (i : Nat)
    (h : i ∈ (convStOf text).ends)
    (hinc : convV1CodeStateAt false (splitLines text) i = false) :
    convertEmits text i = [[]] := by
  have h2 := convFold_ends_mem (parseDocumentText text).horizontalRules
    (parseDocumentText text).xmlTags ⟨0, [], [], [], []⟩ i h
  rcases h2 with h2 | ⟨t, ht, hc, hline⟩
  · exact absurd h2 (List.not_mem_nil i)
  · unfold parseDocumentText at ht
    rw [parseGo_mem_xmlTags] at ht
    obtain ⟨j, l, hj, hm⟩ := ht
    obtain ⟨hline', hb, hf, hhr, htags⟩ := lineStructure_tags hm
    have hji : j = i := by omega
    subst hji
    show ((convertLoop (convStOf text) false 0 (splitLines text)).get? j).getD [] = [[]]
    rw [convertLoop_get, hj]
    show convertLineEmit (convStOf text) (convV1CodeStateAt false (splitLines text) j)
      (0 + j) l = [[]]
    rw [hinc]
    have hcont : (convStOf text).ends.contains (0 + j) = true := by
      rw [Nat.zero_add]
      exact List.elem_iff.mpr h
    unfold convertLineEmit
    rw [if_neg (by simp [isFenceLineConvV1_false_of l hf]), if_neg (by simp), if_pos hcont]

/-- C6 witness at a concrete document (first variant). -/
theorem C6_closing_line_blank_witness :
    convertEmits ("<a>\nx\n</a>").data 2 = [[]] :=
  C6_closing_line_blank ("<a>\nx\n</a>").data 2 (by decide) (by decide)

/-- **C6, counterexample side.**  Two failures of the unconditional claim:
`extension.ts`'s transformer does not replace a recorded closing line with
an empty line (it pushes nothing for it, so the line disappears); and the
first variant's transformer, whose anchored fence regex skips a `` ``` ``
line ending in a stray carriage return while the extractor's does not, can
be inside its own code block on a recorded closing line and then emits the
line verbatim rather than as an empty line. -/
theorem C6_counterexample :
    (2 ∈ (V3.convStOf ("<a>\nx\n</a>").data).ends ∧
      V3.convertEmits ("<a>\nx\n</a>").data 2 = [] ∧
      V3.convertToMarkdown ("<a>\nx\n</a>").data = ("## a\nx").data) ∧
    (3 ∈ (convStOf ("<a>\n```\r\r\n```\n</a>").data).ends ∧
      convertEmits ("<a>\n```\r\r\n```\n</a>").data 3 = [("</a>").data]) :=
  ⟨⟨by decide, by decide, by decide⟩, ⟨by decide, by decide⟩⟩

/-! ## C7: unmatched closing tags -/

/-- **C7.**  A closing tag on an outside-code, non-fence, non-rule line is
always recorded by the extractor; when the tag walk meets a closing
occurrence whose name is not on the (post-reset) stack, the new state keeps
that depth and stack and only adds the line to the end-line set; the depth
counter never becomes negative; and the folding provider's walk is left
entirely unchanged by a closing occurrence whose name is not on its stack
(no fold range is emitted for it). -/
theorem C7_unmatched_closing (text : List Char) (j : Nat) (l : List Char)
    (m : Nat × List Char × Nat)
    (hl : (splitLines text).get? j = some l)
    (hst : codeStateAt false (splitLines text) j = false)
    (hf : isFenceLine l = false) (hhr : isHorizontalRule l = false)
    (hm : m ∈ closingScanGo (maskCodeContent l).masked.length 0
      (maskCodeContent l).masked) :
    ((⟨m.2.1, j, l.length - (l.dropWhile isSpace).length, false, true, false, [], m.1,
        m.2.2⟩ : XmlTag) ∈ (parseDocumentText text).xmlTags) ∧
    (∀ (k : Nat) (t : XmlTag), (parseDocumentText text).xmlTags.get? k = some t →
      t.isOpening = false → t.isClosing = true →
      (∀ e ∈ (hrResetLoop (parseDocumentText text).horizontalRules t.line
          (convStPrefix text k).depth (convStPrefix text k).stack).2, e.1 ≠ t.name) →
      convStPrefix text (k + 1) =
        ⟨(hrResetLoop (parseDocumentText text).horizontalRules t.line
            (convStPrefix text k).depth (convStPrefix text k).stack).1,
          (hrResetLoop (parseDocumentText text).horizontalRules t.line
            (convStPrefix text k).depth (convStPrefix text k).stack).2,
          (convStPrefix text k).dmap, (convStPrefix text k).imap,
          setAdd (convStPrefix text k).ends t.line⟩) ∧
    (∀ k : Nat, 0 ≤ (convStPrefix text k).depth) ∧
    (∀ (k : Nat) (t : XmlTag), (parseDocumentText text).xmlTags.get? k = some t →
      t.isOpening = false → t.isClosing = true →
      (∀ e ∈ (foldStPrefix text k).1, e.1 ≠ t.name) →
      foldStPrefix text (k + 1) = foldStPrefix text k) := by
  refine ⟨?_, ?_, ?_, ?_⟩
  · exact (parseGo_mem_xmlTags (splitLines text) false 0 _).mpr
      ⟨j, l, hl, by
        rw [hst, Nat.zero_add]
        exact lineStructure_tags_intro hf hhr
          (List.mem_append.mpr (Or.inl (List.mem_append.mpr
            (Or.inr (List.mem_map_of_mem _ hm)))))⟩
  · intro k t hk ho hc hnone
    have htake : (parseDocumentText text).xmlTags.take (k + 1) =
        (parseDocumentText text).xmlTags.take k ++ [t] := by
      have hk2 : (parseDocumentText text).xmlTags[k]? = some t := by
        rw [← List.get?_eq_getElem?]
        exact hk
      rw [List.take_succ, hk2]
      rfl
    show ((parseDocumentText text).xmlTags.take (k + 1)).foldl
      (convTagStep (parseDocumentText text).horizontalRules) ⟨0, [], [], [], []⟩ = _
    rw [htake, List.foldl_append]
    show convTagStep (parseDocumentText text).horizontalRules
      (convStPrefix text k) t = _
    unfold convTagStep
    rw [if_neg (by simp [ho]), if_pos hc, tagStackFind_eq_none t.name _ hnone]
  · intro k
    induction k with
    | zero => exact le_refl 0
    | succ k ih =>
      cases hk : (parseDocumentText text).xmlTags.get? k with
      | none =>
        have htake : (parseDocumentText text).xmlTags.take (k + 1) =
            (parseDocumentText text).xmlTags.take k := by
          have hk2 : (parseDocumentText text).xmlTags[k]? = none := by
            rw [← List.get?_eq_getElem?]
            exact hk
          rw [List.take_succ, hk2]
          simp
        show 0 ≤ (((parseDocumentText text).xmlTags.take (k + 1)).foldl
          (convTagStep (parseDocumentText text).horizontalRules)
          ⟨0, [], [], [], []⟩).depth
        rw [htake]
        exact ih
      | some t =>
        have htake : (parseDocumentText text).xmlTags.take (k + 1) =
            (parseDocumentText text).xmlTags.take k ++ [t] := by
          have hk2 : (parseDocumentText text).xmlTags[k]? = some t := by
            rw [← List.get?_eq_getElem?]
            exact hk
          rw [List.take_succ, hk2]
          rfl
        show 0 ≤ (((parseDocumentText text).xmlTags.take (k + 1)).foldl
          (convTagStep (parseDocumentText text).horizontalRules)
          ⟨0, [], [], [], []⟩).depth
        rw [htake, List.foldl_append]
        exact convTagStep_depth_nonneg _ _ t ih
  · intro k t hk ho hc hnone
    have htake : (parseDocumentText text).xmlTags.take (k + 1) =
        (parseDocumentText text).xmlTags.take k ++ [t] := by
      have hk2 : (parseDocumentText text).xmlTags[k]? = some t := by
        rw [← List.get?_eq_getElem?]
        exact hk
      rw [List.take_succ, hk2]
      rfl
    show ((parseDocumentText text).xmlTags.take (k + 1)).foldl foldTagStep ([], []) = _
    rw [htake, List.foldl_append]
    show foldTagStep (foldStPrefix text k) t = _
    unfold foldTagStep
    rw [if_neg (by simp [ho]), if_pos hc, tagStackFind_eq_none t.name _ hnone]

/-- C7 witness at a concrete document: the bare `</foo>` is recorded. -/
theorem C7_unmatched_closing_witness :
    (⟨("foo").data, 0, 0, false, true, false, [], 0, 6⟩ : XmlTag) ∈
      (parseDocumentText ("</foo>").data).xmlTags :=
  (C7_unmatched_closing ("</foo>").data 0 ("</foo>").data (0, ("foo").data, 6)
    (by decide) (by decide) (by decide) (by decide) (by decide)).1


/-! ## Association-list lemmas for the JS maps -/

theorem mapGet_mapSet_self {α β : Type} [DecidableEq α] (m : List (α × β)) (k : α) (v : β) :
    mapGet (mapSet m k v) k = some v := by
  unfold mapSet
  by_cases h : m.any (fun kv => kv.1 = k)
  · rw [if_pos h]
    induction m with
    | nil => exact absurd h (by simp)
    | cons kv rest ih =>
      by_cases hk : kv.1 = k
      · unfold mapGet
        rw [List.map_cons, if_pos hk, List.find?_cons_of_pos _ (by simp)]
        rfl
      · have hrest : rest.any (fun kv => kv.1 = k) = true := by
          rcases List.any_eq_true.mp h with ⟨x, hx, hpx⟩
          rcases List.mem_cons.mp hx with rfl | hx2
          · exact absurd (of_decide_eq_true hpx) hk
          · exact List.any_eq_true.mpr ⟨x, hx2, hpx⟩
        unfold mapGet
        rw [List.map_cons, if_neg hk, List.find?_cons_of_neg _ (by simpa using hk)]
        exact ih hrest
  · rw [if_neg h]
    unfold mapGet
    rw [List.find?_append]
    have hnone : m.find? (fun kv => kv.1 = k) = none := by
      rw [List.find?_eq_none]
      intro x hx
      simp only [decide_eq_true_eq]
      intro hx1
      exact h (List.any_eq_true.mpr ⟨x, hx, by simp [hx1]⟩)
    rw [hnone]
    simp

theorem mapGet_mapSet_ne {α β : Type} [DecidableEq α] (m : List (α × β)) (k k' : α) (v : β)
    (h : k' ≠ k) : mapGet (mapSet m k v) k' = mapGet m k' := by
  unfold mapSet
  by_cases ha : m.any (fun kv => kv.1 = k)
  · rw [if_pos ha]
    clear ha
    induction m with
    | nil => rfl
    | cons kv rest ih =>
      rw [List.map_cons]
      by_cases hk : kv.1 = k
      · rw [if_pos hk]
        unfold mapGet
        rw [List.find?_cons_of_neg _ (by simp [Ne.symm h]),
          List.find?_cons_of_neg _ (by simp [hk, Ne.symm h])]
        exact ih
      · rw [if_neg hk]
        by_cases hk' : kv.1 = k'
        · unfold mapGet
          rw [List.find?_cons_of_pos _ (by simp [hk']), List.find?_cons_of_pos _ (by simp [hk'])]
        · unfold mapGet
          rw [List.find?_cons_of_neg _ (by simp [hk']), List.find?_cons_of_neg _ (by simp [hk'])]
          exact ih
  · rw [if_neg ha]
    unfold mapGet
    rw [List.find?_append]
    have hnone : List.find? (fun kv => kv.1 = k') [(k, v)] = none := by
      rw [List.find?_eq_none]
      intro x hx
      rcases List.mem_singleton.mp hx with rfl
      simp [Ne.symm h]
    rw [hnone]
    cases m.find? (fun kv => kv.1 = k') <;> rfl

theorem mapGet_mem {α β : Type} [DecidableEq α] {m : List (α × β)} {k : α} {v : β}
    (h : mapGet m k = some v) : (k, v) ∈ m := by
  unfold mapGet at h
  cases hf : m.find? (fun kv => kv.1 = k) with
  | none => rw [hf] at h; exact absurd h (by simp)
  | some kv =>
    rw [hf] at h
    have hm := List.mem_of_find?_eq_some hf
    have hp := List.find?_some hf
    simp only [decide_eq_true_eq] at hp
    have hv : kv.2 = v := Option.some.inj h
    have : (k, v) = kv := by
      rcases kv with ⟨a, b⟩
      simp only at hp hv
      rw [hp, hv]
    rw [this]
    exact hm

theorem mapGet_eq_none {α β : Type} [DecidableEq α] {m : List (α × β)} {k : α}
    (h : ∀ p ∈ m, p.1 ≠ k) : mapGet m k = none := by
  unfold mapGet
  rw [List.find?_eq_none.mpr]
  · rfl
  · intro x hx
    simp only [decide_eq_true_eq]
    exact h x hx

/-- Under distinct keys, `mapGet` is exactly membership. -/
theorem mapGet_eq_some_iff {α β : Type} [DecidableEq α] {m : List (α × β)} {k : α} {v : β}
    (hnd : (m.map Prod.fst).Nodup) : mapGet m k = some v ↔ (k, v) ∈ m := by
  constructor
  · exact mapGet_mem
  · intro hm
    induction m with
    | nil => exact absurd hm (List.not_mem_nil _)
    | cons p rest ih =>
      rcases List.mem_cons.mp hm with rfl | hm2
      · unfold mapGet
        rw [List.find?_cons_of_pos _ (by simp)]
        rfl
      · have hk : p.1 ≠ k := by
          intro hk
          rw [List.map_cons] at hnd
          have := (List.nodup_cons.mp hnd).1
          exact this (hk ▸ List.mem_map_of_mem Prod.fst hm2)
        unfold mapGet
        rw [List.find?_cons_of_neg _ (by simp [hk])]
        exact ih (List.nodup_cons.mp (by rw [List.map_cons] at hnd; exact hnd)).2 hm2


/-! ## Stored depths are nonnegative; emitted tag-branch header levels -/

theorem mapSet_mem {α β : Type} [DecidableEq α] {m : List (α × β)} {k : α} {v : β}
    {p : α × β} (h : p ∈ mapSet m k v) : p ∈ m ∨ p = (k, v) := by
  unfold mapSet at h
  split at h
  · rcases List.mem_map.mp h with ⟨kv, hkv, hp⟩
    by_cases hk : kv.1 = k
    · rw [if_pos hk] at hp
      exact Or.inr hp.symm
    · rw [if_neg hk] at hp
      exact Or.inl (hp ▸ hkv)
  · rcases List.mem_append.mp h with h1 | h1
    · exact Or.inl h1
    · exact Or.inr (List.mem_singleton.mp h1)

theorem hrResetLoop_fst_nonneg (hrs : List Nat) (L : Nat) (d : Int)
    (stk : List (List Char × Nat)) (h : 0 ≤ d) : 0 ≤ (hrResetLoop hrs L d stk).1 := by
  rcases hrResetLoop_cases L hrs d stk with h1 | h1 <;> rw [h1] <;> try exact h

theorem convTagStep_dmap_nonneg (hrs : List Nat) (st : ConvSt) (t : XmlTag)
    (hd : 0 ≤ st.depth) (hm : ∀ p ∈ st.dmap, 0 ≤ p.2) :
    ∀ p ∈ (convTagStep hrs st t).dmap, 0 ≤ p.2 := by
  have hp := hrResetLoop_fst_nonneg hrs t.line st.depth st.stack hd
  intro p hpm
  unfold convTagStep at hpm
  by_cases ho : t.isOpening
  · rw [if_pos ho] at hpm
    rcases mapSet_mem hpm with h1 | h1
    · exact hm p h1
    · rw [h1]
      exact hp
  · rw [if_neg (by simp [ho])] at hpm
    by_cases hc : t.isClosing
    · rw [if_pos hc] at hpm
      split at hpm
      · exact hm p hpm
      · exact hm p hpm
    · rw [if_neg (by simp [hc])] at hpm
      by_cases hs : t.isSelfClosing
      · rw [if_pos hs] at hpm
        rcases mapSet_mem hpm with h1 | h1
        · exact hm p h1
        · rw [h1]
          exact hp
      · rw [if_neg (by simp [hs])] at hpm
        exact hm p hpm

theorem convFold_dmap_nonneg (hrs : List Nat) :
    ∀ (tags : List XmlTag) (st : ConvSt), 0 ≤ st.depth → (∀ p ∈ st.dmap, 0 ≤ p.2) →
      ∀ p ∈ (tags.foldl (convTagStep hrs) st).dmap, 0 ≤ p.2 := by
  intro tags
  induction tags with
  | nil => intro st _ hm; exact hm
  | cons t ts ih =>
    intro st hd hm
    exact ih (convTagStep hrs st t) (convTagStep_depth_nonneg hrs st t hd)
      (convTagStep_dmap_nonneg hrs st t hd hm)

/-- Every emitted tag-branch header level comes from some line. -/
theorem headerLevelsGo_mem (st : ConvSt) :
    ∀ (ls : List (List Char)) (b : Bool) (k : Nat) (x : Int),
      x ∈ headerLevelsGo st b k ls →
      ∃ j l, ls.get? j = some l ∧
        emitHeaderLevel st (convV1CodeStateAt b ls j) (k + j) l = some x := by
  intro ls
  induction ls with
  | nil => intro b k x hx; exact absurd hx (by simp [headerLevelsGo])
  | cons l rest ih =>
    intro b k x hx
    unfold headerLevelsGo at hx
    rcases List.mem_append.mp hx with h1 | h1
    · refine ⟨0, l, rfl, ?_⟩
      have : emitHeaderLevel st b k l = some x := by
        cases he : emitHeaderLevel st b k l with
        | none => rw [he] at h1; exact absurd h1 (by simp)
        | some y =>
          rw [he] at h1
          simp only [Option.toList_some, List.mem_singleton] at h1
          rw [h1]
      exact this
    · obtain ⟨j, l', hj, hemit⟩ := ih (if isFenceLineConvV1 l then !b else b) (k + 1) x h1
      refine ⟨j + 1, l', hj, ?_⟩
      rw [convV1CodeStateAt_succ]
      have harith : k + (j + 1) = k + 1 + j := by omega
      rw [harith]
      exact hemit

/-- What a tag-branch header level means. -/
theorem emitHeaderLevel_some {st : ConvSt} {b : Bool} {i : Nat} {l : List Char} {x : Int}
    (h : emitHeaderLevel st b i l = some x) :
    isFenceLineConvV1 l = false ∧ b = false ∧ st.ends.contains i = false ∧
      ∃ d info, mapGet st.dmap i = some d ∧ mapGet st.imap i = some info ∧
        x = min (d + 2) 6 := by
  unfold emitHeaderLevel at h
  by_cases hf : isFenceLineConvV1 l
  · rw [if_pos hf] at h
    exact absurd h (by simp)
  · rw [if_neg hf] at h
    cases b with
    | true =>
      rw [if_pos rfl] at h
      exact absurd h (by simp)
    | false =>
      rw [if_neg (by simp)] at h
      by_cases hcont : st.ends.contains i
      · rw [if_pos hcont] at h
        exact absurd h (by simp)
      · rw [if_neg hcont] at h
        cases hd : mapGet st.dmap i with
        | none => rw [hd] at h; exact absurd h (by simp)
        | some d =>
          rw [hd] at h
          cases hi : mapGet st.imap i with
          | none => rw [hi] at h; exact absurd h (by simp)
          | some info =>
            rw [hi] at h
            exact ⟨Bool.eq_false_iff.mpr hf, rfl, Bool.eq_false_iff.mpr hcont,
              d, info, rfl, rfl, (Option.some.inj h).symm⟩

/-- The branch `emitHeaderLevel` mirrors: the transformer's group for such
a line starts with the header line of that level. -/
theorem emitHeaderLevel_emits (st : ConvSt) (b : Bool) (i : Nat) (l : List Char) (x : Int)
    (h : emitHeaderLevel st b i l = some x) :
    ∃ d info rest, mapGet st.dmap i = some d ∧ mapGet st.imap i = some info ∧
      x = min (d + 2) 6 ∧
      convertLineEmit st b i l = tagHeaderLine d info.1 info.2 :: [] :: rest := by
  obtain ⟨hf, hb, hcont, d, info, hd, hi, hx⟩ := emitHeaderLevel_some h
  subst hb
  refine ⟨d, info,
    (match findTagContentGo info.1 l.length l with
     | some c => if (trimChars c).isEmpty then [] else [trimChars c]
     | none => []), hd, hi, hx, ?_⟩
  unfold convertLineEmit
  rw [if_neg (by simp [hf]), if_neg (by simp), if_neg (by rw [hcont]; simp), hd, hi]

/-- The tag branch fires on any non-fence line outside code whose line has
a depth entry, no end mark, and an info entry. -/
theorem emitHeaderLevel_intro {st : ConvSt} {i : Nat} {l : List Char} {d : Int}
    {info : List Char × List (List Char × List Char)}
    (hf : isFenceLineConvV1 l = false) (hcont : st.ends.contains i = false)
    (hd : mapGet st.dmap i = some d) (hi : mapGet st.imap i = some info) :
    emitHeaderLevel st false i l = some (min (d + 2) 6) := by
  unfold emitHeaderLevel
  rw [if_neg (by simp [hf]), if_neg (by simp), if_neg (by rw [hcont]; simp), hd, hi]


/-! ## The depth-map trace -/

theorem dmapTrace_keys (hrs : List Nat) :
    ∀ (tags : List XmlTag) (st : ConvSt),
      (dmapTrace hrs st tags).map Prod.fst =
        (tags.filter isSetter).map (fun t => t.line) := by
  intro tags
  induction tags with
  | nil => intro st; rfl
  | cons t ts ih =>
    intro st
    unfold dmapTrace
    by_cases hs : isSetter t
    · rw [if_pos hs, List.filter_cons_of_pos hs, List.map_cons, List.map_cons, ih]
    · rw [if_neg hs, List.filter_cons_of_neg hs, ih]

theorem convTagStep_dmap_get_self (hrs : List Nat) (st : ConvSt) (t : XmlTag)
    (hs : isSetter t = true) :
    mapGet (convTagStep hrs st t).dmap t.line =
      some (hrResetLoop hrs t.line st.depth st.stack).1 := by
  unfold convTagStep
  by_cases ho : t.isOpening
  · rw [if_pos ho]
    exact mapGet_mapSet_self _ _ _
  · have hsc : t.isClosing = false ∧ t.isSelfClosing = true := by
      unfold isSetter at hs
      rcases Bool.or_eq_true_iff.mp hs with h1 | h1
      · exact absurd h1 ho
      · rcases Bool.and_eq_true_iff.mp h1 with ⟨h2, h3⟩
        exact ⟨by simpa using h2, h3⟩
    rw [if_neg (by simp [ho]), if_neg (by simp [hsc.1]), if_pos hsc.2]
    exact mapGet_mapSet_self _ _ _

theorem convTagStep_dmap_get_ne (hrs : List Nat) (st : ConvSt) (t : XmlTag) (i : Nat)
    (h : t.line ≠ i) :
    mapGet (convTagStep hrs st t).dmap i = mapGet st.dmap i := by
  unfold convTagStep
  by_cases ho : t.isOpening
  · rw [if_pos ho]
    exact mapGet_mapSet_ne _ _ _ _ (Ne.symm h)
  · rw [if_neg (by simp [ho])]
    by_cases hc : t.isClosing
    · rw [if_pos hc]
      split
      · rfl
      · rfl
    · rw [if_neg (by simp [hc])]
      by_cases hsc : t.isSelfClosing
      · rw [if_pos hsc]
        exact mapGet_mapSet_ne _ _ _ _ (Ne.symm h)
      · rw [if_neg (by simp [hsc])]

theorem convTagStep_dmap_nonsetter (hrs : List Nat) (st : ConvSt) (t : XmlTag)
    (hs : isSetter t = false) : (convTagStep hrs st t).dmap = st.dmap := by
  have ho : t.isOpening = false := by
    unfold isSetter at hs
    rcases Bool.or_eq_false_iff.mp hs with ⟨h1, -⟩
    exact h1
  unfold convTagStep
  rw [if_neg (by simp [ho])]
  by_cases hc : t.isClosing
  · rw [if_pos hc]
    split
    · rfl
    · rfl
  · have hsc : t.isSelfClosing = false := by
      unfold isSetter at hs
      rcases Bool.or_eq_false_iff.mp hs with ⟨-, h2⟩
      rcases Bool.and_eq_false_iff.mp h2 with h3 | h3
      · simp only [Bool.not_eq_false'] at h3
        exact absurd h3 (by simp [hc])
      · exact h3
    rw [if_neg (by simp [hc]), if_neg (by simp [hsc])]

theorem convFold_dmap_stable (hrs : List Nat) (i : Nat) :
    ∀ (tags : List XmlTag) (st : ConvSt), (∀ t ∈ tags, t.line ≠ i) →
      mapGet ((tags.foldl (convTagStep hrs) st).dmap) i = mapGet st.dmap i := by
  intro tags
  induction tags with
  | nil => intro st _; rfl
  | cons t ts ih =>
    intro st h
    rw [List.foldl_cons, ih (convTagStep hrs st t)
      (fun u hu => h u (List.mem_cons_of_mem t hu)),
      convTagStep_dmap_get_ne hrs st t i (h t (List.mem_cons_self t ts))]

/-- The final depth map is exactly the trace, read as an association list
(first write wins in `mapGet`; under distinct tag lines there is only one). -/
theorem convFold_dmap_trace (hrs : List Nat) :
    ∀ (tags : List XmlTag) (st : ConvSt) (i : Nat), (tags.map (fun t => t.line)).Nodup →
      mapGet ((tags.foldl (convTagStep hrs) st).dmap) i =
        (match mapGet (dmapTrace hrs st tags) i with
         | some d => some d
         | none => mapGet st.dmap i) := by
  intro tags
  induction tags with
  | nil => intro st i _; rfl
  | cons t ts ih =>
    intro st i hnd
    rw [List.map_cons, List.nodup_cons] at hnd
    obtain ⟨ht, hnd'⟩ := hnd
    rw [List.foldl_cons]
    by_cases hs : isSetter t
    · show _ = (match mapGet (dmapTrace hrs st (t :: ts)) i with
        | some d => some d
        | none => mapGet st.dmap i)
      unfold dmapTrace
      rw [if_pos hs]
      by_cases hi : i = t.line
      · subst hi
        have hstable : mapGet ((ts.foldl (convTagStep hrs) (convTagStep hrs st t)).dmap)
              t.line = mapGet (convTagStep hrs st t).dmap t.line := by
          refine convFold_dmap_stable hrs t.line ts (convTagStep hrs st t) ?_
          intro u hu hui
          exact ht (hui ▸ List.mem_map_of_mem (fun t => t.line) hu)
        rw [hstable, convTagStep_dmap_get_self hrs st t hs]
        have hhead : mapGet ((t.line, (hrResetLoop hrs t.line st.depth st.stack).1) ::
            dmapTrace hrs (convTagStep hrs st t) ts) t.line =
            some (hrResetLoop hrs t.line st.depth st.stack).1 := by
          unfold mapGet
          rw [List.find?_cons_of_pos _ (by simp)]
          rfl
        rw [hhead]
      · have hhead : mapGet ((t.line, (hrResetLoop hrs t.line st.depth st.stack).1) ::
            dmapTrace hrs (convTagStep hrs st t) ts) i =
            mapGet (dmapTrace hrs (convTagStep hrs st t) ts) i := by
          unfold mapGet
          rw [List.find?_cons_of_neg _ (by simp [Ne.symm hi])]
        rw [hhead, ih (convTagStep hrs st t) i hnd',
          convTagStep_dmap_get_ne hrs st t i (Ne.symm hi)]
    · show _ = (match mapGet (dmapTrace hrs st (t :: ts)) i with
        | some d => some d
        | none => mapGet st.dmap i)
      unfold dmapTrace
      rw [if_neg hs, ih (convTagStep hrs st t) i hnd',
        convTagStep_dmap_nonsetter hrs st t (Bool.eq_false_iff.mpr hs)]




/-! ## The tag walk without horizontal rules, on a balanced sequence -/

theorem hrResetLoop_nil (L : Nat) (d : Int) (stk : List (List Char × Nat)) :
    hrResetLoop [] L d stk = (d, stk) := rfl

theorem topLevelCountGo_cons (d : Nat) (t : XmlTag) (rest : List XmlTag) :
    topLevelCountGo d (t :: rest) =
      (if t.isOpening = true then (if d = 0 then 1 else 0) + topLevelCountGo (d + 1) rest
       else if t.isClosing = true then topLevelCountGo (d - 1) rest
       else if t.isSelfClosing = true then
         (if d = 0 then 1 else 0) + topLevelCountGo d rest
       else topLevelCountGo d rest) := rfl

theorem convTagStep_nil_opening (st : ConvSt) (t : XmlTag) (ho : t.isOpening = true) :
    convTagStep [] st t = ⟨st.depth + 1, (t.name, t.line) :: st.stack,
      mapSet st.dmap t.line st.depth, mapSet st.imap t.line (t.name, t.attributes),
      st.ends⟩ := by
  unfold convTagStep
  rw [if_pos ho]
  rfl

theorem convTagStep_nil_closing_found (st : ConvSt) (t : XmlTag)
    (e : List Char × Nat) (stk' : List (List Char × Nat))
    (ho : t.isOpening = false) (hc : t.isClosing = true)
    (hstk : st.stack = e :: stk') (he : e.1 = t.name) :
    convTagStep [] st t = ⟨max 0 (st.depth - 1), stk', st.dmap, st.imap,
      setAdd st.ends t.line⟩ := by
  unfold convTagStep
  rw [if_neg (by simp [ho]), if_pos hc]
  have hfind : tagStackFind t.name (hrResetLoop [] t.line st.depth st.stack).2 =
      some (e.2, stk') := by
    show tagStackFind t.name st.stack = _
    rw [hstk]
    unfold tagStackFind
    rw [if_pos he]
  rw [hfind]
  rfl

theorem convTagStep_nil_self (st : ConvSt) (t : XmlTag) (ho : t.isOpening = false)
    (hc : t.isClosing = false) (hs : t.isSelfClosing = true) :
    convTagStep [] st t = ⟨st.depth, st.stack, mapSet st.dmap t.line st.depth,
      mapSet st.imap t.line (t.name, t.attributes), st.ends⟩ := by
  unfold convTagStep
  rw [if_neg (by simp [ho]), if_neg (by simp [hc]), if_pos hs]
  rfl

theorem convTagStep_nil_other (st : ConvSt) (t : XmlTag) (ho : t.isOpening = false)
    (hc : t.isClosing = false) (hs : t.isSelfClosing = false) :
    convTagStep [] st t = ⟨st.depth, st.stack, st.dmap, st.imap, st.ends⟩ := by
  unfold convTagStep
  rw [if_neg (by simp [ho]), if_neg (by simp [hc]), if_neg (by simp [hs])]
  rfl

/-- On a balanced tag sequence, walked without horizontal rules from a
state whose depth counter equals its stack height, the number of stored
depths equal to `0` is the number of top-level tags. -/
theorem dmapTrace_count_balanced :
    ∀ (tags : List XmlTag) (names : List (List Char)) (st : ConvSt),
      balancedGo names tags = true →
      st.stack.map Prod.fst = names →
      st.depth = (names.length : Int) →
      ((dmapTrace [] st tags).map Prod.snd).count 0 =
        topLevelCountGo names.length tags := by
  intro tags
  induction tags with
  | nil => intro names st _ _ _; rfl
  | cons t ts ih =>
    intro names st hbal hstack hdepth
    have hiff : (st.depth == 0) = decide (names.length = 0) := by
      rw [hdepth]
      by_cases h0 : names.length = 0
      · rw [h0]
        decide
      · rw [decide_eq_false h0, beq_eq_false_iff_ne]
        intro hcast
        exact h0 (by omega)
    by_cases ho : t.isOpening
    · have hbal' : balancedGo (t.name :: names) ts = true := by
        unfold balancedGo at hbal
        rwa [if_pos ho] at hbal
      have hsetter : isSetter t = true := by simp [isSetter, ho]
      have hstep := convTagStep_nil_opening st t ho
      have hrec := ih (t.name :: names) (convTagStep [] st t) hbal'
        (by rw [hstep, List.map_cons, hstack])
        (by rw [hstep]
            show st.depth + 1 = _
            rw [hdepth, List.length_cons]
            push_cast
            ring)
      have hrhs : topLevelCountGo names.length (t :: ts) =
          (if names.length = 0 then 1 else 0) + topLevelCountGo (names.length + 1) ts := by
        rw [topLevelCountGo_cons, if_pos ho]
      unfold dmapTrace
      rw [if_pos hsetter, hrResetLoop_nil]
      show ((st.depth :: (dmapTrace [] (convTagStep [] st t) ts).map Prod.snd).count 0) =
        topLevelCountGo names.length (t :: ts)
      rw [List.count_cons, hrec, hrhs, hiff]
      by_cases h0 : names.length = 0
      · rw [decide_eq_true h0, if_pos h0]
        show topLevelCountGo (names.length + 1) ts + 1 = 1 + topLevelCountGo (names.length + 1) ts
        omega
      · rw [decide_eq_false h0, if_neg h0]
        show topLevelCountGo (names.length + 1) ts + 0 = 0 + topLevelCountGo (names.length + 1) ts
        omega
    · by_cases hc : t.isClosing
      · have hnotset : isSetter t = false := by simp [isSetter, ho, hc]
        cases names with
        | nil =>
          exfalso
          unfold balancedGo at hbal
          rw [if_neg (by simp [ho]), if_pos hc] at hbal
          exact Bool.noConfusion hbal
        | cons top names' =>
          have hbal2 : top = t.name ∧ balancedGo names' ts = true := by
            unfold balancedGo at hbal
            rw [if_neg (by simp [ho]), if_pos hc] at hbal
            rcases Bool.and_eq_true_iff.mp hbal with ⟨h1, h2⟩
            exact ⟨by simpa using h1, h2⟩
          cases hstk : st.stack with
          | nil =>
            rw [hstk] at hstack
            exact absurd hstack (by simp)
          | cons e stk' =>
            rw [hstk, List.map_cons] at hstack
            simp only [List.cons.injEq] at hstack
            have hstep := convTagStep_nil_closing_found st t e stk'
              (Bool.eq_false_iff.mpr ho) hc hstk (hstack.1.trans hbal2.1)
            have hdep' : max 0 (st.depth - 1) = (names'.length : Int) := by
              rw [hdepth, List.length_cons]
              have h1 : (((names'.length + 1 : Nat) : Int)) - 1 = (names'.length : Int) := by
                push_cast
                ring
              rw [h1]
              exact max_eq_right (Int.natCast_nonneg _)
            have hrec := ih names' (convTagStep [] st t) hbal2.2
              (by rw [hstep]; exact hstack.2)
              (by rw [hstep]; exact hdep')
            have hrhs : topLevelCountGo (top :: names').length (t :: ts) =
                topLevelCountGo ((top :: names').length - 1) ts := by
              rw [topLevelCountGo_cons, if_neg (by simp [ho]), if_pos hc]
            unfold dmapTrace
            rw [if_neg (by simp [hnotset]), hrec, hrhs]
            rfl
      · by_cases hsc : t.isSelfClosing
        · have hbal' : balancedGo names ts = true := by
            unfold balancedGo at hbal
            rwa [if_neg (by simp [ho]), if_neg (by simp [hc])] at hbal
          have hsetter : isSetter t = true := by simp [isSetter, hc, hsc]
          have hstep := convTagStep_nil_self st t (Bool.eq_false_iff.mpr ho)
            (Bool.eq_false_iff.mpr hc) hsc
          have hrec := ih names (convTagStep [] st t) hbal'
            (by rw [hstep]; exact hstack)
            (by rw [hstep]; exact hdepth)
          have hrhs : topLevelCountGo names.length (t :: ts) =
              (if names.length = 0 then 1 else 0) + topLevelCountGo names.length ts := by
            rw [topLevelCountGo_cons, if_neg (by simp [ho]), if_neg (by simp [hc]),
              if_pos hsc]
          unfold dmapTrace
          rw [if_pos hsetter, hrResetLoop_nil]
          show ((st.depth :: (dmapTrace [] (convTagStep [] st t) ts).map Prod.snd).count 0) =
            topLevelCountGo names.length (t :: ts)
          rw [List.count_cons, hrec, hrhs, hiff]
          by_cases h0 : names.length = 0
          · rw [decide_eq_true h0, if_pos h0]
            show topLevelCountGo names.length ts + 1 = 1 + topLevelCountGo names.length ts
            omega
          · rw [decide_eq_false h0, if_neg h0]
            show topLevelCountGo names.length ts + 0 = 0 + topLevelCountGo names.length ts
            omega
        · have hbal' : balancedGo names ts = true := by
            unfold balancedGo at hbal
            rwa [if_neg (by simp [ho]), if_neg (by simp [hc])] at hbal
          have hnotset : isSetter t = false := by simp [isSetter, ho, hsc]
          have hstep := convTagStep_nil_other st t (Bool.eq_false_iff.mpr ho)
            (Bool.eq_false_iff.mpr hc) (Bool.eq_false_iff.mpr hsc)
          have hrec := ih names (convTagStep [] st t) hbal'
            (by rw [hstep]; exact hstack)
            (by rw [hstep]; exact hdepth)
          have hrhs : topLevelCountGo names.length (t :: ts) =
              topLevelCountGo names.length ts := by
            rw [topLevelCountGo_cons, if_neg (by simp [ho]), if_neg (by simp [hc]),
              if_neg (by simp [hsc])]
          unfold dmapTrace
          rw [if_neg (by simp [hnotset]), hrec, hrhs]


/-! ## Counting emitted level-2 headers through the depth-map trace -/

theorem mapGet_cons {α β : Type} [DecidableEq α] (k0 : α) (v : β) (m : List (α × β))
    (j : α) : mapGet ((k0, v) :: m) j = if j = k0 then some v else mapGet m j := by
  by_cases h : j = k0
  · subst h
    unfold mapGet
    rw [List.find?_cons_of_pos _ (by simp), if_pos rfl]
    rfl
  · unfold mapGet
    rw [List.find?_cons_of_neg _ (by simp [Ne.symm h]), if_neg h]

/-- Changing a predicate at one element of a duplicate-free list, from
`false`, adds that element's indicator. -/
theorem countP_update : ∀ (l : List Nat) (p q : Nat → Bool) (k0 : Nat),
    l.Nodup → k0 ∈ l → (∀ j, j ≠ k0 → p j = q j) → q k0 = false →
    l.countP p = l.countP q + (if p k0 then 1 else 0) := by
  intro l
  induction l with
  | nil => intro p q k0 _ hmem _ _; exact absurd hmem (List.not_mem_nil k0)
  | cons a l ih =>
    intro p q k0 hnd hmem hpq hq
    rcases List.nodup_cons.mp hnd with ⟨ha, hnd'⟩
    rw [List.countP_cons, List.countP_cons]
    rcases List.mem_cons.mp hmem with rfl | hmem2
    · have hcongr : l.countP p = l.countP q := by
        apply List.countP_congr
        intro j hj
        rw [hpq j (fun he => ha (he ▸ hj))]
      rw [hcongr, hq, if_neg Bool.false_ne_true]
      omega
    · have hak : a ≠ k0 := fun he => ha (he ▸ hmem2)
      rw [hpq a hak, ih p q k0 hnd' hmem2 hpq hq]
      omega

/-- Looking an association list up across `0..n-1`: the number of indices
holding value `0` is the number of entries with value `0`, when keys are
distinct and below `n`. -/
theorem countP_range_mapGet : ∀ (m : List (Nat × Int)) (n : Nat),
    (m.map Prod.fst).Nodup → (∀ p ∈ m, p.1 < n) →
    (List.range n).countP (fun j => mapGet m j == some 0) =
      (m.map Prod.snd).count 0 := by
  intro m
  induction m with
  | nil =>
    intro n _ _
    rw [List.countP_eq_zero.mpr]
    · rfl
    · intro j _
      simp [mapGet]
  | cons kv m ih =>
    intro n hnd hlt
    rcases kv with ⟨k0, v⟩
    rw [List.map_cons, List.nodup_cons] at hnd
    obtain ⟨hk0, hnd'⟩ := hnd
    have hknotin : ∀ p ∈ m, p.1 ≠ k0 := by
      intro p hp he
      apply hk0
      show k0 ∈ List.map Prod.fst m
      rw [← he]
      exact List.mem_map_of_mem Prod.fst hp
    have hq0 : (mapGet m k0 == some (0 : Int)) = false := by
      rw [mapGet_eq_none hknotin]
      rfl
    have hupd := countP_update (List.range n)
      (fun j => mapGet ((k0, v) :: m) j == some 0)
      (fun j => mapGet m j == some 0) k0 (List.nodup_range n)
      (List.mem_range.mpr (hlt (k0, v) (List.mem_cons_self _ _)))
      (fun j hj => by
        show (mapGet ((k0, v) :: m) j == some (0 : Int)) =
          (mapGet m j == some (0 : Int))
        rw [mapGet_cons, if_neg hj]) hq0
    rw [hupd, ih n hnd' (fun p hp => hlt p (List.mem_cons_of_mem _ hp))]
    rw [List.map_cons, List.count_cons]
    have hind : ((mapGet ((k0, v) :: m) k0 == some (0 : Int)) = true → v == (0 : Int)) ∧
        (v == (0 : Int) → (mapGet ((k0, v) :: m) k0 == some (0 : Int)) = true) := by
      rw [mapGet_cons, if_pos rfl]
      constructor
      · intro h
        rw [beq_iff_eq] at h
        exact beq_iff_eq.mpr (Option.some.inj h)
      · intro h
        rw [beq_iff_eq] at h
        rw [h]
        exact beq_iff_eq.mpr rfl
    cases hb : (fun j => mapGet ((k0, v) :: m) j == some (0 : Int)) k0
    · have hb2 : (mapGet ((k0, v) :: m) k0 == some (0 : Int)) = false := hb
      have hv : (v == (0 : Int)) = false := by
        cases hv2 : v == (0 : Int)
        · rfl
        · rw [hind.2 hv2] at hb2
          exact Bool.noConfusion hb2
      rw [hv, if_neg Bool.false_ne_true]
    · have hb2 : (mapGet ((k0, v) :: m) k0 == some (0 : Int)) = true := hb
      have hv := hind.1 hb2
      rw [hv, if_pos rfl]

/-- The multiplicity of a level among the emitted tag-branch header levels,
as a count over line indices. -/
theorem headerLevelsGo_count (st : ConvSt) (x : Int) :
    ∀ (ls : List (List Char)) (b : Bool) (k : Nat),
      (headerLevelsGo st b k ls).count x =
        (List.range ls.length).countP
          (fun j => emitHeaderLevel st (convV1CodeStateAt b ls j) (k + j) (ls.getD j []) ==
            some x) := by
  intro ls
  induction ls with
  | nil => intro b k; rfl
  | cons l rest ih =>
    intro b k
    show ((emitHeaderLevel st b k l).toList ++
      headerLevelsGo st (if isFenceLineConvV1 l then !b else b) (k + 1) rest).count x = _
    rw [List.count_append, ih (if isFenceLineConvV1 l then !b else b) (k + 1)]
    show _ = (List.range (rest.length + 1)).countP _
    rw [List.range_succ_eq_map, List.countP_cons, List.countP_map]
    have hshift : (List.range rest.length).countP
        (fun j => emitHeaderLevel st
          (convV1CodeStateAt (if isFenceLineConvV1 l then !b else b) rest j)
          (k + 1 + j) (rest.getD j []) == some x) =
        (List.range rest.length).countP
          ((fun j => emitHeaderLevel st (convV1CodeStateAt b (l :: rest) j) (k + j)
            ((l :: rest).getD j []) == some x) ∘ Nat.succ) := by
      apply List.countP_congr
      intro j _
      have heq : (emitHeaderLevel st
          (convV1CodeStateAt (if isFenceLineConvV1 l then !b else b) rest j)
          (k + 1 + j) (rest.getD j []) == some x) =
          (emitHeaderLevel st (convV1CodeStateAt b (l :: rest) (j + 1)) (k + (j + 1))
            ((l :: rest).getD (j + 1) []) == some x) := by
        rw [convV1CodeStateAt_succ]
        have harith : k + (j + 1) = k + 1 + j := by omega
        rw [harith]
        rfl
      show (emitHeaderLevel st
          (convV1CodeStateAt (if isFenceLineConvV1 l then !b else b) rest j)
          (k + 1 + j) (rest.getD j []) == some x) = true ↔
        (emitHeaderLevel st (convV1CodeStateAt b (l :: rest) (j + 1)) (k + (j + 1))
          ((l :: rest).getD (j + 1) []) == some x) = true
      rw [heq]
    rw [hshift]
    have hhead : ((emitHeaderLevel st b k l).toList).count x =
        (if (emitHeaderLevel st (convV1CodeStateAt b (l :: rest) 0) (k + 0)
          ((l :: rest).getD 0 []) == some x) = true then 1 else 0) := by
      show ((emitHeaderLevel st b k l).toList).count x =
        (if (emitHeaderLevel st b k l == some x) = true then 1 else 0)
      cases he : emitHeaderLevel st b k l with
      | none => rfl
      | some y =>
        show ([y].count x) = (if (some y == some x) = true then 1 else 0)
        cases hxy : y == x
        · show ([y].count x) = (if (y == x) = true then 1 else 0)
          rw [List.count_cons, List.count_nil, hxy]
          rfl
        · show ([y].count x) = (if (y == x) = true then 1 else 0)
          rw [List.count_cons, List.count_nil, hxy]
          rfl
    rw [hhead]
    exact Nat.add_comm _ _


/-! ## Tags of a document: flags, lines, and the end-line set -/

theorem parseLineTags_not_open_close {i : Nat} {l : List Char} {t : XmlTag}
    (h : t ∈ parseLineTags i l) (ho : t.isOpening = true) : t.isClosing = false := by
  simp only [parseLineTags, List.mem_append, List.mem_map] at h
  rcases h with (⟨m, _, rfl⟩ | ⟨m, _, rfl⟩) | ⟨m, _, rfl⟩
  · exact Bool.noConfusion ho
  · exact Bool.noConfusion ho
  · rfl

/-- Any recorded tag's line exists, was read outside code blocks, and is
neither a fence nor a rule line. -/
theorem doc_tag_line (text : List Char) {t : XmlTag}
    (ht : t ∈ (parseDocumentText text).xmlTags) :
    ∃ l, (splitLines text).get? t.line = some l ∧
      codeStateAt false (splitLines text) t.line = false ∧
      isFenceLine l = false ∧ isHorizontalRule l = false ∧
      t ∈ parseLineTags t.line l := by
  unfold parseDocumentText at ht
  rw [parseGo_mem_xmlTags] at ht
  obtain ⟨j, l, hj, hm⟩ := ht
  obtain ⟨hline, hb, hf, hhr, htags⟩ := lineStructure_tags hm
  rw [Nat.zero_add] at hline htags
  exact ⟨l, by rw [hline]; exact hj, by rw [hline]; exact hb, hf, hhr,
    by rw [hline]; exact htags⟩

theorem doc_tag_not_open_close (text : List Char) {t : XmlTag}
    (ht : t ∈ (parseDocumentText text).xmlTags) (ho : t.isOpening = true) :
    t.isClosing = false := by
  obtain ⟨l, -, -, -, -, htags⟩ := doc_tag_line text ht
  exact parseLineTags_not_open_close htags ho

/-! ## The info map moves in step with the depth map -/

theorem convTagStep_imap_get_self (hrs : List Nat) (st : ConvSt) (t : XmlTag)
    (hs : isSetter t = true) :
    mapGet (convTagStep hrs st t).imap t.line = some (t.name, t.attributes) := by
  unfold convTagStep
  by_cases ho : t.isOpening
  · rw [if_pos ho]
    exact mapGet_mapSet_self _ _ _
  · have hsc : t.isClosing = false ∧ t.isSelfClosing = true := by
      unfold isSetter at hs
      rcases Bool.or_eq_true_iff.mp hs with h1 | h1
      · exact absurd h1 ho
      · rcases Bool.and_eq_true_iff.mp h1 with ⟨h2, h3⟩
        exact ⟨by simpa using h2, h3⟩
    rw [if_neg (by simp [ho]), if_neg (by simp [hsc.1]), if_pos hsc.2]
    exact mapGet_mapSet_self _ _ _

theorem convTagStep_imap_get_ne (hrs : List Nat) (st : ConvSt) (t : XmlTag) (i : Nat)
    (h : t.line ≠ i) :
    mapGet (convTagStep hrs st t).imap i = mapGet st.imap i := by
  unfold convTagStep
  by_cases ho : t.isOpening
  · rw [if_pos ho]
    exact mapGet_mapSet_ne _ _ _ _ (Ne.symm h)
  · rw [if_neg (by simp [ho])]
    by_cases hc : t.isClosing
    · rw [if_pos hc]
      split
      · rfl
      · rfl
    · rw [if_neg (by simp [hc])]
      by_cases hsc : t.isSelfClosing
      · rw [if_pos hsc]
        exact mapGet_mapSet_ne _ _ _ _ (Ne.symm h)
      · rw [if_neg (by simp [hsc])]

theorem convTagStep_imap_nonsetter (hrs : List Nat) (st : ConvSt) (t : XmlTag)
    (hs : isSetter t = false) : (convTagStep hrs st t).imap = st.imap := by
  have ho : t.isOpening = false := by
    unfold isSetter at hs
    rcases Bool.or_eq_false_iff.mp hs with ⟨h1, -⟩
    exact h1
  unfold convTagStep
  rw [if_neg (by simp [ho])]
  by_cases hc : t.isClosing
  · rw [if_pos hc]
    split
    · rfl
    · rfl
  · have hsc : t.isSelfClosing = false := by
      unfold isSetter at hs
      rcases Bool.or_eq_false_iff.mp hs with ⟨-, h2⟩
      rcases Bool.and_eq_false_iff.mp h2 with h3 | h3
      · simp only [Bool.not_eq_false'] at h3
        exact absurd h3 (by simp [hc])
      · exact h3
    rw [if_neg (by simp [hc]), if_neg (by simp [hsc])]

theorem convTagStep_maps_isSome (hrs : List Nat) (st : ConvSt) (t : XmlTag) (i : Nat)
    (h : (mapGet st.dmap i).isSome = (mapGet st.imap i).isSome) :
    (mapGet (convTagStep hrs st t).dmap i).isSome =
      (mapGet (convTagStep hrs st t).imap i).isSome := by
  by_cases hset : isSetter t
  · by_cases hi : t.line = i
    · rw [← hi, convTagStep_dmap_get_self hrs st t hset,
        convTagStep_imap_get_self hrs st t hset]
      rfl
    · rw [convTagStep_dmap_get_ne hrs st t i hi, convTagStep_imap_get_ne hrs st t i hi, h]
  · rw [convTagStep_dmap_nonsetter hrs st t (Bool.eq_false_iff.mpr hset),
      convTagStep_imap_nonsetter hrs st t (Bool.eq_false_iff.mpr hset), h]

theorem convFold_maps_isSome (hrs : List Nat) :
    ∀ (tags : List XmlTag) (st : ConvSt) (i : Nat),
      (mapGet st.dmap i).isSome = (mapGet st.imap i).isSome →
      (mapGet ((tags.foldl (convTagStep hrs) st).dmap) i).isSome =
        (mapGet ((tags.foldl (convTagStep hrs) st).imap) i).isSome := by
  intro tags
  induction tags with
  | nil => intro st i h; exact h
  | cons t ts ih =>
    intro st i h
    exact ih (convTagStep hrs st t) i (convTagStep_maps_isSome hrs st t i h)

/-- Under distinct tag lines, a line carrying an opening or self-closing
tag never enters the end-line set. -/
theorem doc_setter_ends (text : List Char)
    (hnd : tagLinesDistinct (parseDocumentText text).xmlTags)
    {t : XmlTag} (ht : t ∈ (parseDocumentText text).xmlTags)
    (hset : isSetter t = true) :
    (convStOf text).ends.contains t.line = false := by
  cases hcont : (convStOf text).ends.contains t.line
  · rfl
  · exfalso
    have hmem : t.line ∈ (convStOf text).ends := List.elem_iff.mp hcont
    have hsrc := convFold_ends_mem (parseDocumentText text).horizontalRules
      (parseDocumentText text).xmlTags ⟨0, [], [], [], []⟩ t.line hmem
    rcases hsrc with h1 | ⟨u, hu, huc, hul⟩
    · exact List.not_mem_nil _ h1
    · have hut : u = t :=
        List.inj_on_of_nodup_map hnd hu ht hul
      rw [hut] at huc
      have ho : t.isOpening = true := by
        unfold isSetter at hset
        rcases Bool.or_eq_true_iff.mp hset with h2 | h2
        · exact h2
        · rcases Bool.and_eq_true_iff.mp h2 with ⟨h3, -⟩
          rw [huc] at h3
          exact absurd h3 (by simp)
      exact Bool.noConfusion ((doc_tag_not_open_close text ht ho).symm.trans huc)


/-! ## C3: emitted header levels -/

/-- **C3.**  The transformer's tag branch only emits headers of level 2 to
6; and on a well-formed document — every opening tag matched, properly
nested — in which the extractor's and the transformer's fence regexes
agree on every line, with no two tag occurrences sharing a line and no
recorded horizontal rule, the number of emitted level-2 headers equals the
number of top-level tags.  (Without the agreement or the last two
conditions the claim fails, see `C3_counterexample`.) -/
theorem C3_header_levels_amended (text : List Char) :
    (∀ x ∈ emittedHeaderLevels text, 2 ≤ x ∧ x ≤ 6) ∧
    ((∀ l0 ∈ splitLines text, isFenceLine l0 = isFenceLineConvV1 l0) →
      wellFormedTags (parseDocumentText text).xmlTags = true →
      tagLinesDistinct (parseDocumentText text).xmlTags →
      (parseDocumentText text).horizontalRules = [] →
      (emittedHeaderLevels text).count 2 =
        topLevelCount (parseDocumentText text).xmlTags) := by
  have hdmns : ∀ q ∈ (convStOf text).dmap, 0 ≤ q.2 :=
    convFold_dmap_nonneg (parseDocumentText text).horizontalRules
      (parseDocumentText text).xmlTags ⟨0, [], [], [], []⟩ (le_refl 0)
      (fun q hq => absurd hq (List.not_mem_nil q))
  refine ⟨?_, ?_⟩
  · intro x hx
    obtain ⟨j, l, hj, hemit⟩ :=
      headerLevelsGo_mem (convStOf text) (splitLines text) false 0 x hx
    obtain ⟨-, -, -, d, info, hd, -, hx2⟩ := emitHeaderLevel_some hemit
    have hdnn : 0 ≤ d := hdmns (0 + j, d) (mapGet_mem hd)
    constructor
    · rw [hx2]
      exact le_min (by omega) (by omega)
    · rw [hx2]
      exact min_le_right _ _
  · intro hagree hwf hnd h0
    have hcsa : ∀ j, convV1CodeStateAt false (splitLines text) j =
        codeStateAt false (splitLines text) j :=
      fun j => convV1CodeStateAt_agree false (splitLines text) j hagree
    have hnd' : ((parseDocumentText text).xmlTags.map (fun t => t.line)).Nodup := hnd
    have hst : convStOf text =
        (parseDocumentText text).xmlTags.foldl (convTagStep []) ⟨0, [], [], [], []⟩ := by
      unfold convStOf convBuildSt
      rw [h0]
    have hmaps : ∀ j, (mapGet (convStOf text).dmap j).isSome =
        (mapGet (convStOf text).imap j).isSome := fun j =>
      convFold_maps_isSome (parseDocumentText text).horizontalRules
        (parseDocumentText text).xmlTags ⟨0, [], [], [], []⟩ j rfl
    have hdmap : ∀ j, mapGet (convStOf text).dmap j =
        mapGet (dmapTrace [] ⟨0, [], [], [], []⟩ (parseDocumentText text).xmlTags) j := by
      intro j
      rw [hst, convFold_dmap_trace [] (parseDocumentText text).xmlTags
        ⟨0, [], [], [], []⟩ j hnd']
      cases hmt : mapGet (dmapTrace [] ⟨0, [], [], [], []⟩
          (parseDocumentText text).xmlTags) j with
      | some d => rfl
      | none => rfl
    have htrkeys := dmapTrace_keys [] (parseDocumentText text).xmlTags ⟨0, [], [], [], []⟩
    have htrnodup : ((dmapTrace [] ⟨0, [], [], [], []⟩
        (parseDocumentText text).xmlTags).map Prod.fst).Nodup := by
      rw [htrkeys]
      exact List.Nodup.sublist
        (List.Sublist.map _ (List.filter_sublist (parseDocumentText text).xmlTags)) hnd'
    have htrlt : ∀ p ∈ dmapTrace [] ⟨0, [], [], [], []⟩
        (parseDocumentText text).xmlTags, p.1 < (splitLines text).length := by
      intro p hp
      have hk : p.1 ∈ (dmapTrace [] ⟨0, [], [], [], []⟩
          (parseDocumentText text).xmlTags).map Prod.fst :=
        List.mem_map_of_mem Prod.fst hp
      rw [htrkeys] at hk
      obtain ⟨t, htf, htl⟩ := List.mem_map.mp hk
      obtain ⟨l, hl, -, -, -, -⟩ := doc_tag_line text (List.mem_of_mem_filter htf)
      rw [htl] at hl
      obtain ⟨hlt, -⟩ := List.get?_eq_some.mp hl
      exact hlt
    have hpt : ∀ j ∈ List.range (splitLines text).length,
        ((fun j => emitHeaderLevel (convStOf text)
          (convV1CodeStateAt false (splitLines text) j) (0 + j)
          ((splitLines text).getD j []) == some 2) j = true ↔
         (fun j => mapGet (dmapTrace [] ⟨0, [], [], [], []⟩
          (parseDocumentText text).xmlTags) j == some 0) j = true) := by
      intro j hj
      show (emitHeaderLevel (convStOf text) (convV1CodeStateAt false (splitLines text) j)
          (0 + j) ((splitLines text).getD j []) == some 2) = true ↔
        (mapGet (dmapTrace [] ⟨0, [], [], [], []⟩
          (parseDocumentText text).xmlTags) j == some (0 : Int)) = true
      rw [Nat.zero_add, hcsa j]
      constructor
      · intro hemit
        obtain ⟨hf2, -, hcont2, d, info, hd, hi2, hx⟩ :=
          emitHeaderLevel_some (beq_iff_eq.mp hemit)
        have hdnn : 0 ≤ d := hdmns (j, d) (mapGet_mem hd)
        have hmin : min (d + 2) (6 : Int) = 2 := hx.symm
        have hd0 : d = 0 := by
          rcases min_choice (d + 2) (6 : Int) with hm | hm <;> rw [hm] at hmin <;> omega
        rw [hd0] at hd
        exact beq_iff_eq.mpr (by rw [← hdmap j]; exact hd)
      · intro htr
        have htr2 : mapGet (dmapTrace [] ⟨0, [], [], [], []⟩
            (parseDocumentText text).xmlTags) j = some 0 := beq_iff_eq.mp htr
        have hk : j ∈ (dmapTrace [] ⟨0, [], [], [], []⟩
            (parseDocumentText text).xmlTags).map Prod.fst :=
          List.mem_map_of_mem Prod.fst (mapGet_mem htr2)
        rw [htrkeys] at hk
        obtain ⟨t, htf, htl⟩ := List.mem_map.mp hk
        have htag : t ∈ (parseDocumentText text).xmlTags := List.mem_of_mem_filter htf
        have hset : isSetter t = true := List.of_mem_filter htf
        obtain ⟨l, hl, hb2, hf2, -, -⟩ := doc_tag_line text htag
        rw [htl] at hl hb2
        have hgd : (splitLines text).getD j [] = l := by
          rw [List.getD_eq_getD_get?, hl]
          rfl
        have hd : mapGet (convStOf text).dmap j = some 0 := by
          rw [hdmap j]
          exact htr2
        have hisome : (mapGet (convStOf text).imap j).isSome = true := by
          rw [← hmaps j, hd]
          rfl
        obtain ⟨info, hi2⟩ := Option.isSome_iff_exists.mp hisome
        have hcont : (convStOf text).ends.contains j = false := by
          rw [← htl]
          exact doc_setter_ends text hnd htag hset
        have hintro := @emitHeaderLevel_intro (convStOf text) j
          ((splitLines text).getD j [])  _ _
          (by rw [hgd]; exact isFenceLineConvV1_false_of l hf2) hcont hd hi2
        rw [hb2, hintro]
        rfl
    show (headerLevelsGo (convStOf text) false 0 (splitLines text)).count 2 =
      topLevelCount (parseDocumentText text).xmlTags
    rw [headerLevelsGo_count (convStOf text) 2 (splitLines text) false 0,
      List.countP_congr hpt,
      countP_range_mapGet (dmapTrace [] ⟨0, [], [], [], []⟩
        (parseDocumentText text).xmlTags) (splitLines text).length htrnodup htrlt]
    exact dmapTrace_count_balanced (parseDocumentText text).xmlTags [] ⟨0, [], [], [], []⟩
      hwf rfl rfl

/-- **C3, counterexample side.**  On a well-formed document the number of
emitted level-2 headers can differ from the number of top-level tags, in
two ways: a horizontal rule between `<a>` and `<b>` resets the depth
counter inside the still-open `<a>`, so the nested `<b>` is also rendered
at level 2; and a `` ``` `` line ending in a stray carriage return is a
fence for the extractor but not for the transformer's anchored regex, so
the transformer's own code-block state covers the `<a>` line and no header
is emitted at all, although the document is well formed with distinct tag
lines and no horizontal rule. -/
theorem C3_counterexample :
    (wellFormedTags (parseDocumentText ("<a>\n---\n<b>\n</b>\n</a>").data).xmlTags = true ∧
      topLevelCount (parseDocumentText ("<a>\n---\n<b>\n</b>\n</a>").data).xmlTags = 1 ∧
      emittedHeaderLevels ("<a>\n---\n<b>\n</b>\n</a>").data = [2, 2]) ∧
    (wellFormedTags
        (parseDocumentText ("```\r\r\n```\n<a>\n</a>").data).xmlTags = true ∧
      tagLinesDistinct (parseDocumentText ("```\r\r\n```\n<a>\n</a>").data).xmlTags ∧
      (parseDocumentText ("```\r\r\n```\n<a>\n</a>").data).horizontalRules = [] ∧
      topLevelCount (parseDocumentText ("```\r\r\n```\n<a>\n</a>").data).xmlTags = 1 ∧
      emittedHeaderLevels ("```\r\r\n```\n<a>\n</a>").data = []) :=
  ⟨⟨by decide, by decide, by decide⟩,
    ⟨by decide,
      by show ((parseDocumentText ("```\r\r\n```\n<a>\n</a>").data).xmlTags.map
          (fun t => t.line)).Nodup; decide,
      by decide, by decide, by decide⟩⟩

/-- C3 witness at a concrete document. -/
theorem C3_header_levels_amended_witness :
    (emittedHeaderLevels ("<a>\nx\n</a>").data).count 2 =
      topLevelCount (parseDocumentText ("<a>\nx\n</a>").data).xmlTags :=
  (C3_header_levels_amended ("<a>\nx\n</a>").data).2 (by decide) (by decide)
    (by show ((parseDocumentText ("<a>\nx\n</a>").data).xmlTags.map
      (fun t => t.line)).Nodup; decide) (by decide)


/-! ## Per-line grouping of the extracted tags -/

/-- A line with no self-closing and no closing match records exactly its
opening tags. -/
theorem parseLineTags_openings (i : Nat) (l : List Char)
    (hsc : (selfClosingScanGo (maskCodeContent l).masked.length 0
      (maskCodeContent l).masked).1 = [])
    (hcl : closingScanGo (maskCodeContent l).masked.length 0
      (maskCodeContent l).masked = []) :
    parseLineTags i l = lineOpeningTags i l := by
  simp only [parseLineTags, lineOpeningTags]
  rw [hsc, hcl]
  rfl

/-- The extracted tag list splits around any line's record, everything
before on earlier lines and everything after on later ones. -/
theorem parseGo_split : ∀ (ls : List (List Char)) (b : Bool) (k j : Nat) (l : List Char),
    ls.get? j = some l →
    ∃ A B, (parseGo b k ls).xmlTags =
        A ++ (lineStructure (codeStateAt b ls j) (k + j) l).xmlTags ++ B ∧
      (∀ t ∈ A, t.line < k + j) ∧ (∀ t ∈ B, k + j < t.line) := by
  intro ls
  induction ls with
  | nil => intro b k j l hl; cases j <;> exact absurd hl (by simp)
  | cons l0 rest ih =>
    intro b k j l hl
    cases j with
    | zero =>
      have hl0 : l0 = l := Option.some.inj hl
      subst hl0
      refine ⟨[], (parseGo (if isFenceLine l0 then !b else b) (k + 1) rest).xmlTags,
        ?_, ?_, ?_⟩
      · rw [parseGo_cons]
        rfl
      · intro t ht
        exact absurd ht (List.not_mem_nil t)
      · intro t ht
        rw [parseGo_mem_xmlTags] at ht
        obtain ⟨j', l', hj', hm'⟩ := ht
        obtain ⟨hline, -, -, -, -⟩ := lineStructure_tags hm'
        omega
    | succ j =>
      obtain ⟨A', B', hsplit, hA', hB'⟩ :=
        ih (if isFenceLine l0 then !b else b) (k + 1) j l hl
      refine ⟨(lineStructure b k l0).xmlTags ++ A', B', ?_, ?_, ?_⟩
      · rw [parseGo_cons]
        show (lineStructure b k l0).xmlTags ++
          (parseGo (if isFenceLine l0 then !b else b) (k + 1) rest).xmlTags = _
        rw [hsplit, codeStateAt_succ]
        have harith : k + 1 + j = k + (j + 1) := by omega
        rw [harith] at *
        simp [List.append_assoc]
      · intro t ht
        rcases List.mem_append.mp ht with h1 | h1
        · have := (lineStructure_tags h1).1
          omega
        · have := hA' t h1
          omega
      · intro t ht
        have := hB' t ht
        omega

/-- The record of one line is exactly the extracted tags on that line. -/
theorem doc_tags_filter_line (text : List Char) (j : Nat) (l : List Char)
    (hl : (splitLines text).get? j = some l) :
    (parseDocumentText text).xmlTags.filter (fun t => t.line == j) =
      (lineStructure (codeStateAt false (splitLines text) j) j l).xmlTags := by
  obtain ⟨A, B, hsplit, hA, hB⟩ := parseGo_split (splitLines text) false 0 j l hl
  rw [Nat.zero_add] at hsplit hA hB
  show (parseGo false 0 (splitLines text)).xmlTags.filter (fun t => t.line == j) = _
  have hfA : A.filter (fun t => t.line == j) = [] :=
    List.filter_eq_nil_iff.mpr (fun t ht => by simp [Nat.ne_of_lt (hA t ht)])
  have hfB : B.filter (fun t => t.line == j) = [] :=
    List.filter_eq_nil_iff.mpr (fun t ht => by simp [Nat.ne_of_gt (hB t ht)])
  have hfG : ((lineStructure (codeStateAt false (splitLines text) j) j l).xmlTags).filter
      (fun t => t.line == j) =
      (lineStructure (codeStateAt false (splitLines text) j) j l).xmlTags :=
    List.filter_eq_self.mpr (fun t ht => by simp [(lineStructure_tags ht).1])
  rw [hsplit, List.filter_append, List.filter_append, hfA, hfG, hfB]
  simp


/-! ## Last writer wins in the info map; consecutive openings -/

/-- The final info-map entry of a line is the last opening or self-closing
occurrence recorded on it. -/
theorem convFold_imap_last (hrs : List Nat) :
    ∀ (tags : List XmlTag) (st : ConvSt) (i : Nat),
      mapGet ((tags.foldl (convTagStep hrs) st).imap) i =
        (match (tags.filter (fun t => t.line == i && isSetter t)).getLast? with
         | some t => some (t.name, t.attributes)
         | none => mapGet st.imap i) := by
  intro tags
  induction tags with
  | nil => intro st i; rfl
  | cons t ts ih =>
    intro st i
    rw [List.foldl_cons, ih (convTagStep hrs st t) i]
    by_cases hp : (t.line == i && isSetter t) = true
    · rcases Bool.and_eq_true_iff.mp hp with ⟨hline, hset⟩
      have hline' : t.line = i := by simpa using hline
      have hstep : mapGet (convTagStep hrs st t).imap i =
          some (t.name, t.attributes) := by
        rw [← hline']
        exact convTagStep_imap_get_self hrs st t hset
      have hfc : (t :: ts).filter (fun u => u.line == i && isSetter u) =
          t :: ts.filter (fun u => u.line == i && isSetter u) :=
        List.filter_cons_of_pos hp
      rw [hfc]
      cases hf : ts.filter (fun t => t.line == i && isSetter t) with
      | nil =>
        show mapGet (convTagStep hrs st t).imap i = some (t.name, t.attributes)
        exact hstep
      | cons u us => rfl
    · have hstep : mapGet (convTagStep hrs st t).imap i = mapGet st.imap i := by
        by_cases hset : isSetter t
        · have hline : t.line ≠ i := by
            intro he
            exact hp (Bool.and_eq_true_iff.mpr ⟨by simpa using he, hset⟩)
          exact convTagStep_imap_get_ne hrs st t i hline
        · rw [convTagStep_imap_nonsetter hrs st t (Bool.eq_false_iff.mpr hset)]
      have hfc : (t :: ts).filter (fun u => u.line == i && isSetter u) =
          ts.filter (fun u => u.line == i && isSetter u) :=
        List.filter_cons_of_neg hp
      rw [hfc]
      cases hf : ts.filter (fun t => t.line == i && isSetter t) with
      | nil =>
        show mapGet (convTagStep hrs st t).imap i = mapGet st.imap i
        exact hstep
      | cons u us =>
        cases hgl : (u :: us).getLast? with
        | none => simp at hgl
        | some w => rfl

/-- The reset loop never fires while the top of the stack sits on the
current tag's line. -/
theorem hrResetLoop_top_line (i : Nat) (e : List Char × Nat)
    (he : e.2 = i) :
    ∀ (hrs : List Nat) (d : Int) (stk : List (List Char × Nat)),
      hrResetLoop hrs i d (e :: stk) = (d, e :: stk) := by
  intro hrs
  induction hrs with
  | nil => intro d stk; rfl
  | cons hr hrs ih =>
    intro d stk
    show ((hr :: hrs).foldl
      (fun p h => if hrTrigger i p.2 h then (0, []) else p) (d, e :: stk)) = _
    rw [List.foldl_cons]
    have htr : hrTrigger i (e :: stk) hr = false := by
      unfold hrTrigger
      rw [Bool.and_eq_false_iff]
      by_cases hlt : hr < i
      · right
        show (List.isEmpty (e :: stk) || match List.head? (e :: stk) with
          | some top => decide (top.2 < hr) | none => false) = false
        rw [Bool.or_eq_false_iff]
        refine ⟨rfl, ?_⟩
        show decide (e.2 < hr) = false
        rw [decide_eq_false]
        omega
      · left
        rw [decide_eq_false hlt]
    show List.foldl _ (if hrTrigger i (e :: stk) hr = true then ((0 : Int), ([] : List (List Char × Nat))) else (d, e :: stk)) hrs = _
    rw [htr, if_neg (by simp)]
    exact ih d stk

/-- The opening branch of the tag walk, explicitly. -/
theorem convTagStep_opening_shape (hrs : List Nat) (st : ConvSt) (t : XmlTag)
    (ho : t.isOpening = true) :
    convTagStep hrs st t =
      ⟨(hrResetLoop hrs t.line st.depth st.stack).1 + 1,
        (t.name, t.line) :: (hrResetLoop hrs t.line st.depth st.stack).2,
        mapSet st.dmap t.line (hrResetLoop hrs t.line st.depth st.stack).1,
        mapSet st.imap t.line (t.name, t.attributes), st.ends⟩ := by
  unfold convTagStep
  rw [if_pos ho]

/-- Once the stack's top is on line `i`, each further opening on line `i`
adds exactly one to the depth counter. -/
theorem openings_fold_depth_aux (hrs : List Nat) (i : Nat) :
    ∀ (os : List XmlTag) (st : ConvSt) (e : List Char × Nat)
      (stk : List (List Char × Nat)),
      (∀ t ∈ os, t.isOpening = true ∧ t.line = i) →
      st.stack = e :: stk → e.2 = i →
      (os.foldl (convTagStep hrs) st).depth = st.depth + os.length := by
  intro os
  induction os with
  | nil => intro st e stk _ _ _; simp
  | cons t os ih =>
    intro st e stk hos hstk he
    obtain ⟨ho, hline⟩ := hos t (List.mem_cons_self t os)
    have hid : hrResetLoop hrs t.line st.depth st.stack = (st.depth, st.stack) := by
      rw [hline, hstk]
      exact hrResetLoop_top_line i e he hrs st.depth stk
    have hstep := convTagStep_opening_shape hrs st t ho
    rw [hid] at hstep
    rw [List.foldl_cons,
      ih (convTagStep hrs st t) (t.name, t.line) st.stack
        (fun u hu => hos u (List.mem_cons_of_mem t hu))
        (by rw [hstep]) (by show t.line = i; exact hline)]
    rw [hstep]
    show st.depth + 1 + (os.length : Int) = st.depth + ((os.length + 1 : Nat) : Int)
    push_cast
    ring

/-- A nonempty run of opening tags, all on one line, increments the depth
counter by exactly its length on top of the (possibly reset) depth. -/
theorem openings_fold_depth (hrs : List Nat) (i : Nat) :
    ∀ (os : List XmlTag) (st : ConvSt), os ≠ [] →
      (∀ t ∈ os, t.isOpening = true ∧ t.line = i) →
      (os.foldl (convTagStep hrs) st).depth =
        (hrResetLoop hrs i st.depth st.stack).1 + os.length := by
  intro os
  cases os with
  | nil => intro st h _; exact absurd rfl h
  | cons t os =>
    intro st _ hos
    obtain ⟨ho, hline⟩ := hos t (List.mem_cons_self t os)
    have hstep := convTagStep_opening_shape hrs st t ho
    rw [List.foldl_cons,
      openings_fold_depth_aux hrs i os (convTagStep hrs st t) (t.name, t.line)
        (hrResetLoop hrs t.line st.depth st.stack).2
        (fun u hu => hos u (List.mem_cons_of_mem t hu))
        (by rw [hstep]) (by show t.line = i; exact hline)]
    rw [hstep, hline]
    show (hrResetLoop hrs i st.depth st.stack).1 + 1 + (os.length : Int) =
      (hrResetLoop hrs i st.depth st.stack).1 + ((os.length + 1 : Nat) : Int)
    push_cast
    ring


/-! ## C10: several opening tags on one line -/

/-- **C10, amended.**  On a line (reached outside code blocks by both the
extractor's and the transformer's fence tracking, no fence, no rule) whose
scans find no self-closing and no closing tag but two or more opening
tags: the extractor records exactly those opening tags for
the line (contiguously, between the earlier and later lines' records); the
walk's depth counter after them is the post-reset depth plus one per
opening; the final per-line info entry carries the name and attributes of
the **last** opening recorded (map writes overwrite); and the transformer
emits exactly one header line for the line (a header, one empty line, and
at most one content line).  The original claim fails when the line also
carries a closing tag, see `C10_counterexample`. -/
theorem C10_multiple_openings (text : List Char) (j : Nat) (l : List Char)
    (hl : (splitLines text).get? j = some l)
    (hst : codeStateAt false (splitLines text) j = false)
    (hinc : convV1CodeStateAt false (splitLines text) j = false)
    (hf : isFenceLine l = false) (hhr : isHorizontalRule l = false)
    (hsc : (selfClosingScanGo (maskCodeContent l).masked.length 0
      (maskCodeContent l).masked).1 = [])
    (hcl : closingScanGo (maskCodeContent l).masked.length 0
      (maskCodeContent l).masked = [])
    (hop : 2 ≤ (lineOpeningTags j l).length) :
    (∃ A B, (parseDocumentText text).xmlTags = A ++ lineOpeningTags j l ++ B ∧
      (∀ t ∈ A, t.line < j) ∧ (∀ t ∈ B, j < t.line) ∧
      ((A ++ lineOpeningTags j l).foldl
          (convTagStep (parseDocumentText text).horizontalRules)
          ⟨0, [], [], [], []⟩).depth =
        (hrResetLoop (parseDocumentText text).horizontalRules j
          (A.foldl (convTagStep (parseDocumentText text).horizontalRules)
            ⟨0, [], [], [], []⟩).depth
          (A.foldl (convTagStep (parseDocumentText text).horizontalRules)
            ⟨0, [], [], [], []⟩).stack).1 + (lineOpeningTags j l).length) ∧
    (∃ tL d rest, (lineOpeningTags j l).getLast? = some tL ∧
      mapGet (convStOf text).imap j = some (tL.name, tL.attributes) ∧
      mapGet (convStOf text).dmap j = some d ∧
      convertEmits text j = tagHeaderLine d tL.name tL.attributes :: [] :: rest ∧
      rest.length ≤ 1) := by
  have hplt : parseLineTags j l = lineOpeningTags j l := parseLineTags_openings j l hsc hcl
  have hG : (lineStructure (codeStateAt false (splitLines text) j) j l).xmlTags =
      lineOpeningTags j l := by
    rw [hst]
    unfold lineStructure parseLineStructure
    rw [if_neg (by simp [hf]), if_neg (by simp), if_neg (by simp [hhr])]
    exact hplt
  obtain ⟨A, B, hsplit0, hA, hB⟩ := parseGo_split (splitLines text) false 0 j l hl
  rw [Nat.zero_add] at hsplit0 hA hB
  rw [hG] at hsplit0
  have hsplit : (parseDocumentText text).xmlTags = A ++ lineOpeningTags j l ++ B := hsplit0
  have hoall : ∀ t ∈ lineOpeningTags j l, t.isOpening = true ∧ t.line = j := by
    intro t ht
    simp only [lineOpeningTags, List.mem_map] at ht
    obtain ⟨m, -, rfl⟩ := ht
    exact ⟨rfl, rfl⟩
  have hnoclose : ∀ t ∈ lineOpeningTags j l, t.isClosing = false := by
    intro t ht
    simp only [lineOpeningTags, List.mem_map] at ht
    obtain ⟨m, -, rfl⟩ := ht
    rfl
  have hne : lineOpeningTags j l ≠ [] := by
    intro h
    rw [h] at hop
    exact absurd hop (by simp)
  refine ⟨⟨A, B, hsplit, hA, hB, ?_⟩, ?_⟩
  · rw [List.foldl_append]
    exact openings_fold_depth (parseDocumentText text).horizontalRules j
      (lineOpeningTags j l) _ hne hoall
  · have hgl : ∃ tL, (lineOpeningTags j l).getLast? = some tL := by
      cases hlo : lineOpeningTags j l with
      | nil => exact absurd hlo hne
      | cons u us =>
        cases hgl2 : (u :: us).getLast? with
        | none => simp at hgl2
        | some w => exact ⟨w, rfl⟩
    obtain ⟨tL, htL⟩ := hgl
    have hfilter : (parseDocumentText text).xmlTags.filter
        (fun t => t.line == j && isSetter t) = lineOpeningTags j l := by
      have hfA : A.filter (fun t => t.line == j && isSetter t) = [] :=
        List.filter_eq_nil_iff.mpr (fun t ht => by simp [Nat.ne_of_lt (hA t ht)])
      have hfB : B.filter (fun t => t.line == j && isSetter t) = [] :=
        List.filter_eq_nil_iff.mpr (fun t ht => by simp [Nat.ne_of_gt (hB t ht)])
      have hfG : (lineOpeningTags j l).filter (fun t => t.line == j && isSetter t) =
          lineOpeningTags j l :=
        List.filter_eq_self.mpr (fun t ht => by
          obtain ⟨ho, hline⟩ := hoall t ht
          simp [hline, isSetter, ho])
      rw [hsplit, List.filter_append, List.filter_append, hfA, hfB, hfG]
      simp
    have himap : mapGet (convStOf text).imap j = some (tL.name, tL.attributes) := by
      show mapGet (((parseDocumentText text).xmlTags).foldl
        (convTagStep (parseDocumentText text).horizontalRules)
        ⟨0, [], [], [], []⟩).imap j = _
      rw [convFold_imap_last (parseDocumentText text).horizontalRules
        (parseDocumentText text).xmlTags ⟨0, [], [], [], []⟩ j, hfilter, htL]
    have hpar : (mapGet (convStOf text).dmap j).isSome =
        (mapGet (convStOf text).imap j).isSome :=
      convFold_maps_isSome (parseDocumentText text).horizontalRules
        (parseDocumentText text).xmlTags ⟨0, [], [], [], []⟩ j rfl
    have hdsome : (mapGet (convStOf text).dmap j).isSome = true := by
      rw [hpar, himap]
      rfl
    obtain ⟨d, hd⟩ := Option.isSome_iff_exists.mp hdsome
    have hcont : (convStOf text).ends.contains j = false := by
      cases hc2 : (convStOf text).ends.contains j
      · rfl
      · exfalso
        have hmem := List.elem_iff.mp hc2
        rcases convFold_ends_mem (parseDocumentText text).horizontalRules
            (parseDocumentText text).xmlTags ⟨0, [], [], [], []⟩ j hmem with
          h1 | ⟨u, hu, huc, hul⟩
        · exact List.not_mem_nil _ h1
        · rw [hsplit] at hu
          rcases List.mem_append.mp hu with hu1 | hu1
          · rcases List.mem_append.mp hu1 with hu2 | hu2
            · have := hA u hu2
              omega
            · rw [hnoclose u hu2] at huc
              exact Bool.noConfusion huc
          · have := hB u hu1
            omega
    refine ⟨tL, d,
      (match findTagContentGo tL.name l.length l with
       | some c => if (trimChars c).isEmpty then [] else [trimChars c]
       | none => []), htL, himap, hd, ?_, ?_⟩
    · show ((convertLoop (convStOf text) false 0 (splitLines text)).get? j).getD [] = _
      rw [convertLoop_get, hl]
      show convertLineEmit (convStOf text) (convV1CodeStateAt false (splitLines text) j)
        (0 + j) l = _
      rw [hinc, Nat.zero_add]
      unfold convertLineEmit
      rw [if_neg (by simp [isFenceLineConvV1_false_of l hf]), if_neg (by simp),
        if_neg (by rw [hcont]; simp), hd, himap]
    · cases hfind : findTagContentGo tL.name l.length l with
      | none => simp
      | some c =>
        by_cases hemp : (trimChars c).isEmpty
        · simp [hemp]
        · simp [hemp]

/-- **C10, counterexample side.**  Two failures of the unconditional claim:
a single line holding two opening tags *and* their closings is recorded
with both openings, yet the transformer emits no header for it at all (the
closing-line branch fires first and the line becomes one empty line); and
after a `` ``` `` line ending in a stray carriage return — a fence for the
extractor but not for the transformer's anchored regex — a line with two
recorded openings sits inside the transformer's own code block and passes
through verbatim, with no header. -/
theorem C10_counterexample :
    (2 ≤ (openingsOnLine (parseDocumentText ("<a></a><b></b>").data).xmlTags 0).length ∧
      convertEmits ("<a></a><b></b>").data 0 = [[]]) ∧
    (2 ≤ (openingsOnLine
        (parseDocumentText ("```\r\r\n```\n<a><b>").data).xmlTags 2).length ∧
      codeStateAt false (splitLines ("```\r\r\n```\n<a><b>").data) 2 = false ∧
      convertEmits ("```\r\r\n```\n<a><b>").data 2 = [("<a><b>").data]) :=
  ⟨⟨by decide, by decide⟩, ⟨by decide, by decide, by decide⟩⟩

/-- C10 witness at a concrete document (`<a><b>` on one line). -/
theorem C10_multiple_openings_witness :
    ∃ tL d rest,
      (lineOpeningTags 0 (("<a><b>").data)).getLast? = some tL ∧
      mapGet (convStOf (("<a><b>").data)).imap 0 = some (tL.name, tL.attributes) ∧
      mapGet (convStOf (("<a><b>").data)).dmap 0 = some d ∧
      convertEmits (("<a><b>").data) 0 =
        tagHeaderLine d tL.name tL.attributes :: [] :: rest ∧
      rest.length ≤ 1 :=
  (C10_multiple_openings (("<a><b>").data) 0 (("<a><b>").data)
    (by decide) (by decide) (by decide) (by decide) (by decide) (by decide)
    (by decide) (by decide)).2


/-! ## Trailing whitespace and the beautifier's classifiers -/

theorem head_dropWhile_false {α : Type} {p : α → Bool} :
    ∀ {l : List α} {c : α}, (l.dropWhile p).head? = some c → p c = false := by
  intro l
  induction l with
  | nil => intro c h; exact absurd h (by simp)
  | cons a r ih =>
    intro c h
    rw [List.dropWhile_cons] at h
    by_cases ha : p a
    · rw [if_pos ha] at h
      exact ih h
    · rw [if_neg ha] at h
      have : a = c := by simpa using h
      rw [← this]
      exact Bool.eq_false_iff.mpr ha

theorem dts_append_spaces (a s : List Char) (hs : ∀ c ∈ s, isSpace c = true) :
    dropTrailingSpace (a ++ s) = dropTrailingSpace a := by
  unfold dropTrailingSpace
  rw [List.reverse_append, dropWhile_append_all (fun c hc => hs c (List.mem_reverse.mp hc))]

theorem dts_eq_self (a : List Char)
    (ha : ∀ c, a.getLast? = some c → isSpace c = false) : dropTrailingSpace a = a := by
  unfold dropTrailingSpace
  rw [dropWhile_self_of_head (fun c hc => ha c (by rw [← List.head?_reverse]; exact hc)),
    List.reverse_reverse]

theorem dts_spec (x : List Char) :
    ∃ s, x = dropTrailingSpace x ++ s ∧ ∀ c ∈ s, isSpace c = true := by
  refine ⟨(x.reverse.takeWhile isSpace).reverse, ?_, ?_⟩
  · have h1 : x = (x.reverse.takeWhile isSpace ++ x.reverse.dropWhile isSpace).reverse := by
      rw [List.takeWhile_append_dropWhile, List.reverse_reverse]
    conv_lhs => rw [h1]
    rw [List.reverse_append]
    rfl
  · intro c hc
    rw [List.mem_reverse] at hc
    exact List.mem_takeWhile_imp hc

theorem dts_getLast (x : List Char) :
    ∀ c, (dropTrailingSpace x).getLast? = some c → isSpace c = false := by
  intro c hc
  unfold dropTrailingSpace at hc
  rw [List.getLast?_reverse] at hc
  exact head_dropWhile_false hc

theorem dropWhile_isSpace_trim (l : List Char) :
    (trimChars l).dropWhile isSpace = trimChars l := by
  apply dropWhile_self_of_head
  intro c hc
  have hc2 : (dropTrailingSpace (l.dropWhile isSpace)).head? = some c := hc
  obtain ⟨s, hx, -⟩ := dts_spec (l.dropWhile isSpace)
  have hxh : (l.dropWhile isSpace).head? = some c := by
    rw [hx]
    cases he : dropTrailingSpace (l.dropWhile isSpace) with
    | nil => rw [he] at hc2; exact absurd hc2 (by simp)
    | cons e r =>
      rw [he] at hc2
      have he2 : e = c := by simpa using hc2
      rw [List.cons_append, List.head?_cons, he2]
  exact head_dropWhile_false hxh

theorem trim_idem (l : List Char) : trimChars (trimChars l) = trimChars l := by
  show dropTrailingSpace ((trimChars l).dropWhile isSpace) = trimChars l
  rw [dropWhile_isSpace_trim]
  exact dts_eq_self _ (dts_getLast _)

theorem indentStr_all_space (n : Nat) : ∀ c ∈ indentStr n, isSpace c = true := by
  intro c hc
  unfold indentStr at hc
  rw [List.eq_of_mem_replicate hc]
  rfl

theorem dropWhile_indent (n : Nat) (x : List Char) :
    (indentStr n ++ x).dropWhile isSpace = x.dropWhile isSpace :=
  dropWhile_append_all (indentStr_all_space n)

theorem trim_indent (n : Nat) (x : List Char) :
    trimChars (indentStr n ++ x) = trimChars x := by
  show dropTrailingSpace ((indentStr n ++ x).dropWhile isSpace) = trimChars x
  rw [dropWhile_indent]
  rfl

theorem isFenceLine_indent (n : Nat) (x : List Char) :
    isFenceLine (indentStr n ++ x) = isFenceLine x := by
  unfold isFenceLine
  rw [dropWhile_indent]

theorem isClosingTagLine_indent (n : Nat) (x : List Char) :
    isClosingTagLine (indentStr n ++ x) = isClosingTagLine x := by
  unfold isClosingTagLine
  rw [dropWhile_indent]

theorem isOpeningTagLine_indent (n : Nat) (x : List Char) :
    isOpeningTagLine (indentStr n ++ x) = isOpeningTagLine x := by
  unfold isOpeningTagLine
  rw [dropWhile_indent]

theorem isSelfClosingTagLine_indent (n : Nat) (x : List Char) :
    isSelfClosingTagLine (indentStr n ++ x) = isSelfClosingTagLine x := by
  unfold isSelfClosingTagLine
  rw [dropWhile_indent]

theorem isHeaderLine_indent (n : Nat) (x : List Char) :
    isHeaderLine (indentStr n ++ x) = isHeaderLine x := by
  unfold isHeaderLine
  rw [dropWhile_indent]

/-! ## The beautifier: trailing-space trimming, classifier invariance, line
round-trip, and idempotence under the amended hypotheses -/


theorem space_cases {c : Char} (h : isSpace c = true) :
    ((((c = ' ' ∨ c = '\t') ∨ c = '\n') ∨ c = '\r') ∨ c = Char.ofNat 11) ∨ c = Char.ofNat 12 := by
  simpa [isSpace, Bool.or_eq_true, decide_eq_true_eq] using h

theorem space_not_nameChar {c : Char} (h : isSpace c = true) : isNameChar c = false := by
  rcases space_cases h with ((((rfl | rfl) | rfl) | rfl) | rfl) | rfl <;> decide

theorem space_not_hash {c : Char} (h : isSpace c = true) : (decide (c = '#')) = false := by
  rcases space_cases h with ((((rfl | rfl) | rfl) | rfl) | rfl) | rfl <;> decide

theorem nameAt_cons (c : Char) (rest : List Char) :
    nameAt (c :: rest) =
      if isNameStart c then some (c :: rest.takeWhile isNameChar, rest.dropWhile isNameChar)
      else none := rfl

theorem isPrefixOf_dts (p x : List Char) (hp : ∀ c ∈ p, isSpace c = false) :
    List.isPrefixOf p (dropTrailingSpace x) = List.isPrefixOf p x := by
  obtain ⟨s, hx0, hs⟩ := dts_spec x
  rw [Bool.eq_iff_iff, List.isPrefixOf_iff_prefix, List.isPrefixOf_iff_prefix]
  constructor
  · intro h
    rw [hx0]
    exact h.trans (List.prefix_append _ _)
  · intro h
    rw [hx0] at h
    rcases List.prefix_or_prefix_of_prefix h (List.prefix_append (dropTrailingSpace x) s) with h1 | h1
    · exact h1
    · obtain ⟨t, ht⟩ := h1
      have h2 : dropTrailingSpace x ++ t <+: dropTrailingSpace x ++ s := ht ▸ h
      have h3 : t <+: s := (List.prefix_append_right_inj (dropTrailingSpace x)).mp h2
      cases t with
      | nil => rw [← ht, List.append_nil]
      | cons c r =>
        have hcs : isSpace c = true := hs c (h3.subset (List.mem_cons_self c r))
        have hcp : c ∈ p := by
          rw [← ht]; exact List.mem_append_right _ (List.mem_cons_self c r)
        rw [hp c hcp] at hcs
        cases hcs

theorem isFenceLine_trim (l : List Char) : isFenceLine (trimChars l) = isFenceLine l := by
  simp only [isFenceLine]
  rw [dropWhile_isSpace_trim]
  show (List.isPrefixOf [btk, btk, btk] (dropTrailingSpace (l.dropWhile isSpace)) ||
    List.isPrefixOf ['~', '~', '~'] (dropTrailingSpace (l.dropWhile isSpace))) = _
  rw [isPrefixOf_dts _ _ (by decide), isPrefixOf_dts _ _ (by decide)]

theorem attrThenGt_build (attr r2 : List Char) (hag : '>' ∉ attr)
    (hah : ∀ c, attr.head? = some c → isSpace c = true) :
    attrThenGt (attr ++ '>' :: r2) = some (attr, r2) := by
  have hane : ∀ c ∈ attr, (decide (c ≠ '>')) = true :=
    fun c hc => decide_eq_true (fun h2 => hag (h2 ▸ hc))
  have hd : (attr ++ '>' :: r2).dropWhile (· ≠ '>') = '>' :: r2 := by
    rw [dropWhile_append_all hane]
    exact dropWhile_self_of_head (by intro c hc; have h2 : '>' = c := (by simpa using hc); cases h2; decide)
  have ht : (attr ++ '>' :: r2).takeWhile (· ≠ '>') = attr := by
    rw [takeWhile_append_all hane,
      takeWhile_nil_of_head (by intro c hc; have h2 : '>' = c := (by simpa using hc); cases h2; decide),
      List.append_nil]
  simp only [attrThenGt, hd, ht]
  cases attr with
  | nil => rfl
  | cons c q => simp [hah c rfl]

theorem attrThenSlashGt_build (attr r2 : List Char) (hag : '>' ∉ attr)
    (hah : ∀ c, attr.head? = some c → isSpace c = true) :
    attrThenSlashGt (attr ++ '/' :: '>' :: r2) = some (attr, r2) := by
  have hane : ∀ c ∈ attr ++ ['/'], (decide (c ≠ '>')) = true := by
    intro c hc
    rcases List.mem_append.mp hc with h1 | h1
    · exact decide_eq_true (fun h2 => hag (h2 ▸ h1))
    · have h2 : c = '/' := by simpa using h1
      rw [h2]; decide
  have hshape : attr ++ '/' :: '>' :: r2 = (attr ++ ['/']) ++ '>' :: r2 :=
    (List.append_assoc attr ['/'] ('>' :: r2)).symm
  have hd : (attr ++ '/' :: '>' :: r2).dropWhile (· ≠ '>') = '>' :: r2 := by
    rw [hshape, dropWhile_append_all hane]
    exact dropWhile_self_of_head (by intro c hc; have h2 : '>' = c := (by simpa using hc); cases h2; decide)
  have ht : (attr ++ '/' :: '>' :: r2).takeWhile (· ≠ '>') = attr ++ ['/'] := by
    rw [hshape, takeWhile_append_all hane,
      takeWhile_nil_of_head (by intro c hc; have h2 : '>' = c := (by simpa using hc); cases h2; decide),
      List.append_nil]
  have hrev : (attr ++ ['/']).reverse = '/' :: attr.reverse := by simp
  simp only [attrThenSlashGt, hd, ht, hrev, List.reverse_reverse]
  cases attr with
  | nil => rfl
  | cons c q => simp [hah c rfl]

theorem isClosingTagLine_build (sp nm r2 : List Char)
    (hsp : ∀ c ∈ sp, isSpace c = true)
    (hnm : nm ≠ [])
    (hn1 : ∀ c, nm.head? = some c → isNameStart c = true)
    (hn2 : ∀ c ∈ nm.tail, isNameChar c = true)
    (hr2 : ∀ c ∈ r2, isSpace c = true) :
    isClosingTagLine (sp ++ '<' :: '/' :: (nm ++ '>' :: r2)) = true := by
  cases nm with
  | nil => exact absurd rfl hnm
  | cons n0 nt =>
    have hn2t : ∀ c ∈ nt, isNameChar c = true := hn2
    have hdw : (sp ++ '<' :: '/' :: ((n0 :: nt) ++ '>' :: r2)).dropWhile isSpace
        = '<' :: '/' :: ((n0 :: nt) ++ '>' :: r2) := by
      rw [dropWhile_append_all hsp]
      exact dropWhile_self_of_head (by intro c hc; have h2 : '<' = c := (by simpa using hc); cases h2; decide)
    have hna : nameAt ((n0 :: nt) ++ '>' :: r2) = some (n0 :: nt, '>' :: r2) := by
      rw [List.cons_append, nameAt_cons, if_pos (hn1 n0 rfl)]
      rw [takeWhile_append_all hn2t,
        takeWhile_nil_of_head (by intro c hc; have h2 : '>' = c := (by simpa using hc); cases h2; decide),
        List.append_nil,
        dropWhile_append_all hn2t,
        dropWhile_self_of_head (by intro c hc; have h2 : '>' = c := (by simpa using hc); cases h2; decide)]
    simp only [isClosingTagLine, hdw, hna, List.all_eq_true]
    exact hr2

theorem isOpeningTagLine_build (sp nm attr r2 : List Char)
    (hsp : ∀ c ∈ sp, isSpace c = true)
    (hnm : nm ≠ [])
    (hn1 : ∀ c, nm.head? = some c → isNameStart c = true)
    (hn2 : ∀ c ∈ nm.tail, isNameChar c = true)
    (hag : '>' ∉ attr)
    (hah : ∀ c, attr.head? = some c → isSpace c = true)
    (hr2 : ∀ c ∈ r2, isSpace c = true) :
    isOpeningTagLine (sp ++ '<' :: (nm ++ (attr ++ '>' :: r2))) = true := by
  cases nm with
  | nil => exact absurd rfl hnm
  | cons n0 nt =>
    have hn2t : ∀ c ∈ nt, isNameChar c = true := hn2
    have hdw : (sp ++ '<' :: ((n0 :: nt) ++ (attr ++ '>' :: r2))).dropWhile isSpace
        = '<' :: ((n0 :: nt) ++ (attr ++ '>' :: r2)) := by
      rw [dropWhile_append_all hsp]
      exact dropWhile_self_of_head (by intro c hc; have h2 : '<' = c := (by simpa using hc); cases h2; decide)
    have hx : ∀ c, (attr ++ '>' :: r2).head? = some c → isNameChar c = false := by
      intro c hc
      cases attr with
      | nil => have h2 : '>' = c := (by simpa using hc); cases h2; decide
      | cons a q =>
        have h2 : a = c := by simpa using hc
        rw [← h2]; exact space_not_nameChar (hah a rfl)
    have hna : nameAt ((n0 :: nt) ++ (attr ++ '>' :: r2)) = some (n0 :: nt, attr ++ '>' :: r2) := by
      rw [List.cons_append, nameAt_cons, if_pos (hn1 n0 rfl)]
      rw [takeWhile_append_all hn2t, takeWhile_nil_of_head hx, List.append_nil,
        dropWhile_append_all hn2t, dropWhile_self_of_head hx]
    have hat : attrThenGt (attr ++ '>' :: r2) = some (attr, r2) := attrThenGt_build attr r2 hag hah
    simp only [isOpeningTagLine, hdw, hna, hat, List.all_eq_true]
    exact hr2

theorem isSelfClosingTagLine_build (sp nm attr r2 : List Char)
    (hsp : ∀ c ∈ sp, isSpace c = true)
    (hnm : nm ≠ [])
    (hn1 : ∀ c, nm.head? = some c → isNameStart c = true)
    (hn2 : ∀ c ∈ nm.tail, isNameChar c = true)
    (hag : '>' ∉ attr)
    (hah : ∀ c, attr.head? = some c → isSpace c = true)
    (hr2 : ∀ c ∈ r2, isSpace c = true) :
    isSelfClosingTagLine (sp ++ '<' :: (nm ++ (attr ++ '/' :: '>' :: r2))) = true := by
  cases nm with
  | nil => exact absurd rfl hnm
  | cons n0 nt =>
    have hn2t : ∀ c ∈ nt, isNameChar c = true := hn2
    have hdw : (sp ++ '<' :: ((n0 :: nt) ++ (attr ++ '/' :: '>' :: r2))).dropWhile isSpace
        = '<' :: ((n0 :: nt) ++ (attr ++ '/' :: '>' :: r2)) := by
      rw [dropWhile_append_all hsp]
      exact dropWhile_self_of_head (by intro c hc; have h2 : '<' = c := (by simpa using hc); cases h2; decide)
    have hx : ∀ c, (attr ++ '/' :: '>' :: r2).head? = some c → isNameChar c = false := by
      intro c hc
      cases attr with
      | nil => have h2 : '/' = c := (by simpa using hc); cases h2; decide
      | cons a q =>
        have h2 : a = c := by simpa using hc
        rw [← h2]; exact space_not_nameChar (hah a rfl)
    have hna : nameAt ((n0 :: nt) ++ (attr ++ '/' :: '>' :: r2))
        = some (n0 :: nt, attr ++ '/' :: '>' :: r2) := by
      rw [List.cons_append, nameAt_cons, if_pos (hn1 n0 rfl)]
      rw [takeWhile_append_all hn2t, takeWhile_nil_of_head hx, List.append_nil,
        dropWhile_append_all hn2t, dropWhile_self_of_head hx]
    have hat : attrThenSlashGt (attr ++ '/' :: '>' :: r2) = some (attr, r2) :=
      attrThenSlashGt_build attr r2 hag hah
    simp only [isSelfClosingTagLine, hdw, hna, hat, List.all_eq_true]
    exact hr2


theorem isClosingTagLine_dest (l : List Char) (h : isClosingTagLine l = true) :
    ∃ nm r2, l.dropWhile isSpace = '<' :: '/' :: (nm ++ '>' :: r2) ∧
      nm ≠ [] ∧ (∀ c, nm.head? = some c → isNameStart c = true) ∧
      (∀ c ∈ nm.tail, isNameChar c = true) ∧ (∀ c ∈ r2, isSpace c = true) := by
  unfold isClosingTagLine at h
  split at h <;> try (exact Bool.noConfusion h)
  rename_i rest heq
  split at h <;> try (exact Bool.noConfusion h)
  rename_i p hp
  split at h <;> try (exact Bool.noConfusion h)
  rename_i r2 hr2
  cases rest with
  | nil => exact absurd hp (by simp [nameAt])
  | cons c r =>
    rw [nameAt_cons] at hp
    by_cases hns : isNameStart c = true
    · rw [if_pos hns] at hp
      have hp2 := Option.some.inj hp
      have hpa : p.2 = r.dropWhile isNameChar := by rw [← hp2]
      have hdrop : r.dropWhile isNameChar = '>' :: r2 := by rw [← hpa]; exact hr2
      refine ⟨c :: r.takeWhile isNameChar, r2, ?_, by simp, ?_, ?_, List.all_eq_true.mp h⟩
      · rw [heq, List.cons_append, ← hdrop, List.takeWhile_append_dropWhile]
      · intro c0 hc0
        have h3 : c = c0 := by simpa using hc0
        rw [← h3]; exact hns
      · intro c0 hc0
        exact List.mem_takeWhile_imp hc0
    · rw [if_neg hns] at hp
      exact absurd hp (by simp)

theorem attrThenGt_dest (cs : List Char) (q : List Char × List Char)
    (h : attrThenGt cs = some q) :
    ∃ attr rest2, cs = attr ++ '>' :: rest2 ∧ q = (attr, rest2) ∧ '>' ∉ attr ∧
      (∀ c, attr.head? = some c → isSpace c = true) := by
  unfold attrThenGt at h
  split at h <;> try (exact Option.noConfusion h)
  rename_i rest2 heq
  split at h
  · rename_i heq2
    refine ⟨[], rest2, ?_, (Option.some.inj h).symm, by simp, by intro c0 hc0; simp at hc0⟩
    conv_lhs => rw [← List.takeWhile_append_dropWhile (p := fun c => decide (c ≠ '>')) (l := cs)]
    rw [heq2, heq]
  · rename_i c q2 heq2
    by_cases hsc : isSpace c = true
    · rw [if_pos hsc] at h
      refine ⟨c :: q2, rest2, ?_, (Option.some.inj h).symm, ?_, ?_⟩
      · conv_lhs => rw [← List.takeWhile_append_dropWhile (p := fun c => decide (c ≠ '>')) (l := cs)]
        rw [heq2, heq]
      · intro hmem
        rw [← heq2] at hmem
        have := List.mem_takeWhile_imp hmem
        simp at this
      · intro c0 hc0
        have h3 : c = c0 := by simpa using hc0
        rw [← h3]; exact hsc
    · rw [if_neg hsc] at h
      exact absurd h (by simp)

theorem attrThenSlashGt_dest (cs : List Char) (q : List Char × List Char)
    (h : attrThenSlashGt cs = some q) :
    ∃ attr rest2, cs = attr ++ '/' :: '>' :: rest2 ∧ q = (attr, rest2) ∧ '>' ∉ attr ∧
      (∀ c, attr.head? = some c → isSpace c = true) := by
  unfold attrThenSlashGt at h
  split at h <;> try (exact Option.noConfusion h)
  rename_i rest2 heq
  split at h <;> try (exact Option.noConfusion h)
  rename_i revp heq2
  have htk : cs.takeWhile (· ≠ '>') = revp.reverse ++ ['/'] := by
    rw [← List.reverse_reverse (List.takeWhile (· ≠ '>') cs), heq2, List.reverse_cons]
  have hcs : cs = revp.reverse ++ '/' :: '>' :: rest2 := by
    conv_lhs => rw [← List.takeWhile_append_dropWhile (p := fun c => decide (c ≠ '>')) (l := cs)]
    rw [htk, heq, List.append_assoc]
    rfl
  have hno : '>' ∉ revp.reverse := by
    intro hmem
    have hmem2 : '>' ∈ cs.takeWhile (· ≠ '>') := by
      rw [htk]; exact List.mem_append_left _ hmem
    have := List.mem_takeWhile_imp hmem2
    simp at this
  split at h
  · rename_i heq3
    refine ⟨revp.reverse, rest2, hcs, ?_, hno, ?_⟩
    · rw [heq3]; exact (Option.some.inj h).symm
    · intro c0 hc0
      rw [heq3] at hc0
      simp at hc0
  · rename_i c q2 heq3
    by_cases hsc : isSpace c = true
    · rw [if_pos hsc] at h
      refine ⟨revp.reverse, rest2, hcs, ?_, hno, ?_⟩
      · rw [heq3]; exact (Option.some.inj h).symm
      · intro c0 hc0
        rw [heq3] at hc0
        have h3 : c = c0 := by simpa using hc0
        rw [← h3]; exact hsc
    · rw [if_neg hsc] at h
      exact absurd h (by simp)

theorem isOpeningTagLine_dest (l : List Char) (h : isOpeningTagLine l = true) :
    ∃ nm attr r2, l.dropWhile isSpace = '<' :: (nm ++ (attr ++ '>' :: r2)) ∧
      nm ≠ [] ∧ (∀ c, nm.head? = some c → isNameStart c = true) ∧
      (∀ c ∈ nm.tail, isNameChar c = true) ∧ '>' ∉ attr ∧
      (∀ c, attr.head? = some c → isSpace c = true) ∧ (∀ c ∈ r2, isSpace c = true) := by
  unfold isOpeningTagLine at h
  split at h <;> try (exact Bool.noConfusion h)
  rename_i rest heq
  split at h <;> try (exact Bool.noConfusion h)
  rename_i p hp
  split at h <;> try (exact Bool.noConfusion h)
  rename_i q hq
  cases rest with
  | nil => exact absurd hp (by simp [nameAt])
  | cons c r =>
    rw [nameAt_cons] at hp
    by_cases hns : isNameStart c = true
    · rw [if_pos hns] at hp
      have hp2 := Option.some.inj hp
      have hpa : p.2 = r.dropWhile isNameChar := by rw [← hp2]
      rw [hpa] at hq
      obtain ⟨attr, rest2, hshape, hqv, hno, hhead⟩ := attrThenGt_dest _ _ hq
      refine ⟨c :: r.takeWhile isNameChar, attr, rest2, ?_, by simp, ?_, ?_, hno, hhead, ?_⟩
      · rw [heq, List.cons_append, ← hshape, List.takeWhile_append_dropWhile]
      · intro c0 hc0
        have h3 : c = c0 := by simpa using hc0
        rw [← h3]; exact hns
      · intro c0 hc0
        exact List.mem_takeWhile_imp hc0
      · rw [hqv] at h
        exact List.all_eq_true.mp h
    · rw [if_neg hns] at hp
      exact absurd hp (by simp)

theorem isSelfClosingTagLine_dest (l : List Char) (h : isSelfClosingTagLine l = true) :
    ∃ nm attr r2, l.dropWhile isSpace = '<' :: (nm ++ (attr ++ '/' :: '>' :: r2)) ∧
      nm ≠ [] ∧ (∀ c, nm.head? = some c → isNameStart c = true) ∧
      (∀ c ∈ nm.tail, isNameChar c = true) ∧ '>' ∉ attr ∧
      (∀ c, attr.head? = some c → isSpace c = true) ∧ (∀ c ∈ r2, isSpace c = true) := by
  unfold isSelfClosingTagLine at h
  split at h <;> try (exact Bool.noConfusion h)
  rename_i rest heq
  split at h <;> try (exact Bool.noConfusion h)
  rename_i p hp
  split at h <;> try (exact Bool.noConfusion h)
  rename_i q hq
  cases rest with
  | nil => exact absurd hp (by simp [nameAt])
  | cons c r =>
    rw [nameAt_cons] at hp
    by_cases hns : isNameStart c = true
    · rw [if_pos hns] at hp
      have hp2 := Option.some.inj hp
      have hpa : p.2 = r.dropWhile isNameChar := by rw [← hp2]
      rw [hpa] at hq
      obtain ⟨attr, rest2, hshape, hqv, hno, hhead⟩ := attrThenSlashGt_dest _ _ hq
      refine ⟨c :: r.takeWhile isNameChar, attr, rest2, ?_, by simp, ?_, ?_, hno, hhead, ?_⟩
      · rw [heq, List.cons_append, ← hshape, List.takeWhile_append_dropWhile]
      · intro c0 hc0
        have h3 : c = c0 := by simpa using hc0
        rw [← h3]; exact hns
      · intro c0 hc0
        exact List.mem_takeWhile_imp hc0
      · rw [hqv] at h
        exact List.all_eq_true.mp h
    · rw [if_neg hns] at hp
      exact absurd hp (by simp)


theorem isClosingTagLine_trim (l : List Char) :
    isClosingTagLine (trimChars l) = isClosingTagLine l := by
  obtain ⟨s, hx0, hs⟩ := dts_spec (l.dropWhile isSpace)
  have hx : l.dropWhile isSpace = trimChars l ++ s := hx0
  rw [Bool.eq_iff_iff]
  constructor
  · intro h
    obtain ⟨nm, r2, hshape, hnm, hn1, hn2, hr2⟩ := isClosingTagLine_dest _ h
    rw [dropWhile_isSpace_trim] at hshape
    have hl : l = l.takeWhile isSpace ++ ('<' :: '/' :: (nm ++ '>' :: (r2 ++ s))) := by
      conv_lhs => rw [← List.takeWhile_append_dropWhile (p := isSpace) (l := l)]
      rw [hx, hshape]
      simp
    rw [hl]
    exact isClosingTagLine_build _ nm (r2 ++ s) (fun c hc => List.mem_takeWhile_imp hc) hnm hn1 hn2
      (by intro c hc
          rcases List.mem_append.mp hc with h1 | h1
          · exact hr2 c h1
          · exact hs c h1)
  · intro h
    obtain ⟨nm, r2, hshape, hnm, hn1, hn2, hr2⟩ := isClosingTagLine_dest _ h
    have htc : trimChars l = '<' :: '/' :: (nm ++ ['>']) := by
      show dropTrailingSpace (l.dropWhile isSpace) = _
      rw [hshape]
      have hre : '<' :: '/' :: (nm ++ '>' :: r2) = ('<' :: '/' :: (nm ++ ['>'])) ++ r2 := by
        simp
      rw [hre, dts_append_spaces _ _ (fun c hc => hr2 c hc)]
      apply dts_eq_self
      intro c hc
      have hgl : ('<' :: '/' :: (nm ++ ['>'])).getLast? = some '>' := by
        simpa using List.getLast?_concat ('<' :: '/' :: nm)
      rw [hgl] at hc
      have h2 : '>' = c := by simpa using hc
      cases h2; decide
    rw [htc]
    exact isClosingTagLine_build [] nm [] (by simp) hnm hn1 hn2 (by simp)

theorem isOpeningTagLine_trim (l : List Char) :
    isOpeningTagLine (trimChars l) = isOpeningTagLine l := by
  obtain ⟨s, hx0, hs⟩ := dts_spec (l.dropWhile isSpace)
  have hx : l.dropWhile isSpace = trimChars l ++ s := hx0
  rw [Bool.eq_iff_iff]
  constructor
  · intro h
    obtain ⟨nm, attr, r2, hshape, hnm, hn1, hn2, hno, hhead, hr2⟩ := isOpeningTagLine_dest _ h
    rw [dropWhile_isSpace_trim] at hshape
    have hl : l = l.takeWhile isSpace ++ ('<' :: (nm ++ (attr ++ '>' :: (r2 ++ s)))) := by
      conv_lhs => rw [← List.takeWhile_append_dropWhile (p := isSpace) (l := l)]
      rw [hx, hshape]
      simp
    rw [hl]
    exact isOpeningTagLine_build _ nm attr (r2 ++ s) (fun c hc => List.mem_takeWhile_imp hc)
      hnm hn1 hn2 hno hhead
      (by intro c hc
          rcases List.mem_append.mp hc with h1 | h1
          · exact hr2 c h1
          · exact hs c h1)
  · intro h
    obtain ⟨nm, attr, r2, hshape, hnm, hn1, hn2, hno, hhead, hr2⟩ := isOpeningTagLine_dest _ h
    have htc : trimChars l = '<' :: (nm ++ (attr ++ ['>'])) := by
      show dropTrailingSpace (l.dropWhile isSpace) = _
      rw [hshape]
      have hre : '<' :: (nm ++ (attr ++ '>' :: r2)) = ('<' :: (nm ++ (attr ++ ['>']))) ++ r2 := by
        simp
      rw [hre, dts_append_spaces _ _ (fun c hc => hr2 c hc)]
      apply dts_eq_self
      intro c hc
      have hgl : ('<' :: (nm ++ (attr ++ ['>']))).getLast? = some '>' := by
        simpa using List.getLast?_concat ('<' :: (nm ++ attr))
      rw [hgl] at hc
      have h2 : '>' = c := by simpa using hc
      cases h2; decide
    rw [htc]
    exact isOpeningTagLine_build [] nm attr [] (by simp) hnm hn1 hn2 hno hhead (by simp)

theorem isSelfClosingTagLine_trim (l : List Char) :
    isSelfClosingTagLine (trimChars l) = isSelfClosingTagLine l := by
  obtain ⟨s, hx0, hs⟩ := dts_spec (l.dropWhile isSpace)
  have hx : l.dropWhile isSpace = trimChars l ++ s := hx0
  rw [Bool.eq_iff_iff]
  constructor
  · intro h
    obtain ⟨nm, attr, r2, hshape, hnm, hn1, hn2, hno, hhead, hr2⟩ := isSelfClosingTagLine_dest _ h
    rw [dropWhile_isSpace_trim] at hshape
    have hl : l = l.takeWhile isSpace ++ ('<' :: (nm ++ (attr ++ '/' :: '>' :: (r2 ++ s)))) := by
      conv_lhs => rw [← List.takeWhile_append_dropWhile (p := isSpace) (l := l)]
      rw [hx, hshape]
      simp
    rw [hl]
    exact isSelfClosingTagLine_build _ nm attr (r2 ++ s) (fun c hc => List.mem_takeWhile_imp hc)
      hnm hn1 hn2 hno hhead
      (by intro c hc
          rcases List.mem_append.mp hc with h1 | h1
          · exact hr2 c h1
          · exact hs c h1)
  · intro h
    obtain ⟨nm, attr, r2, hshape, hnm, hn1, hn2, hno, hhead, hr2⟩ := isSelfClosingTagLine_dest _ h
    have htc : trimChars l = '<' :: (nm ++ (attr ++ ['/', '>'])) := by
      show dropTrailingSpace (l.dropWhile isSpace) = _
      rw [hshape]
      have hre : '<' :: (nm ++ (attr ++ '/' :: '>' :: r2))
          = ('<' :: (nm ++ (attr ++ ['/', '>']))) ++ r2 := by
        simp
      rw [hre, dts_append_spaces _ _ (fun c hc => hr2 c hc)]
      apply dts_eq_self
      intro c hc
      have hgl : ('<' :: (nm ++ (attr ++ ['/', '>']))).getLast? = some '>' := by
        simpa using List.getLast?_concat ('<' :: (nm ++ (attr ++ ['/'])))
      rw [hgl] at hc
      have h2 : '>' = c := by simpa using hc
      cases h2; decide
    rw [htc]
    exact isSelfClosingTagLine_build [] nm attr [] (by simp) hnm hn1 hn2 hno hhead (by simp)

theorem splitLinesGo_no_newline : ∀ (a acc : List Char), '\n' ∉ a →
    splitLinesGo acc a = [acc.reverse ++ a] := by
  intro a
  induction a with
  | nil => intro acc h; simp [splitLinesGo]
  | cons c rest ih =>
    intro acc h
    have hr : '\n' ∉ rest := fun hm => h (List.mem_cons_of_mem _ hm)
    rw [splitLinesGo.eq_def]
    split
    · rename_i a2 a1 a0 heq
      exact List.noConfusion heq
    · rename_i a2 a1 a0 r5 heq
      injection heq with h1 h2
      exact absurd (by rw [h2]; exact List.mem_cons_self _ _ : '\n' ∈ rest) hr
    · rename_i a2 a1 a0 r5 heq
      injection heq with h1 h2
      exact absurd (by rw [h1]; exact List.mem_cons_self _ _ : '\n' ∈ c :: rest) h
    · rename_i a4 a3 a2 cc rr g1 g2 heq
      injection heq with h1 h2
      subst h1
      subst h2
      rw [ih (c :: a4) hr]
      simp


theorem splitLinesGo_nil_eq (acc : List Char) : splitLinesGo acc [] = [acc.reverse] := rfl

theorem splitLinesGo_crlf (acc rest : List Char) :
    splitLinesGo acc ('\r' :: '\n' :: rest) = acc.reverse :: splitLinesGo [] rest := rfl

theorem splitLinesGo_lf (acc rest : List Char) :
    splitLinesGo acc ('\n' :: rest) = acc.reverse :: splitLinesGo [] rest := rfl

theorem splitLinesGo_append_line : ∀ (a acc R : List Char), '\n' ∉ a →
    a.getLast? ≠ some '\r' →
    splitLinesGo acc (a ++ '\n' :: R) = (acc.reverse ++ a) :: splitLinesGo [] R := by
  intro a
  induction a with
  | nil =>
    intro acc R h hcr
    simp only [List.nil_append, List.append_nil, splitLinesGo_lf]
  | cons c rest ih =>
    intro acc R h hcr
    have hr : '\n' ∉ rest := fun hm => h (List.mem_cons_of_mem _ hm)
    have hcr2 : rest.getLast? ≠ some '\r' := by
      cases rest with
      | nil => simp
      | cons d r2 =>
        exact fun hx => hcr (by rw [List.getLast?_cons_cons]; exact hx)
    rw [List.cons_append, splitLinesGo.eq_def]
    split
    · rename_i a2 a1 a0 heq
      exact List.noConfusion heq
    · rename_i a2 a1 a0 r5 heq
      injection heq with h1 h2
      cases rest with
      | nil =>
        subst h1
        exact absurd (by decide) hcr
      | cons d rest2 =>
        injection h2 with h3 h4
        exact absurd (by rw [h3]; exact List.mem_cons_self _ _ : '\n' ∈ d :: rest2) hr
    · rename_i a2 a1 a0 r5 heq
      injection heq with h1 h2
      exact absurd (by rw [h1]; exact List.mem_cons_self _ _ : '\n' ∈ c :: rest) h
    · rename_i a4 a3 a2 cc rr g1 g2 heq
      injection heq with h1 h2
      subst h1
      subst h2
      rw [ih (c :: a4) R hr hcr2]
      simp


theorem splitLinesGo_cons_ne (acc : List Char) (c : Char) (rest : List Char)
    (h1 : c = '\n' → False)
    (h2 : ∀ r2, c = '\r' → rest = '\n' :: r2 → False) :
    splitLinesGo acc (c :: rest) = splitLinesGo (c :: acc) rest := by
  rw [splitLinesGo.eq_def]
  split
  · rename_i a2 a1 a0 heq
    exact List.noConfusion heq
  · rename_i a2 a1 a0 r5 heq
    injection heq with g1 g2
    exact (h2 r5 g1 g2).elim
  · rename_i a2 a1 a0 r5 heq
    injection heq with g1 g2
    exact (h1 g1).elim
  · rename_i a4 a3 a2 cc rr g1 g2 heq
    injection heq with g3 g4
    subst g3
    subst g4
    rfl

theorem splitLinesGo_ne_nil : ∀ (acc a : List Char), splitLinesGo acc a ≠ [] := by
  intro acc a
  induction acc, a using splitLinesGo.induct with
  | case1 acc => simp [splitLinesGo_nil_eq]
  | case2 acc rest ih => rw [splitLinesGo_crlf]; simp
  | case3 acc rest ih => rw [splitLinesGo_lf]; simp
  | case4 acc c rest g1 g2 ih =>
    rw [splitLinesGo_cons_ne acc c rest g2 g1]
    exact ih

theorem splitLinesGo_mem_no_newline : ∀ (acc a : List Char), '\n' ∉ acc →
    ∀ l ∈ splitLinesGo acc a, '\n' ∉ l := by
  intro acc a
  induction acc, a using splitLinesGo.induct with
  | case1 acc =>
    intro hacc l hl
    rw [splitLinesGo_nil_eq] at hl
    have h3 : l = acc.reverse := by simpa using hl
    rw [h3]
    simpa using hacc
  | case2 acc rest ih =>
    intro hacc l hl
    rw [splitLinesGo_crlf] at hl
    rcases List.mem_cons.mp hl with h3 | h3
    · rw [h3]; simpa using hacc
    · exact ih (by simp) l h3
  | case3 acc rest ih =>
    intro hacc l hl
    rw [splitLinesGo_lf] at hl
    rcases List.mem_cons.mp hl with h3 | h3
    · rw [h3]; simpa using hacc
    · exact ih (by simp) l h3
  | case4 acc c rest g1 g2 ih =>
    intro hacc l hl
    rw [splitLinesGo_cons_ne acc c rest g2 g1] at hl
    have hacc2 : '\n' ∉ c :: acc := by
      intro hm
      rcases List.mem_cons.mp hm with h3 | h3
      · exact g2 h3.symm
      · exact hacc h3
    exact ih hacc2 l hl

theorem splitLines_no_newline (cs : List Char) : ∀ l ∈ splitLines cs, '\n' ∉ l :=
  splitLinesGo_mem_no_newline [] cs (by simp)

theorem splitLines_ne_nil (cs : List Char) : splitLines cs ≠ [] :=
  splitLinesGo_ne_nil [] cs

theorem splitLines_joinLines : ∀ (L : List (List Char)), L ≠ [] →
    (∀ l ∈ L, '\n' ∉ l) →
    (∀ i l, L.get? i = some l → i + 1 < L.length → l.getLast? ≠ some '\r') →
    splitLines (joinLines L) = L := by
  intro L
  induction L with
  | nil => intro h; exact absurd rfl h
  | cons a L2 ih =>
    intro hne hnl hcr
    cases L2 with
    | nil =>
      show splitLinesGo [] (joinLines [a]) = [a]
      have hj : joinLines [a] = a := by simp [joinLines, List.intercalate]
      rw [hj, splitLinesGo_no_newline a [] (hnl a (List.mem_cons_self _ _))]
      simp
    | cons b L3 =>
      have hj : joinLines (a :: b :: L3) = a ++ '\n' :: joinLines (b :: L3) := rfl
      show splitLinesGo [] (joinLines (a :: b :: L3)) = a :: b :: L3
      rw [hj, splitLinesGo_append_line a [] _ (hnl a (List.mem_cons_self _ _))
        (hcr 0 a rfl (by simp))]
      have hrec : splitLinesGo [] (joinLines (b :: L3)) = b :: L3 := by
        have := ih (by simp) (fun l hl => hnl l (List.mem_cons_of_mem _ hl))
          (by intro i l hget hlt
              exact hcr (i + 1) l (by simpa using hget) (by simpa using hlt))
        exact this
      rw [hrec]
      simp


theorem isFenceLine_out (n : Nat) (l : List Char) :
    isFenceLine (indentStr n ++ trimChars l) = isFenceLine l := by
  rw [isFenceLine_indent, isFenceLine_trim]

theorem isClosingTagLine_out (n : Nat) (l : List Char) :
    isClosingTagLine (indentStr n ++ trimChars l) = isClosingTagLine l := by
  rw [isClosingTagLine_indent, isClosingTagLine_trim]

theorem isOpeningTagLine_out (n : Nat) (l : List Char) :
    isOpeningTagLine (indentStr n ++ trimChars l) = isOpeningTagLine l := by
  rw [isOpeningTagLine_indent, isOpeningTagLine_trim]

theorem isSelfClosingTagLine_out (n : Nat) (l : List Char) :
    isSelfClosingTagLine (indentStr n ++ trimChars l) = isSelfClosingTagLine l := by
  rw [isSelfClosingTagLine_indent, isSelfClosingTagLine_trim]

theorem trim_out (n : Nat) (l : List Char) :
    trimChars (indentStr n ++ trimChars l) = trimChars l := by
  rw [trim_indent, trim_idem]

theorem mem_trimChars {x : Char} {l : List Char} (h : x ∈ trimChars l) : x ∈ l := by
  obtain ⟨s, hy, -⟩ := dts_spec (l.dropWhile isSpace)
  have h0 : x ∈ dropTrailingSpace (l.dropWhile isSpace) := h
  have h2 : x ∈ l.dropWhile isSpace := by rw [hy]; exact List.mem_append_left _ h0
  have h3 : x ∈ l.takeWhile isSpace ++ l.dropWhile isSpace := List.mem_append_right _ h2
  rw [List.takeWhile_append_dropWhile] at h3
  exact h3

theorem trim_no_cr (l : List Char) : (trimChars l).getLast? ≠ some '\r' := by
  intro hx
  have hx2 : (dropTrailingSpace (l.dropWhile isSpace)).getLast? = some '\r' := hx
  have h5 := dts_getLast (l.dropWhile isSpace) '\r' hx2
  exact absurd h5 (by decide)

theorem indent_trim_no_cr (n : Nat) (l : List Char) :
    (indentStr n ++ trimChars l).getLast? ≠ some '\r' := by
  by_cases hb : trimChars l = []
  · rw [hb, List.append_nil]
    intro hx
    have hm : '\r' ∈ indentStr n := List.mem_of_mem_getLast? hx
    have := List.eq_of_mem_replicate hm
    exact absurd this (by decide)
  · intro hx
    rw [List.getLast?_append_of_ne_nil _ hb] at hx
    exact trim_no_cr l hx


theorem foldl_fence_const (b : Bool) :
    ∀ (ls : List (List Char)), (∀ l ∈ ls, isFenceLine l = false) →
      ls.foldl (fun st l => if isFenceLine l then !st else st) b = b := by
  intro ls
  induction ls generalizing b with
  | nil => intro h; rfl
  | cons l rest ih =>
    intro h
    rw [List.foldl_cons, if_neg (by simp [h l (List.mem_cons_self _ _)])]
    exact ih b (fun l2 h2 => h l2 (List.mem_cons_of_mem _ h2))

theorem codeStateAt_no_fence (b : Bool) (ls : List (List Char)) (i : Nat)
    (h : ∀ l ∈ ls, isFenceLine l = false) : codeStateAt b ls i = b := by
  unfold codeStateAt
  exact foldl_fence_const b _ (fun l hl => h l (List.mem_of_mem_take hl))

theorem beautifyGo_length : ∀ (ls : List (List Char)) (ic : Bool) (ind : Nat),
    (beautifyGo ic ind ls).length = ls.length := by
  intro ls
  induction ls with
  | nil => intro ic ind; rfl
  | cons l rest ih =>
    intro ic ind
    simp only [beautifyGo]
    split
    · simp [ih]
    · split
      · simp [ih]
      · split
        · simp [ih]
        · split
          · simp [ih]
          · split
            · simp [ih]
            · split
              · simp [ih]
              · split
                · simp [ih]
                · simp [ih]

theorem beautifyGo_mem_shape : ∀ (ls : List (List Char)) (ic : Bool) (ind : Nat) (z : List Char),
    z ∈ beautifyGo ic ind ls →
    ∃ l ∈ ls, z = l ∨ z = trimChars l ∨ z = [] ∨ ∃ n, z = indentStr n ++ trimChars l := by
  intro ls
  induction ls with
  | nil => intro ic ind z hz; exact absurd hz (by simp [beautifyGo])
  | cons l rest ih =>
    intro ic ind z hz
    simp only [beautifyGo] at hz
    split at hz
    all_goals try split at hz
    all_goals try split at hz
    all_goals try split at hz
    all_goals try split at hz
    all_goals try split at hz
    all_goals try split at hz
    all_goals rcases List.mem_cons.mp hz with h3 | h3
    all_goals try (obtain ⟨l0, hmem, hsh⟩ := ih _ _ _ h3
                   exact ⟨l0, List.mem_cons_of_mem _ hmem, hsh⟩)
    all_goals exact ⟨l, List.mem_cons_self _ _,
      by first
         | exact Or.inl h3
         | exact Or.inr (Or.inl h3)
         | exact Or.inr (Or.inr (Or.inl h3))
         | exact Or.inr (Or.inr (Or.inr ⟨_, h3⟩))⟩


theorem beautifyGo_no_cr : ∀ (ls : List (List Char)) (ic : Bool) (ind : Nat),
    (∀ i l, ls.get? i = some l → codeStateAt ic ls i = true → isFenceLine l = false →
      l.getLast? ≠ some '\r') →
    ∀ z ∈ beautifyGo ic ind ls, z.getLast? ≠ some '\r' := by
  intro ls
  induction ls with
  | nil => intro ic ind h z hz; exact absurd hz (by simp [beautifyGo])
  | cons l rest ih =>
    intro ic ind h z hz
    have htail : ∀ i l0, rest.get? i = some l0 →
        codeStateAt (if isFenceLine l then !ic else ic) rest i = true →
        isFenceLine l0 = false → l0.getLast? ≠ some '\r' := by
      intro i l0 hg hcs hf
      exact h (i + 1) l0 (by simpa using hg) (by rw [codeStateAt_succ]; exact hcs) hf
    simp only [beautifyGo] at hz
    split at hz
    · rename_i hf
      rcases List.mem_cons.mp hz with h3 | h3
      · rw [h3]; exact indent_trim_no_cr ind l
      · refine ih (!ic) ind ?_ z h3
        intro i l0 hg hcs hfz
        exact htail i l0 hg (by rw [if_pos hf]; exact hcs) hfz
    · split at hz
      · rename_i hf hic
        rcases List.mem_cons.mp hz with h3 | h3
        · rw [h3]
          exact h 0 l rfl hic (Bool.eq_false_iff.mpr hf)
        · refine ih ic ind ?_ z h3
          intro i l0 hg hcs hfz
          exact htail i l0 hg (by rw [if_neg hf]; exact hcs) hfz
      · split at hz
        · rename_i hf hic hcl
          rcases List.mem_cons.mp hz with h3 | h3
          · rw [h3]; exact indent_trim_no_cr (ind - 1) l
          · refine ih ic (ind - 1) ?_ z h3
            intro i l0 hg hcs hfz
            exact htail i l0 hg (by rw [if_neg hf]; exact hcs) hfz
        · split at hz
          · rename_i hf hic hcl hsc
            rcases List.mem_cons.mp hz with h3 | h3
            · rw [h3]; exact indent_trim_no_cr ind l
            · refine ih ic ind ?_ z h3
              intro i l0 hg hcs hfz
              exact htail i l0 hg (by rw [if_neg hf]; exact hcs) hfz
          · split at hz
            · rename_i hf hic hcl hsc hop
              rcases List.mem_cons.mp hz with h3 | h3
              · rw [h3]; exact indent_trim_no_cr ind l
              · refine ih ic (ind + 1) ?_ z h3
                intro i l0 hg hcs hfz
                exact htail i l0 hg (by rw [if_neg hf]; exact hcs) hfz
            · split at hz
              · rename_i hf hic hcl hsc hop hh
                rcases List.mem_cons.mp hz with h3 | h3
                · rw [h3]; exact trim_no_cr l
                · refine ih ic ind ?_ z h3
                  intro i l0 hg hcs hfz
                  exact htail i l0 hg (by rw [if_neg hf]; exact hcs) hfz
              · split at hz
                · rename_i hf hic hcl hsc hop hh he
                  rcases List.mem_cons.mp hz with h3 | h3
                  · rw [h3]; simp
                  · refine ih ic ind ?_ z h3
                    intro i l0 hg hcs hfz
                    exact htail i l0 hg (by rw [if_neg hf]; exact hcs) hfz
                · rename_i hf hic hcl hsc hop hh he
                  rcases List.mem_cons.mp hz with h3 | h3
                  · rw [h3]; exact indent_trim_no_cr ind l
                  · refine ih ic ind ?_ z h3
                    intro i l0 hg hcs hfz
                    exact htail i l0 hg (by rw [if_neg hf]; exact hcs) hfz


theorem beautifyGo_idem : ∀ (ls : List (List Char)) (ic : Bool) (ind : Nat),
    (∀ i l, ls.get? i = some l → codeStateAt ic ls i = false →
      isHeaderLine (trimChars l) = isHeaderLine l) →
    beautifyGo ic ind (beautifyGo ic ind ls) = beautifyGo ic ind ls := by
  intro ls
  induction ls with
  | nil => intro ic ind h2; rfl
  | cons l rest ih =>
    intro ic ind h2
    have htail : ∀ i l0, rest.get? i = some l0 →
        codeStateAt (if isFenceLine l then !ic else ic) rest i = false →
        isHeaderLine (trimChars l0) = isHeaderLine l0 := by
      intro i l0 hg hcs
      exact h2 (i + 1) l0 (by simpa using hg) (by rw [codeStateAt_succ]; exact hcs)
    by_cases hf : isFenceLine l = true
    · have hp1 : beautifyGo ic ind (l :: rest)
          = (indentStr ind ++ trimChars l) :: beautifyGo (!ic) ind rest := by
        simp only [beautifyGo]
        rw [if_pos hf]
      rw [hp1]
      have hp2 : beautifyGo ic ind
            ((indentStr ind ++ trimChars l) :: beautifyGo (!ic) ind rest)
          = (indentStr ind ++ trimChars (indentStr ind ++ trimChars l))
              :: beautifyGo (!ic) ind (beautifyGo (!ic) ind rest) := by
        simp only [beautifyGo]
        rw [if_pos (by rw [isFenceLine_out]; exact hf)]
      rw [hp2, trim_out,
        ih (!ic) ind (fun i l0 hg hcs => htail i l0 hg (by rw [if_pos hf]; exact hcs))]
    · by_cases hic : ic = true
      · have hp1 : beautifyGo ic ind (l :: rest) = l :: beautifyGo ic ind rest := by
          simp only [beautifyGo]
          rw [if_neg hf, if_pos hic]
        rw [hp1]
        have hp2 : beautifyGo ic ind (l :: beautifyGo ic ind rest)
            = l :: beautifyGo ic ind (beautifyGo ic ind rest) := by
          simp only [beautifyGo]
          rw [if_neg hf, if_pos hic]
        rw [hp2,
          ih ic ind (fun i l0 hg hcs => htail i l0 hg (by rw [if_neg hf]; exact hcs))]
      · by_cases hcl : isClosingTagLine l = true
        · have hp1 : beautifyGo ic ind (l :: rest)
              = (indentStr (ind - 1) ++ trimChars l) :: beautifyGo ic (ind - 1) rest := by
            simp only [beautifyGo]
            rw [if_neg hf, if_neg hic, if_pos hcl]
          rw [hp1]
          have hp2 : beautifyGo ic ind
                ((indentStr (ind - 1) ++ trimChars l) :: beautifyGo ic (ind - 1) rest)
              = (indentStr (ind - 1) ++ trimChars (indentStr (ind - 1) ++ trimChars l))
                  :: beautifyGo ic (ind - 1) (beautifyGo ic (ind - 1) rest) := by
            simp only [beautifyGo]
            rw [if_neg (by rw [isFenceLine_out]; exact hf), if_neg hic,
              if_pos (by rw [isClosingTagLine_out]; exact hcl)]
          rw [hp2, trim_out,
            ih ic (ind - 1) (fun i l0 hg hcs => htail i l0 hg (by rw [if_neg hf]; exact hcs))]
        · by_cases hsc : isSelfClosingTagLine l = true
          · have hp1 : beautifyGo ic ind (l :: rest)
                = (indentStr ind ++ trimChars l) :: beautifyGo ic ind rest := by
              simp only [beautifyGo]
              rw [if_neg hf, if_neg hic, if_neg hcl, if_pos hsc]
            rw [hp1]
            have hp2 : beautifyGo ic ind
                  ((indentStr ind ++ trimChars l) :: beautifyGo ic ind rest)
                = (indentStr ind ++ trimChars (indentStr ind ++ trimChars l))
                    :: beautifyGo ic ind (beautifyGo ic ind rest) := by
              simp only [beautifyGo]
              rw [if_neg (by rw [isFenceLine_out]; exact hf), if_neg hic,
                if_neg (by rw [isClosingTagLine_out]; exact hcl),
                if_pos (by rw [isSelfClosingTagLine_out]; exact hsc)]
            rw [hp2, trim_out,
              ih ic ind (fun i l0 hg hcs => htail i l0 hg (by rw [if_neg hf]; exact hcs))]
          · by_cases hop : isOpeningTagLine l = true
            · have hp1 : beautifyGo ic ind (l :: rest)
                  = (indentStr ind ++ trimChars l) :: beautifyGo ic (ind + 1) rest := by
                simp only [beautifyGo]
                rw [if_neg hf, if_neg hic, if_neg hcl, if_neg hsc, if_pos hop]
              rw [hp1]
              have hp2 : beautifyGo ic ind
                    ((indentStr ind ++ trimChars l) :: beautifyGo ic (ind + 1) rest)
                  = (indentStr ind ++ trimChars (indentStr ind ++ trimChars l))
                      :: beautifyGo ic (ind + 1) (beautifyGo ic (ind + 1) rest) := by
                simp only [beautifyGo]
                rw [if_neg (by rw [isFenceLine_out]; exact hf), if_neg hic,
                  if_neg (by rw [isClosingTagLine_out]; exact hcl),
                  if_neg (by rw [isSelfClosingTagLine_out]; exact hsc),
                  if_pos (by rw [isOpeningTagLine_out]; exact hop)]
              rw [hp2, trim_out,
                ih ic (ind + 1) (fun i l0 hg hcs => htail i l0 hg (by rw [if_neg hf]; exact hcs))]
            · by_cases hh : isHeaderLine l = true
              · have hp1 : beautifyGo ic ind (l :: rest)
                    = trimChars l :: beautifyGo ic ind rest := by
                  simp only [beautifyGo]
                  rw [if_neg hf, if_neg hic, if_neg hcl, if_neg hsc, if_neg hop, if_pos hh]
                rw [hp1]
                have hic2 : ic = false := Bool.eq_false_iff.mpr hic
                have hh2 : isHeaderLine (trimChars l) = true := by
                  rw [h2 0 l rfl hic2]
                  exact hh
                have hp2 : beautifyGo ic ind (trimChars l :: beautifyGo ic ind rest)
                    = trimChars (trimChars l) :: beautifyGo ic ind (beautifyGo ic ind rest) := by
                  simp only [beautifyGo]
                  rw [if_neg (by rw [isFenceLine_trim]; exact hf), if_neg hic,
                    if_neg (by rw [isClosingTagLine_trim]; exact hcl),
                    if_neg (by rw [isSelfClosingTagLine_trim]; exact hsc),
                    if_neg (by rw [isOpeningTagLine_trim]; exact hop),
                    if_pos hh2]
                rw [hp2, trim_idem,
                  ih ic ind (fun i l0 hg hcs => htail i l0 hg (by rw [if_neg hf]; exact hcs))]
              · by_cases he : (trimChars l).isEmpty = true
                · have hp1 : beautifyGo ic ind (l :: rest)
                      = [] :: beautifyGo ic ind rest := by
                    simp only [beautifyGo]
                    rw [if_neg hf, if_neg hic, if_neg hcl, if_neg hsc, if_neg hop, if_neg hh,
                      if_pos he]
                  rw [hp1]
                  have hp2 : beautifyGo ic ind ([] :: beautifyGo ic ind rest)
                      = [] :: beautifyGo ic ind (beautifyGo ic ind rest) := by
                    simp only [beautifyGo]
                    rw [if_neg (by decide), if_neg hic, if_neg (by decide), if_neg (by decide),
                      if_neg (by decide), if_neg (by decide), if_pos (by decide)]
                  rw [hp2,
                    ih ic ind (fun i l0 hg hcs => htail i l0 hg (by rw [if_neg hf]; exact hcs))]
                · have hp1 : beautifyGo ic ind (l :: rest)
                      = (indentStr ind ++ trimChars l) :: beautifyGo ic ind rest := by
                    simp only [beautifyGo]
                    rw [if_neg hf, if_neg hic, if_neg hcl, if_neg hsc, if_neg hop, if_neg hh,
                      if_neg he]
                  rw [hp1]
                  have hic2 : ic = false := Bool.eq_false_iff.mpr hic
                  have hz0 : isHeaderLine (indentStr ind ++ trimChars l) = false := by
                    rw [isHeaderLine_indent, h2 0 l rfl hic2]
                    exact Bool.eq_false_iff.mpr hh
                  have hp2 : beautifyGo ic ind
                        ((indentStr ind ++ trimChars l) :: beautifyGo ic ind rest)
                      = (indentStr ind ++ trimChars (indentStr ind ++ trimChars l))
                          :: beautifyGo ic ind (beautifyGo ic ind rest) := by
                    simp only [beautifyGo]
                    rw [if_neg (by rw [isFenceLine_out]; exact hf), if_neg hic,
                      if_neg (by rw [isClosingTagLine_out]; exact hcl),
                      if_neg (by rw [isSelfClosingTagLine_out]; exact hsc),
                      if_neg (by rw [isOpeningTagLine_out]; exact hop),
                      if_neg (by rw [hz0]; simp),
                      if_neg (by rw [trim_out]; exact he)]
                  rw [hp2, trim_out,
                    ih ic ind (fun i l0 hg hcs => htail i l0 hg (by rw [if_neg hf]; exact hcs))]


/-- C9 (amended): the beautifier is idempotent on documents in which (a) no
line lying inside a fenced code block (other than a fence line) ends with a
carriage return, and (b) for every line outside code blocks, trimming does
not change whether the line matches the header regex (a bare `## ` loses
the whitespace the regex requires after the hashes, and `## a\r` sheds the
carriage return that made `.*` fail, so headerness can change in either
direction).  Without these hypotheses the law fails, see
`C9_counterexample`. -/
theorem C9_beautify_idempotent_amended (text : List Char)
    (h1 : ∀ i l, (splitLines text).get? i = some l →
      codeStateAt false (splitLines text) i = true → isFenceLine l = false →
      l.getLast? ≠ some '\r')
    (h2 : ∀ i l, (splitLines text).get? i = some l →
      codeStateAt false (splitLines text) i = false →
      isHeaderLine (trimChars l) = isHeaderLine l) :
    beautifyDocument (beautifyDocument text) = beautifyDocument text := by
  show joinLines (beautifyGo false 0 (splitLines (joinLines (beautifyGo false 0 (splitLines text)))))
      = joinLines (beautifyGo false 0 (splitLines text))
  have hL : splitLines (joinLines (beautifyGo false 0 (splitLines text)))
      = beautifyGo false 0 (splitLines text) := by
    apply splitLines_joinLines
    · intro hx
      have hlen := beautifyGo_length (splitLines text) false 0
      rw [hx] at hlen
      exact splitLines_ne_nil text (List.eq_nil_of_length_eq_zero hlen.symm)
    · intro z hz
      obtain ⟨l0, hmem, hsh⟩ := beautifyGo_mem_shape _ _ _ _ hz
      have hl0 : '\n' ∉ l0 := splitLines_no_newline text l0 hmem
      rcases hsh with rfl | rfl | rfl | ⟨n, rfl⟩
      · exact hl0
      · exact fun hm => hl0 (mem_trimChars hm)
      · simp
      · intro hm
        rcases List.mem_append.mp hm with hm1 | hm1
        · exact absurd (List.eq_of_mem_replicate hm1) (by decide)
        · exact hl0 (mem_trimChars hm1)
    · intro i z hg hlt
      exact beautifyGo_no_cr _ _ _ h1 z (List.get?_mem hg)
  rw [hL, beautifyGo_idem _ _ _ h2]

/-- Three counterexamples to the claimed unconditional idempotence: a
header line with no text (`## `) is a header in pass one but its trimmed
output `##` is indented as plain content in pass two; a line ending in
`\r` inside a code block is emitted verbatim, fuses with the following
`\n` of the join into a `\r\n` break, and disappears on the re-split;
and `## a\r` is *not* a header for the regex (`.` cannot match the
carriage return), so pass one indents it as content while trimming turns
it into the header `## a`, which pass two then un-indents. -/
theorem C9_counterexample :
    beautifyDocument (beautifyDocument ("<a>\n## \n</a>").data)
        ≠ beautifyDocument ("<a>\n## \n</a>").data ∧
    beautifyDocument (beautifyDocument ("~~~\nA\r\r\nB").data)
        ≠ beautifyDocument ("~~~\nA\r\r\nB").data ∧
    beautifyDocument (beautifyDocument ("<a>\n## a\r\r\nb").data)
        ≠ beautifyDocument ("<a>\n## a\r\r\nb").data := by
  refine ⟨?_, ?_, ?_⟩
  · decide
  · decide
  · decide

/-- Witness: on `"<a>\nb\n</a>"` (no fences, no headers) both hypotheses
hold and the amended theorem applies. -/
theorem C9_beautify_idempotent_amended_witness :
    beautifyDocument (beautifyDocument ("<a>\nb\n</a>").data)
      = beautifyDocument ("<a>\nb\n</a>").data :=
  C9_beautify_idempotent_amended (("<a>\nb\n</a>").data)
    (by intro i l hg hcs hf
        rw [codeStateAt_no_fence false _ i (by decide)] at hcs
        exact Bool.noConfusion hcs)
    (by intro i l hg hcs
        have hall : ∀ l0 ∈ splitLines (("<a>\nb\n</a>").data),
            isHeaderLine (trimChars l0) = isHeaderLine l0 := by decide
        exact hall l (List.get?_mem hg))

end ClaudeMd
